import Mathlib

/-!
# TGA image codec (tgaimage.h / tgaimage.cpp)

A shallow embedding of the `TGAImage` class: the 18-byte header, the raw and
run-length-encoded readers and writers, the pixel accessors and the two
flips, followed by theorems about them.

Conventions of the embedding.

* A byte (`unsigned char`, `char`, `std::uint8_t`) is a `Fin 256`; a file is the
  list of its bytes, `none` standing for a file that cannot be opened.
* The buffer `m_data` is `Option (List Byte)`: `none` is the null pointer,
  `some d` an allocated array whose cells are `d`.  A store past the end of the
  array changes no cell of the model.
* `int` values are `Int` and `unsigned long` values are `Nat`.  Where the code
  computes in `int` the size of an array it allocates or clears (the
  constructor, `read_tga_file`, `flip_vertically`, `clear`, `scale`) and in the
  loop variables of
  `scale`, the result is kept to 32 bits in two's complement (`wrapInt`), and
  the conversion of an `int` to `unsigned long` is taken modulo `2^64`
  (`toULong`).  The pixel offsets of `get` and `set` and the pixel counts of the
  RLE reader and writer are computed exactly: the theorems about them are about
  images whose buffer has `m_width * m_height * m_bytespp` cells.  The narrowing
  stores into the header fields (`short`, `std::int8_t`) and into a `char` keep
  the low 16 or 8 bits.
* `new unsigned char[n]` throws `std::bad_alloc` when `n` is more than
  `PTRDIFF_MAX` (`canAllocate`); a method that throws has the result `none`.
  Otherwise it yields cells of indeterminate value: cell `i` of a fresh array is
  `uninit i`, for a function `uninit` the method takes as an argument.
* The output stream of the writer is an in-memory byte list that accepts every
  write; the input stream fails when fewer bytes remain than are asked for.
* Loops become structural recursion on a pass count that is shown to be large
  enough (`loadRleLoop_fuel`, `scanChunk_fuel`, `unloadRleLoop_fuel`).

The definitions come first: the code, then the packets and the predicates in
which the specification is phrased.  The theorems follow.
-/

/-- One byte of a file or of a pixel buffer. -/
abbrev Byte := Fin 256

/-- The value of a byte held in a `std::int8_t`. -/
def int8 (b : Byte) : Int := if b.val < 128 then (b.val : Int) else (b.val : Int) - 256

/-- The value of two bytes held in a little-endian `short`. -/
def int16le (lo hi : Byte) : Int :=
  if lo.val + 256 * hi.val < 32768 then ((lo.val + 256 * hi.val : Nat) : Int)
  else ((lo.val + 256 * hi.val : Nat) : Int) - 65536

/-- The byte that holds the low 8 bits of an `int`. -/
def byteOfInt (i : Int) : Byte := ⟨(i % 256).toNat, by omega⟩

/-- The two bytes, low first, that hold the low 16 bits of an `int`. -/
def shortBytes (i : Int) : List Byte := [byteOfInt i, byteOfInt ((i % 65536) / 256)]

/-- Cell `i` of the buffer, for a load the code performs inside the array. -/
def rd (d : List Byte) (i : Nat) : Byte := d.getD i 0

/-- The stores `dst[off] = src[0]`, `dst[off+1] = src[1]`, ... in this order. -/
def storeBytes (dst : List Byte) (off : Nat) : List Byte → List Byte
  | [] => dst
  | b :: rest => storeBytes (dst.set off b) (off + 1) rest

/-- The `n` cells of `d` from offset `off` on. -/
def cells (d : List Byte) (off n : Nat) : List Byte := (d.drop off).take n

/-- The cells of `new unsigned char[n]`. -/
def newArray (uninit : Nat → Byte) (n : Nat) : List Byte := (List.range n).map uninit

/-- The value an `int` holds when the exact result of a signed operation is
`i`: the low 32 bits in two's complement. -/
def wrapInt (i : Int) : Int := (i + 2147483648) % 4294967296 - 2147483648

/-- The conversion of an `int` to `unsigned long`: the value modulo `2^64`, so
that a negative `i` becomes `2^64 + i`. -/
def toULong (i : Int) : Nat := (i % 18446744073709551616).toNat

/-- Whether `new unsigned char[n]` returns an array.  A request for more than
`PTRDIFF_MAX = 2^63 - 1` bytes throws `std::bad_alloc`; the model lets every
smaller request succeed. -/
def canAllocate (n : Nat) : Bool := decide (n < 9223372036854775808)

/-- The call `in.read(dst, n)` on the remaining input: the `n` bytes read and the input left,
or `none` when fewer than `n` bytes remain (the stream is then no longer good). -/
def readBytes (n : Nat) (inp : List Byte) : Option (List Byte × List Byte) :=
  if n ≤ inp.length then some (inp.take n, inp.drop n) else none

/-! ## TGA_Header -/

/-- The packed 18-byte header. -/
structure TGA_Header where
  idlength : Int
  colormaptype : Int
  datatypecode : Int
  colormaporigin : Int
  colormaplength : Int
  colormapdepth : Int
  x_origin : Int
  y_origin : Int
  width : Int
  height : Int
  bitsperpixel : Int
  imagedescriptor : Int
deriving DecidableEq, Repr

/-- The header stored in 18 bytes (`in.read((char*)&header, sizeof(header))`). -/
def TGA_Header.ofBytes (b : List Byte) : TGA_Header where
  idlength := int8 (rd b 0)
  colormaptype := int8 (rd b 1)
  datatypecode := int8 (rd b 2)
  colormaporigin := int16le (rd b 3) (rd b 4)
  colormaplength := int16le (rd b 5) (rd b 6)
  colormapdepth := int8 (rd b 7)
  x_origin := int16le (rd b 8) (rd b 9)
  y_origin := int16le (rd b 10) (rd b 11)
  width := int16le (rd b 12) (rd b 13)
  height := int16le (rd b 14) (rd b 15)
  bitsperpixel := int8 (rd b 16)
  imagedescriptor := int8 (rd b 17)

/-- The 18 bytes of a header (`out.write((char*)&header, sizeof(header))`). -/
def TGA_Header.toBytes (h : TGA_Header) : List Byte :=
  [byteOfInt h.idlength, byteOfInt h.colormaptype, byteOfInt h.datatypecode]
    ++ shortBytes h.colormaporigin ++ shortBytes h.colormaplength
    ++ [byteOfInt h.colormapdepth]
    ++ shortBytes h.x_origin ++ shortBytes h.y_origin
    ++ shortBytes h.width ++ shortBytes h.height
    ++ [byteOfInt h.bitsperpixel, byteOfInt h.imagedescriptor]

/-- The header after `memset(&header, 0, sizeof(header))`. -/
def TGA_Header.zero : TGA_Header :=
  ⟨0, 0, 0, 0, 0, 0, 0, 0, 0, 0, 0, 0⟩

/-- Bit 5 (`0x20`) of the image descriptor is set. -/
def descriptorBit5 (imagedescriptor : Int) : Bool := (imagedescriptor / 32) % 2 = 1

/-- Bit 4 (`0x10`) of the image descriptor is set. -/
def descriptorBit4 (imagedescriptor : Int) : Bool := (imagedescriptor / 16) % 2 = 1

/-! ## TGAColor -/

/-- A colour: the four channel bytes `raw[0..3]` (named `b`, `g`, `r`, `a`) and
the bytes per pixel. -/
structure TGAColor where
  b : Byte
  g : Byte
  r : Byte
  a : Byte
  bytespp : Int
deriving DecidableEq, Repr

/-- The array view `raw[4]` of the channels. -/
def TGAColor.raw (c : TGAColor) : List Byte := [c.b, c.g, c.r, c.a]

/-- The constructor `TGAColor()`: `val(0), bytespp(1)`. -/
def TGAColor.default : TGAColor := ⟨0, 0, 0, 0, 1⟩

/-- The constructor `TGAColor(R, G, B, A)`. -/
def TGAColor.rgba (R G B A : Byte) : TGAColor := ⟨B, G, R, A, 4⟩

/-- The constructor `TGAColor(p, bpp)`: `val(0)`, then `memcpy(raw, p, bpp)`. -/
def TGAColor.ofPtr (p : List Byte) (bpp : Int) : TGAColor :=
  let raw := storeBytes [0, 0, 0, 0] 0 (cells p 0 bpp.toNat)
  ⟨rd raw 0, rd raw 1, rd raw 2, rd raw 3, bpp⟩

/-! ## TGAImage -/

/-- The image: the buffer and the three `int` members. -/
structure TGAImage where
  m_data : Option (List Byte)
  m_width : Int
  m_height : Int
  m_bytespp : Int
deriving DecidableEq, Repr

/-- An allocated image: `m_data` points to an array of exactly
`m_width * m_height * m_bytespp` cells. -/
def TGAImage.Allocated (img : TGAImage) : Prop :=
  ∃ d, img.m_data = some d ∧ (d.length : Int) = img.m_width * img.m_height * img.m_bytespp

/-- The method `TGAImage::get`. -/
def TGAImage.get (img : TGAImage) (x y : Int) : TGAColor :=
  match img.m_data with
  | none => TGAColor.default
  | some d =>
    if x < 0 ∨ y < 0 ∨ x ≥ img.m_width ∨ y ≥ img.m_height then TGAColor.default
    else TGAColor.ofPtr (d.drop ((x + y * img.m_width) * img.m_bytespp).toNat) img.m_bytespp

/-- The method `TGAImage::set`: the returned flag and the image afterwards. -/
def TGAImage.set (img : TGAImage) (x y : Int) (c : TGAColor) : Bool × TGAImage :=
  match img.m_data with
  | none => (false, img)
  | some d =>
    if x < 0 ∨ y < 0 ∨ x ≥ img.m_width ∨ y ≥ img.m_height then (false, img)
    else
      (true, { img with
        m_data := some (storeBytes d ((x + y * img.m_width) * img.m_bytespp).toNat
                          (cells c.raw 0 img.m_bytespp.toNat)) })

/-- The body of the inner loop of `flip_horizontally`: columns `i` and
`m_width - 1 - i` of row `j` change places. -/
def TGAImage.swapPixels (img : TGAImage) (i j : Int) : TGAImage :=
  let c1 := img.get i j
  let c2 := img.get (img.m_width - 1 - i) j
  let img1 := (img.set i j c2).2
  (img1.set (img.m_width - 1 - i) j c1).2

/-- The method `TGAImage::flip_horizontally`. -/
def TGAImage.flip_horizontally (img : TGAImage) : Bool × TGAImage :=
  match img.m_data with
  | none => (false, img)
  | some _ =>
    let half := Int.tdiv img.m_width 2
    (true, (List.range half.toNat).foldl (fun (im : TGAImage) (i : Nat) =>
      (List.range img.m_height.toNat).foldl (fun (im : TGAImage) (j : Nat) =>
        im.swapPixels (i : Int) (j : Int)) im) img)

/-- The body of the loop of `flip_vertically`: the three `memmove` calls that
exchange line `j` with line `m_height - 1 - j`. -/
def swapLines (d : List Byte) (bytes_per_line : Nat) (m_height : Int) (j : Nat) : List Byte :=
  let l1 := j * bytes_per_line
  let l2 := (m_height - 1 - j).toNat * bytes_per_line
  let line := cells d l1 bytes_per_line
  let d1 := storeBytes d l1 (cells d l2 bytes_per_line)
  storeBytes d1 l2 line

/-- The method `TGAImage::flip_vertically`: the returned flag and the image
afterwards, or `none` when the allocation of the line buffer throws. -/
def TGAImage.flip_vertically (img : TGAImage) : Option (Bool × TGAImage) :=
  match img.m_data with
  | none => some (false, img)
  | some d =>
    let bytes_per_line := toULong (wrapInt (img.m_width * img.m_bytespp))
    if canAllocate bytes_per_line then
      let half := Int.tdiv img.m_height 2
      some (true, { img with
        m_data := some ((List.range half.toNat).foldl
          (fun d j => swapLines d bytes_per_line img.m_height j) d) })
    else none

/-! ## Reading -/

/-- The local state of `load_rle_data`: the input left in the stream, the
buffer, and the two counters. -/
structure RleState where
  inp : List Byte
  data : List Byte
  currentpixel : Nat
  currentbyte : Nat
deriving DecidableEq, Repr

/-- The pixel in `colorbuffer` is stored at `currentbyte` and both counters
advance (`m_data[currentbyte++] = colorbuffer.raw[t]` for each `t`, then
`currentpixel++`). -/
def RleState.storePixel (s : RleState) (px : List Byte) : RleState :=
  { s with
    data := storeBytes s.data s.currentbyte px
    currentpixel := s.currentpixel + 1
    currentbyte := s.currentbyte + px.length }

/-- The `for` loop of a raw packet with `n` pixels still to read: each pixel is
read from the stream and stored; `false` when the stream ends or when
`currentpixel` has passed `pixelcount`. -/
def loadRawPacket (bpp pixelcount : Nat) : Nat → RleState → Bool × RleState
  | 0, s => (true, s)
  | n + 1, s =>
    match readBytes bpp s.inp with
    | none => (false, s)
    | some (px, rest) =>
      let s1 := { s with inp := rest }.storePixel px
      if s1.currentpixel > pixelcount then (false, s1)
      else loadRawPacket bpp pixelcount n s1

/-- The `for` loop of a run-length packet with `n` copies of `px` still to
store; `false` when `currentpixel` has passed `pixelcount`. -/
def loadRunPacket (pixelcount : Nat) (px : List Byte) : Nat → RleState → Bool × RleState
  | 0, s => (true, s)
  | n + 1, s =>
    let s1 := s.storePixel px
    if s1.currentpixel > pixelcount then (false, s1)
    else loadRunPacket pixelcount px n s1

/-- One pass through the body of the `do ... while` loop of `load_rle_data`:
the packet header is read, then the packet. -/
def loadPacket (bpp pixelcount : Nat) (s : RleState) : Bool × RleState :=
  match s.inp with
  | [] => (false, s)
  | chunkheader :: rest =>
    if chunkheader.val < 128 then
      loadRawPacket bpp pixelcount (chunkheader.val + 1) { s with inp := rest }
    else
      match readBytes bpp rest with
      | none => (false, { s with inp := rest })
      | some (px, rest1) =>
        loadRunPacket pixelcount px (chunkheader.val - 127) { s with inp := rest1 }

/-- The `do ... while (currentpixel < pixelcount)` loop.  Every pass reads a
packet header, so `fuel` passes suffice for an input of `fuel` bytes; with no
pass left the input is empty and the read of the next header fails. -/
def loadRleLoop (bpp pixelcount : Nat) : Nat → RleState → Bool × RleState
  | 0, s => (false, s)
  | fuel + 1, s =>
    let r := loadPacket bpp pixelcount s
    if r.1 = false then r
    else if r.2.currentpixel < pixelcount then loadRleLoop bpp pixelcount fuel r.2
    else (true, r.2)

/-- The method `TGAImage::load_rle_data` on the input left in the stream: the returned
flag and the image afterwards. -/
def TGAImage.load_rle_data (img : TGAImage) (inp : List Byte) : Bool × TGAImage :=
  let pixelcount := (img.m_width * img.m_height).toNat
  let r := loadRleLoop img.m_bytespp.toNat pixelcount inp.length
    { inp := inp, data := img.m_data.getD [], currentpixel := 0, currentbyte := 0 }
  (r.1, { img with m_data := img.m_data.map (fun _ => r.2.data) })

/-- The end of `read_tga_file`: the flips the image descriptor asks for; `none`
when `flip_vertically` throws. -/
def TGAImage.normalize (img : TGAImage) (imagedescriptor : Int) : Option TGAImage :=
  match (if descriptorBit5 imagedescriptor then some img
         else img.flip_vertically.map Prod.snd) with
  | none => none
  | some img1 =>
    some (if descriptorBit4 imagedescriptor then img1.flip_horizontally.2 else img1)

/-- The part of `read_tga_file` that follows the read of the header: the
members are set from the header and checked, the buffer is allocated, the
pixel data are read and the image is normalized.  The result is `none` when
the allocation of the buffer throws. -/
def TGAImage.readPixelData (img0 : TGAImage) (header : TGA_Header) (rest : List Byte)
    (uninit : Nat → Byte) : Option (Bool × TGAImage) :=
  let img1 := { img0 with
    m_width := header.width
    m_height := header.height
    m_bytespp := Int.tdiv header.bitsperpixel 8 }
  if img1.m_width ≤ 0 ∨ img1.m_height ≤ 0
      ∨ (img1.m_bytespp ≠ 1 ∧ img1.m_bytespp ≠ 3 ∧ img1.m_bytespp ≠ 4) then
    some (false, img1)
  else
    let nbytes := toULong (wrapInt (wrapInt (img1.m_bytespp * img1.m_width) * img1.m_height))
    if canAllocate nbytes then
      let img2 := { img1 with m_data := some (newArray uninit nbytes) }
      if header.datatypecode = 3 ∨ header.datatypecode = 2 then
        let img3 := { img2 with
          m_data := some (storeBytes (newArray uninit nbytes) 0 (rest.take nbytes)) }
        match readBytes nbytes rest with
        | none => some (false, img3)
        | some _ => (img3.normalize header.imagedescriptor).map (fun im => (true, im))
      else if header.datatypecode = 10 ∨ header.datatypecode = 11 then
        let r := img2.load_rle_data rest
        if r.1 = false then some (false, r.2)
        else (r.2.normalize header.imagedescriptor).map (fun im => (true, im))
      else some (false, img2)
    else none

/-- The method `TGAImage::read_tga_file` on the content of the named file (`none` when it
cannot be opened): the returned flag and the image afterwards, or `none` when
the method throws. -/
def TGAImage.read_tga_file (img : TGAImage) (file : Option (List Byte))
    (uninit : Nat → Byte) : Option (Bool × TGAImage) :=
  let img0 := { img with m_data := none }
  match file with
  | none => some (false, img0)
  | some content =>
    match readBytes 18 content with
    | none => some (false, img0)
    | some (hbytes, rest) => img0.readPixelData (TGA_Header.ofBytes hbytes) rest uninit

/-! ## Writing -/

/-- The `for` loop that sets `succ_eq`: the pixel at `curbyte` and the next one
agree in every byte. -/
def succEq (d : List Byte) (bpp curbyte : Nat) : Bool :=
  (List.range bpp).all (fun t => rd d (curbyte + t) == rd d (curbyte + t + bpp))

/-- The inner `while` loop of `unload_rle_data` from the state
(`curbyte`, `run_length`, `raw`): the final `run_length` and `raw`.  Every
pass that does not leave the loop adds one to `run_length`, which the loop
keeps below `max_chunk_length`, so `fuel` is the number of passes left. -/
def scanChunk (d : List Byte) (bpp npixels curpix : Nat) :
    Nat → Nat → Nat → Bool → Nat × Bool
  | 0, _, run_length, raw => (run_length, raw)
  | fuel + 1, curbyte, run_length, raw =>
    if curpix + run_length < npixels ∧ run_length < 128 then
      let succ_eq := succEq d bpp curbyte
      let raw1 := if 1 = run_length then !succ_eq else raw
      if raw1 ∧ succ_eq then (run_length - 1, raw1)
      else if !raw1 ∧ !succ_eq then (run_length, raw1)
      else scanChunk d bpp npixels curpix fuel (curbyte + bpp) (run_length + 1) raw1
    else (run_length, raw)

/-- The outer `while (curpix < npixels)` loop of `unload_rle_data`: the bytes
put on the stream.  A pass advances `curpix`, so `fuel` is the number of
pixels left. -/
def unloadRleLoop (d : List Byte) (bpp npixels : Nat) : Nat → Nat → List Byte
  | 0, _ => []
  | fuel + 1, curpix =>
    if curpix < npixels then
      let chunkstart := curpix * bpp
      let r := scanChunk d bpp npixels curpix 128 (curpix * bpp) 1 true
      let run_length := r.1
      let raw := r.2
      let header : Byte := byteOfInt (if raw then (run_length : Int) - 1 else (run_length : Int) + 128 - 1)
      (header :: cells d chunkstart (if raw then run_length * bpp else bpp))
        ++ unloadRleLoop d bpp npixels fuel (curpix + run_length)
    else []

/-- The method `TGAImage::unload_rle_data`: the returned flag and the bytes written. -/
def TGAImage.unload_rle_data (img : TGAImage) : Bool × List Byte :=
  let npixels := (img.m_width * img.m_height).toNat
  (true, unloadRleLoop (img.m_data.getD []) img.m_bytespp.toNat npixels npixels 0)

/-- The 18 bytes of `footer`: the signature, the dot and the terminating zero. -/
def footer : List Byte :=
  [84, 82, 85, 69, 86, 73, 83, 73, 79, 78, 45, 88, 70, 73, 76, 69, 46, 0]

/-- The header `write_tga_file` fills in. -/
def TGAImage.header (img : TGAImage) (rle : Bool) : TGA_Header :=
  { TGA_Header.zero with
    bitsperpixel := img.m_bytespp * 8
    width := img.m_width
    height := img.m_height
    datatypecode := if img.m_bytespp = 1 then (if rle then 11 else 3) else (if rle then 10 else 2)
    imagedescriptor := 32 }

/-- The method `TGAImage::write_tga_file`: the returned flag and the content of the file
written. -/
def TGAImage.write_tga_file (img : TGAImage) (rle : Bool) : Bool × List Byte :=
  let developer_area_ref : List Byte := [0, 0, 0, 0]
  let extension_area_ref : List Byte := [0, 0, 0, 0]
  let body :=
    if rle = false then
      cells (img.m_data.getD []) 0 (img.m_width * img.m_height * img.m_bytespp).toNat
    else img.unload_rle_data.2
  (true, (img.header rle).toBytes ++ body ++ developer_area_ref ++ extension_area_ref ++ footer)

/-! ## RLE packets as the specification describes them -/

/-- A packet of an RLE stream in the words of the specification: the
packet-header byte and the pixel bytes that follow it. -/
structure Packet where
  header : Byte
  payload : List Byte
deriving DecidableEq, Repr

/-- The number of pixels a packet stands for: `byte + 1` for a raw packet
(header byte below 128), `byte - 127` for a run packet. -/
def Packet.count (p : Packet) : Nat :=
  if p.header.val < 128 then p.header.val + 1 else p.header.val - 127

/-- The number of pixels that follow the header byte in the stream: `count`
for a raw packet, one for a run packet. -/
def Packet.stored (p : Packet) : Nat :=
  if p.header.val < 128 then p.header.val + 1 else 1

/-- A complete packet: all the pixels that follow the header byte are there. -/
def Packet.Complete (bpp : Nat) (p : Packet) : Prop :=
  p.payload.length = p.stored * bpp

instance (bpp : Nat) (p : Packet) : Decidable (p.Complete bpp) :=
  inferInstanceAs (Decidable (p.payload.length = p.stored * bpp))

/-- The bytes of a packet in the stream. -/
def Packet.bytes (p : Packet) : List Byte := p.header :: p.payload

/-- The expansion of a packet: the pixels of a raw packet verbatim, the pixel
of a run packet `count` times. -/
def Packet.expand (p : Packet) : List Byte :=
  if p.header.val < 128 then p.payload
  else (List.replicate (p.header.val - 127) p.payload).flatten

/-- The number of pixels a sequence of packets stands for. -/
def pixelTotal (ps : List Packet) : Nat := (ps.map Packet.count).sum

/-- What can follow complete packets that stand for `done` pixels, fewer than
`pixelcount`, in a stream the specification calls bad: the stream ends where a
packet header is due, or it ends inside the pixels of the next packet, or the
next packet takes the number of pixels past `pixelcount`. -/
inductive BadTail (bpp pixelcount done : Nat) : List Byte → Prop
  | endOfStream : BadTail bpp pixelcount done []
  | truncated (header : Byte) (payload : List Byte) :
      payload.length < (Packet.mk header payload).stored * bpp →
      BadTail bpp pixelcount done (header :: payload)
  | overrun (header : Byte) (rest : List Byte) :
      done + (Packet.mk header rest).count > pixelcount →
      BadTail bpp pixelcount done (header :: rest)

/-- The checks of `read_tga_file` that come before the allocation of the buffer
all pass: the file opens, its 18 header bytes are read, and the width, the
height and the bytes per pixel are accepted. -/
def headerAccepted (file : Option (List Byte)) : Prop :=
  match file with
  | none => False
  | some content =>
    match readBytes 18 content with
    | none => False
    | some (hbytes, _) =>
      ¬ ((TGA_Header.ofBytes hbytes).width ≤ 0 ∨ (TGA_Header.ofBytes hbytes).height ≤ 0
        ∨ (Int.tdiv (TGA_Header.ofBytes hbytes).bitsperpixel 8 ≠ 1
          ∧ Int.tdiv (TGA_Header.ofBytes hbytes).bitsperpixel 8 ≠ 3
          ∧ Int.tdiv (TGA_Header.ofBytes hbytes).bitsperpixel 8 ≠ 4))

/-! ## Constructors, clear and scale -/

/-- The constructor `TGAImage()`: no buffer, all members zero. -/
def TGAImage.TGAImage0 : TGAImage := ⟨none, 0, 0, 0⟩

/-- The constructor `TGAImage(w, h, bpp)`: the members are set, `nbytes` is
the `int` product `m_width * m_height * m_bytespp` converted to
`unsigned long`, and the buffer is `nbytes` zero bytes.  The result is `none`
when the allocation throws. -/
def TGAImage.TGAImage3 (w h bpp : Int) : Option TGAImage :=
  let nbytes := toULong (wrapInt (wrapInt (w * h) * bpp))
  if canAllocate nbytes then some ⟨some (List.replicate nbytes 0), w, h, bpp⟩
  else none

/-- The method `TGAImage::clear`: `memset(m_data, 0, m_width * m_height * m_bytespp)`,
the count being the `int` product converted to `size_t`. -/
def TGAImage.clear (img : TGAImage) : TGAImage :=
  { img with
    m_data := img.m_data.map (fun d =>
      storeBytes d 0 (List.replicate
        (toULong (wrapInt (wrapInt (img.m_width * img.m_height) * img.m_bytespp))) 0)) }

/-- The variables of the loop over the columns in `scale`. -/
structure ScaleRow where
  tdata : List Byte
  errx : Int
  nx : Int
  ox : Int
deriving DecidableEq, Repr

/-- The variables of the loop over the scanlines in `scale`. -/
structure ScaleState where
  tdata : List Byte
  nscanline : Int
  oscanline : Int
  erry : Int
deriving DecidableEq, Repr

/-- The loop `while (errx >= (int)m_width)` of `scale`: each pass takes
`m_width` off `errx`, moves `nx` on by one pixel and copies the pixel at
`oscanline + ox` of the old buffer to `nscanline + nx` of the new one.  The
loop is entered only with `m_width > 0`, so `fuel = errx` passes suffice. -/
def scaleCopyLoop (m_data : List Byte) (m_width m_bytespp nscanline oscanline : Int) :
    Nat → ScaleRow → ScaleRow
  | 0, s => s
  | fuel + 1, s =>
    if s.errx ≥ m_width then
      scaleCopyLoop m_data m_width m_bytespp nscanline oscanline fuel
        { s with
          errx := wrapInt (s.errx - m_width)
          nx := wrapInt (s.nx + m_bytespp)
          tdata := storeBytes s.tdata (nscanline + wrapInt (s.nx + m_bytespp)).toNat
            (cells m_data (oscanline + s.ox).toNat m_bytespp.toNat) }
    else s

/-- The body of `for (int i = 0; i < m_width; i++)` in `scale`. -/
def scaleColumn (m_data : List Byte) (m_width m_bytespp w nscanline oscanline : Int)
    (s : ScaleRow) : ScaleRow :=
  let s1 := { s with ox := wrapInt (s.ox + m_bytespp), errx := wrapInt (s.errx + w) }
  scaleCopyLoop m_data m_width m_bytespp nscanline oscanline s1.errx.toNat s1

/-- The loop `while (erry >= (int)m_height)` of `scale`: each pass takes
`m_height` off `erry` and moves `nscanline` on by one line, after copying the
line just written to the next one when `erry >= m_height << 1`.  The loop is
entered only with `m_height > 0`, so `fuel = erry` passes suffice. -/
def scaleAdvanceLoop (m_height : Int) (nlinebytes : Nat) : Nat → ScaleState → ScaleState
  | 0, s => s
  | fuel + 1, s =>
    if s.erry ≥ m_height then
      scaleAdvanceLoop m_height nlinebytes fuel
        { s with
          tdata :=
            if s.erry ≥ wrapInt (m_height * 2) then
              storeBytes s.tdata (s.nscanline + nlinebytes).toNat
                (cells s.tdata s.nscanline.toNat nlinebytes)
            else s.tdata
          erry := wrapInt (s.erry - m_height)
          nscanline := wrapInt (s.nscanline + nlinebytes) }
    else s

/-- The body of `for (int j = 0; j < m_height; j++)` in `scale`. -/
def scaleLine (m_data : List Byte) (m_width m_height m_bytespp w h : Int)
    (nlinebytes olinebytes : Nat) (s : ScaleState) : ScaleState :=
  let row := (List.range m_width.toNat).foldl
    (fun (r : ScaleRow) (_ : Nat) =>
      scaleColumn m_data m_width m_bytespp w s.nscanline s.oscanline r)
    { tdata := s.tdata, errx := 0, nx := wrapInt (-m_bytespp), ox := wrapInt (-m_bytespp) }
  let s1 := { s with
    tdata := row.tdata
    erry := wrapInt (s.erry + h)
    oscanline := wrapInt (s.oscanline + olinebytes) }
  scaleAdvanceLoop m_height nlinebytes s1.erry.toNat s1

/-- The method `TGAImage::scale`: the returned flag and the image afterwards,
or `none` when the allocation of the new buffer throws. -/
def TGAImage.scale (img : TGAImage) (w h : Int) (uninit : Nat → Byte) :
    Option (Bool × TGAImage) :=
  match img.m_data with
  | none => some (false, img)
  | some d =>
    if w ≤ 0 ∨ h ≤ 0 then some (false, img)
    else
      let nbytes := toULong (wrapInt (wrapInt (w * h) * img.m_bytespp))
      if canAllocate nbytes then
        let tdata := newArray uninit nbytes
        let nlinebytes := toULong (wrapInt (w * img.m_bytespp))
        let olinebytes := toULong (wrapInt (img.m_width * img.m_bytespp))
        let s := (List.range img.m_height.toNat).foldl
          (fun (s : ScaleState) (_ : Nat) =>
            scaleLine d img.m_width img.m_height img.m_bytespp w h nlinebytes olinebytes s)
          { tdata := tdata, nscanline := 0, oscanline := 0, erry := 0 }
        some (true,
          { m_data := some s.tdata, m_width := w, m_height := h, m_bytespp := img.m_bytespp })
      else none

/-- The invariant the specification gives for a pixel buffer: 1, 3 or 4 bytes
per pixel, positive width and height, and a buffer of exactly
`width * height * bytesPerPixel` bytes. -/
def TGAImage.Invariant (img : TGAImage) : Prop :=
  (img.m_bytespp = 1 ∨ img.m_bytespp = 3 ∨ img.m_bytespp = 4)
  ∧ 0 < img.m_width ∧ 0 < img.m_height
  ∧ ∃ d, img.m_data = some d ∧ (d.length : Int) = img.m_width * img.m_height * img.m_bytespp

/-- The images the amended buffer invariant speaks of: those built by the
constructor `TGAImage(w, h, bpp)` with positive `w`, `h`, `bpp` in `{1, 3, 4}`
and `w * h * bpp` within `int`, those left by a `read_tga_file` that returned
true, and every image one of these becomes by a call of `set`,
`flip_horizontally`, `flip_vertically`, `clear` or `scale` that returns (true
or false), where the target of `scale`, if it is positive, has
`w * h * bytesPerPixel` within `int`. -/
inductive TGAImage.Obtained : TGAImage → Prop
  | construct (w h bpp : Int) (img : TGAImage) (hw : 0 < w) (hh : 0 < h)
      (hb : bpp = 1 ∨ bpp = 3 ∨ bpp = 4) (hfit : w * h * bpp ≤ 2147483647)
      (hc : TGAImage.TGAImage3 w h bpp = some img) : TGAImage.Obtained img
  | read (img0 img : TGAImage) (file : Option (List Byte)) (uninit : Nat → Byte)
      (hok : img0.read_tga_file file uninit = some (true, img)) : TGAImage.Obtained img
  | set (img : TGAImage) (x y : Int) (c : TGAColor) (h : TGAImage.Obtained img) :
      TGAImage.Obtained (img.set x y c).2
  | flip_horizontally (img : TGAImage) (h : TGAImage.Obtained img) :
      TGAImage.Obtained img.flip_horizontally.2
  | flip_vertically (img : TGAImage) (r : Bool × TGAImage) (h : TGAImage.Obtained img)
      (hr : img.flip_vertically = some r) : TGAImage.Obtained r.2
  | clear (img : TGAImage) (h : TGAImage.Obtained img) : TGAImage.Obtained img.clear
  | scale (img : TGAImage) (w h : Int) (uninit : Nat → Byte) (r : Bool × TGAImage)
      (hi : TGAImage.Obtained img)
      (hfit : 0 < w → 0 < h → w * h * img.m_bytespp ≤ 2147483647)
      (hr : img.scale w h uninit = some r) : TGAImage.Obtained r.2

/-! ## The stores of the decoder

Every store of `load_rle_data` is `m_data[currentbyte++] = colorbuffer.raw[t]`.
The functions below follow the loops of the decoder once more and list the
offsets of these stores in the order in which they happen; the state of the
loops is the one the functions above compute. -/

/-- The offsets of the stores of one pixel, `currentbyte`, `currentbyte + 1`, ... -/
def RleState.storeOffsets (s : RleState) (px : List Byte) : List Nat :=
  (List.range px.length).map (fun t => s.currentbyte + t)

/-- The offsets stored to by the `for` loop of a raw packet. -/
def loadRawPacketStores (bpp pixelcount : Nat) : Nat → RleState → List Nat
  | 0, _ => []
  | n + 1, s =>
    match readBytes bpp s.inp with
    | none => []
    | some (px, rest) =>
      let s1 := { s with inp := rest }.storePixel px
      s.storeOffsets px ++
        (if s1.currentpixel > pixelcount then []
         else loadRawPacketStores bpp pixelcount n s1)

/-- The offsets stored to by the `for` loop of a run-length packet. -/
def loadRunPacketStores (pixelcount : Nat) (px : List Byte) : Nat → RleState → List Nat
  | 0, _ => []
  | n + 1, s =>
    let s1 := s.storePixel px
    s.storeOffsets px ++
      (if s1.currentpixel > pixelcount then []
       else loadRunPacketStores pixelcount px n s1)

/-- The offsets stored to by one pass through the body of the `do ... while`
loop. -/
def loadPacketStores (bpp pixelcount : Nat) (s : RleState) : List Nat :=
  match s.inp with
  | [] => []
  | chunkheader :: rest =>
    if chunkheader.val < 128 then
      loadRawPacketStores bpp pixelcount (chunkheader.val + 1) { s with inp := rest }
    else
      match readBytes bpp rest with
      | none => []
      | some (px, rest1) =>
        loadRunPacketStores pixelcount px (chunkheader.val - 127) { s with inp := rest1 }

/-- The offsets stored to by the `do ... while (currentpixel < pixelcount)`
loop. -/
def loadRleLoopStores (bpp pixelcount : Nat) : Nat → RleState → List Nat
  | 0, _ => []
  | fuel + 1, s =>
    let r := loadPacket bpp pixelcount s
    loadPacketStores bpp pixelcount s ++
      (if r.1 = false then []
       else if r.2.currentpixel < pixelcount then loadRleLoopStores bpp pixelcount fuel r.2
       else [])

/-- The offsets into `m_data` of all the byte stores of `load_rle_data`, in
the order in which they happen. -/
def TGAImage.load_rle_data_stores (img : TGAImage) (inp : List Byte) : List Nat :=
  loadRleLoopStores img.m_bytespp.toNat (img.m_width * img.m_height).toNat inp.length
    { inp := inp, data := img.m_data.getD [], currentpixel := 0, currentbyte := 0 }

/-! ## The stores of the resampler

Every store of `scale` is a `memcpy` into `tdata`.  The functions below follow
the loops of `scale` once more and list, for each `memcpy`, the offset of its
destination in `tdata` and the number of bytes it copies; the state of the
loops is the one the functions above compute. -/

/-- The destinations `nscanline + nx` of the copies made by the loop
`while (errx >= m_width)`. -/
def scaleCopyLoopStores (m_data : List Byte) (m_width m_bytespp nscanline oscanline : Int) :
    Nat → ScaleRow → List Int
  | 0, _ => []
  | fuel + 1, s =>
    if s.errx ≥ m_width then
      (nscanline + wrapInt (s.nx + m_bytespp)) ::
        scaleCopyLoopStores m_data m_width m_bytespp nscanline oscanline fuel
          { s with
            errx := wrapInt (s.errx - m_width)
            nx := wrapInt (s.nx + m_bytespp)
            tdata := storeBytes s.tdata (nscanline + wrapInt (s.nx + m_bytespp)).toNat
              (cells m_data (oscanline + s.ox).toNat m_bytespp.toNat) }
    else []

/-- The destinations of the copies made by one pass of the loop over the
columns. -/
def scaleColumnStores (m_data : List Byte) (m_width m_bytespp w nscanline oscanline : Int)
    (s : ScaleRow) : List Int :=
  let s1 := { s with ox := wrapInt (s.ox + m_bytespp), errx := wrapInt (s.errx + w) }
  scaleCopyLoopStores m_data m_width m_bytespp nscanline oscanline s1.errx.toNat s1

/-- The destinations of the line copies made by the loop
`while (erry >= m_height)`, each of `nlinebytes` bytes. -/
def scaleAdvanceLoopStores (m_height : Int) (nlinebytes : Nat) : Nat → ScaleState → List Int
  | 0, _ => []
  | fuel + 1, s =>
    if s.erry ≥ m_height then
      (if s.erry ≥ wrapInt (m_height * 2) then [s.nscanline + nlinebytes] else []) ++
        scaleAdvanceLoopStores m_height nlinebytes fuel
          { s with
            tdata := if s.erry ≥ wrapInt (m_height * 2) then
                storeBytes s.tdata (s.nscanline + nlinebytes).toNat
                  (cells s.tdata s.nscanline.toNat nlinebytes)
              else s.tdata
            erry := wrapInt (s.erry - m_height)
            nscanline := wrapInt (s.nscanline + nlinebytes) }
    else []

/-- The copies made by one pass of the loop over the scanlines, each with its
destination and its number of bytes: the pixel copies of every column, taken
from the state the loop over the columns has reached there, then the line
copies. -/
def scaleLineStores (m_data : List Byte) (m_width m_height m_bytespp w h : Int)
    (nlinebytes olinebytes : Nat) (s : ScaleState) : List (Int × Nat) :=
  let column := fun (r : ScaleRow) (_ : Nat) =>
    scaleColumn m_data m_width m_bytespp w s.nscanline s.oscanline r
  let start : ScaleRow :=
    { tdata := s.tdata, errx := 0, nx := wrapInt (-m_bytespp), ox := wrapInt (-m_bytespp) }
  let pixels := (List.range m_width.toNat).flatMap (fun i =>
    (scaleColumnStores m_data m_width m_bytespp w s.nscanline s.oscanline
      ((List.range i).foldl column start)).map (fun o => (o, m_bytespp.toNat)))
  let row := (List.range m_width.toNat).foldl column start
  let s1 := { s with
    tdata := row.tdata
    erry := wrapInt (s.erry + h)
    oscanline := wrapInt (s.oscanline + olinebytes) }
  pixels ++ (scaleAdvanceLoopStores m_height nlinebytes s1.erry.toNat s1).map
    (fun o => (o, nlinebytes))

/-- The copies into `tdata` made by `scale`, in the order in which they
happen, each with the offset of its destination and its number of bytes; the
copies of scanline `j` are taken from the state the loop over the scanlines has
reached there.  There are none when `scale` returns at once or the allocation
throws. -/
def TGAImage.scaleStores (img : TGAImage) (w h : Int) (uninit : Nat → Byte) : List (Int × Nat) :=
  match img.m_data with
  | none => []
  | some d =>
    if w ≤ 0 ∨ h ≤ 0 then []
    else
      let nbytes := toULong (wrapInt (wrapInt (w * h) * img.m_bytespp))
      if canAllocate nbytes then
        let tdata := newArray uninit nbytes
        let nlinebytes := toULong (wrapInt (w * img.m_bytespp))
        let olinebytes := toULong (wrapInt (img.m_width * img.m_bytespp))
        let line := fun (s : ScaleState) (_ : Nat) =>
          scaleLine d img.m_width img.m_height img.m_bytespp w h nlinebytes olinebytes s
        (List.range img.m_height.toNat).flatMap (fun j =>
          scaleLineStores d img.m_width img.m_height img.m_bytespp w h nlinebytes olinebytes
            ((List.range j).foldl line
              { tdata := tdata, nscanline := 0, oscanline := 0, erry := 0 }))
      else []

/-- The closed form of the nearest-neighbour map in the words of the
specification: `ceil((k + 1) * W / w) - 1`, the index of the old pixel that new
pixel `k` shows when `W` old pixels become `w` new ones. -/
def sourceIndex (k W w : Nat) : Nat := ((k + 1) * W + w - 1) / w - 1

/-! ## Basic facts -/

theorem readBytes_append (a b : List Byte) (n : Nat) (h : a.length = n) :
    readBytes n (a ++ b) = some (a, b) := by
  subst h
  simp [readBytes]

theorem int8_range (b : Byte) : -128 ≤ int8 b ∧ int8 b ≤ 127 := by
  unfold int8
  have := b.isLt
  split <;> omega

theorem int16le_range (lo hi : Byte) : -32768 ≤ int16le lo hi ∧ int16le lo hi ≤ 32767 := by
  unfold int16le
  have := lo.isLt
  have := hi.isLt
  split <;> omega

/-- Truncating division by 8 of a byte read as `std::int8_t`, in closed form. -/
theorem tdiv_int8 (b : Byte) :
    Int.tdiv (int8 b) 8
      = if b.val < 128 then ((b.val / 8 : Nat) : Int) else -(((256 - b.val) / 8 : Nat) : Int) := by
  have hb := b.isLt
  unfold int8
  split
  · rw [Int.tdiv_eq_ediv (by omega) (by omega)]
    norm_cast
  · have : ((b.val : Int) - 256) = -(((256 - b.val : Nat)) : Int) := by omega
    rw [this, Int.neg_tdiv, Int.tdiv_eq_ediv (by omega) (by omega)]
    norm_cast

/-- The bits-per-pixel bytes that give 1, 3 and 4 bytes per pixel. -/
theorem bytespp_of_bits (b : Byte) :
    (Int.tdiv (int8 b) 8 = 1 ↔ 8 ≤ b.val ∧ b.val ≤ 15)
    ∧ (Int.tdiv (int8 b) 8 = 3 ↔ 24 ≤ b.val ∧ b.val ≤ 31)
    ∧ (Int.tdiv (int8 b) 8 = 4 ↔ 32 ≤ b.val ∧ b.val ≤ 39) := by
  have hb := b.isLt
  rw [tdiv_int8]
  split <;> omega

theorem int8_eq_small (b : Byte) (k : Nat) (hk : k < 128) : int8 b = (k : Int) ↔ b.val = k := by
  have hb := b.isLt
  unfold int8
  split <;> omega

/-- An exact result inside the range of `int` is the value the `int` holds. -/
theorem wrapInt_eq (i : Int) (h1 : -2147483648 ≤ i) (h2 : i ≤ 2147483647) : wrapInt i = i := by
  unfold wrapInt
  omega

/-- An exact result from `2^31` to `2^32 - 1` wraps to a negative `int`. -/
theorem wrapInt_high (i : Int) (h1 : 2147483648 ≤ i) (h2 : i ≤ 4294967295) :
    wrapInt i = i - 4294967296 := by
  unfold wrapInt
  omega

/-- A non-negative `int` is converted to `unsigned long` unchanged. -/
theorem toULong_eq (i : Int) (h1 : 0 ≤ i) (h2 : i ≤ 2147483647) : toULong i = i.toNat := by
  unfold toULong
  rw [Int.emod_eq_of_lt h1 (by omega)]

/-- An array of at most `INT_MAX` bytes can be allocated. -/
theorem canAllocate_small (n : Nat) (h : n ≤ 2147483647) : canAllocate n = true := by
  unfold canAllocate
  rw [decide_eq_true_eq]
  omega

/-- A negative `int` becomes a size that cannot be allocated. -/
theorem canAllocate_negative (i : Int) (h1 : -2147483648 ≤ i) (h2 : i < 0) :
    canAllocate (toULong i) = false := by
  unfold canAllocate toULong
  rw [decide_eq_false_iff_not]
  omega

/-- The size `a * b * c` computed in `int` from a natural `a * b` and a
positive `c`, when the product is within `int`. -/
theorem size_fits (a b c : Int) (hab : 0 ≤ a * b) (hc : 0 < c)
    (hfit : a * b * c ≤ 2147483647) :
    toULong (wrapInt (wrapInt (a * b) * c)) = (a * b * c).toNat
    ∧ canAllocate (toULong (wrapInt (wrapInt (a * b) * c))) = true := by
  have h1 : a * b ≤ a * b * c := le_mul_of_one_le_right hab hc
  have h0 : 0 ≤ a * b * c := Int.mul_nonneg hab (by omega)
  rw [wrapInt_eq (a * b) (by omega) (by omega), wrapInt_eq (a * b * c) (by omega) hfit,
    toULong_eq _ h0 hfit]
  exact ⟨rfl, canAllocate_small _ (by omega)⟩

/-- The size `a * b * c` computed in `int` when the exact product is from
`2^31` to `2^32 - 1`: the request cannot be allocated. -/
theorem size_throws (a b c : Int) (h1 : 0 ≤ a * b) (h2 : a * b ≤ 2147483647)
    (h3 : 2147483648 ≤ a * b * c) (h4 : a * b * c ≤ 4294967295) :
    canAllocate (toULong (wrapInt (wrapInt (a * b) * c))) = false := by
  rw [wrapInt_eq (a * b) (by omega) h2, wrapInt_high _ h3 h4]
  exact canAllocate_negative _ (by omega) (by omega)

/-! ## Header validation -/

/-- C3 (as stated, refuted): a header whose bits-per-pixel byte is 9, which is
none of 8, 24 and 32, is accepted: the 1x1 file is read as a grayscale image. -/
theorem read_accepts_nine_bits_per_pixel :
    (rd [0, 0, 3, 0, 0, 0, 0, 0, 0, 0, 0, 0, 1, 0, 1, 0, 9, 32] 16).val = 9
    ∧ (TGAImage.mk none 0 0 0).read_tga_file
        (some ([0, 0, 3, 0, 0, 0, 0, 0, 0, 0, 0, 0, 1, 0, 1, 0, 9, 32] ++ [5])) (fun _ => 0)
      = some (true, ⟨some [5], 1, 1, 1⟩) := by
  decide

/-- C3 (amended): `read_tga_file` fails on every 18-byte header whose
bits-per-pixel byte lies outside 8..15 and 24..39, that is, whose quotient by 8
is none of 1, 3 and 4, whatever the other header bytes and the rest of the
file are. -/
theorem read_rejects_bits_per_pixel (img : TGAImage) (hdr rest : List Byte)
    (uninit : Nat → Byte) (hlen : hdr.length = 18)
    (hbits : ¬ (8 ≤ (rd hdr 16).val ∧ (rd hdr 16).val ≤ 15)
      ∧ ¬ (24 ≤ (rd hdr 16).val ∧ (rd hdr 16).val ≤ 39)) :
    ∃ img', img.read_tga_file (some (hdr ++ rest)) uninit = some (false, img') := by
  obtain ⟨h1, h3, h4⟩ := bytespp_of_bits (rd hdr 16)
  have n1 : Int.tdiv (int8 (rd hdr 16)) 8 ≠ 1 := fun h => hbits.1 (h1.mp h)
  have n3 : Int.tdiv (int8 (rd hdr 16)) 8 ≠ 3 := fun h => hbits.2 (by have := h3.mp h; omega)
  have n4 : Int.tdiv (int8 (rd hdr 16)) 8 ≠ 4 := fun h => hbits.2 (by have := h4.mp h; omega)
  simp [TGAImage.read_tga_file, TGAImage.readPixelData, readBytes_append hdr rest 18 hlen,
    TGA_Header.ofBytes, n1, n3, n4]

/-- The amended C3 at a header with 16 bits per pixel. -/
theorem read_rejects_bits_per_pixel_witness :
    ∃ img', (TGAImage.mk none 0 0 0).read_tga_file
      (some ([0, 0, 2, 0, 0, 0, 0, 0, 0, 0, 0, 0, 1, 0, 1, 0, 16, 32] ++ [5, 6])) (fun _ => 0)
      = some (false, img') :=
  read_rejects_bits_per_pixel ⟨none, 0, 0, 0⟩ [0, 0, 2, 0, 0, 0, 0, 0, 0, 0, 0, 0, 1, 0, 1, 0, 16, 32]
    [5, 6] (fun _ => 0) (by decide) (by decide)

/-- C4 as stated fails: the header of a 32767x32767 image with 24 bits per
pixel and data-type-code 1 passes the checks of the dimensions, and the
allocation of its `3 * 32767 * 32767` bytes, a size that does not fit `int`,
throws before the data-type-code is looked at: `read_tga_file` does not return
false, it does not return. -/
theorem read_throws_before_datatypecode_test :
    (rd [0, 0, 1, 0, 0, 0, 0, 0, 0, 0, 0, 0, 255, 127, 255, 127, 24, 32] 2).val = 1
    ∧ (TGAImage.mk none 0 0 0).read_tga_file
        (some ([0, 0, 1, 0, 0, 0, 0, 0, 0, 0, 0, 0, 255, 127, 255, 127, 24, 32] ++ []))
        (fun _ => 0)
      = none := by
  decide

/-- C4, amended: `read_tga_file` returns false on every input whose
data-type-code byte is none of 2, 3, 10 and 11 and whose header, if it passes
the checks of the width, the height and the bits per pixel, asks for a buffer
of at most `INT_MAX` bytes; the other header bytes and the pixel data do not
matter. -/
theorem read_rejects_datatypecode (img : TGAImage) (hdr rest : List Byte)
    (uninit : Nat → Byte) (hlen : hdr.length = 18)
    (hcode : (rd hdr 2).val ≠ 2 ∧ (rd hdr 2).val ≠ 3 ∧ (rd hdr 2).val ≠ 10
      ∧ (rd hdr 2).val ≠ 11)
    (hfit : 0 < int16le (rd hdr 12) (rd hdr 13) → 0 < int16le (rd hdr 14) (rd hdr 15) →
      (Int.tdiv (int8 (rd hdr 16)) 8 = 1 ∨ Int.tdiv (int8 (rd hdr 16)) 8 = 3
        ∨ Int.tdiv (int8 (rd hdr 16)) 8 = 4) →
      Int.tdiv (int8 (rd hdr 16)) 8 * int16le (rd hdr 12) (rd hdr 13)
        * int16le (rd hdr 14) (rd hdr 15) ≤ 2147483647) :
    ∃ img', img.read_tga_file (some (hdr ++ rest)) uninit = some (false, img') := by
  have e2 := int8_eq_small (rd hdr 2) 2 (by omega)
  have e3 := int8_eq_small (rd hdr 2) 3 (by omega)
  have e10 := int8_eq_small (rd hdr 2) 10 (by omega)
  have e11 := int8_eq_small (rd hdr 2) 11 (by omega)
  simp only [Nat.cast_ofNat] at e2 e3 e10 e11
  have n2 : int8 (rd hdr 2) ≠ 2 := fun h => hcode.1 (e2.mp h)
  have n3 : int8 (rd hdr 2) ≠ 3 := fun h => hcode.2.1 (e3.mp h)
  have n10 : int8 (rd hdr 2) ≠ 10 := fun h => hcode.2.2.1 (e10.mp h)
  have n11 : int8 (rd hdr 2) ≠ 11 := fun h => hcode.2.2.2 (e11.mp h)
  simp only [TGAImage.read_tga_file, TGAImage.readPixelData, readBytes_append hdr rest 18 hlen,
    TGA_Header.ofBytes]
  split
  · exact ⟨_, rfl⟩
  · rename_i hc
    have hw : 0 < int16le (rd hdr 12) (rd hdr 13) := by omega
    have hh : 0 < int16le (rd hdr 14) (rd hdr 15) := by omega
    have hb : Int.tdiv (int8 (rd hdr 16)) 8 = 1 ∨ Int.tdiv (int8 (rd hdr 16)) 8 = 3
        ∨ Int.tdiv (int8 (rd hdr 16)) 8 = 4 := by omega
    have hbw : 0 ≤ Int.tdiv (int8 (rd hdr 16)) 8 * int16le (rd hdr 12) (rd hdr 13) :=
      Int.mul_nonneg (by omega) (by omega)
    rw [if_pos (size_fits _ _ _ hbw hh (hfit hw hh hb)).2]
    simp [n2, n3, n10, n11]

/-- The amended C4 at a colour-mapped file (data-type-code 1) with an otherwise
valid header. -/
theorem read_rejects_datatypecode_witness :
    ∃ img', (TGAImage.mk none 0 0 0).read_tga_file
      (some ([0, 1, 1, 0, 0, 0, 0, 0, 0, 0, 0, 0, 1, 0, 1, 0, 24, 32] ++ [5, 6, 7])) (fun _ => 0)
      = some (false, img') :=
  read_rejects_datatypecode ⟨none, 0, 0, 0⟩ [0, 1, 1, 0, 0, 0, 0, 0, 0, 0, 0, 0, 1, 0, 1, 0, 24, 32]
    [5, 6, 7] (fun _ => 0) (by decide) (by decide) (fun _ _ _ => by decide)

/-- C5: when the width or the height of the header, read as a signed
little-endian 16-bit integer, is at most 0, `read_tga_file` fails and the image
is left without a pixel buffer. -/
theorem read_rejects_dimensions (img : TGAImage) (hdr rest : List Byte)
    (uninit : Nat → Byte) (hlen : hdr.length = 18)
    (hdim : int16le (rd hdr 12) (rd hdr 13) ≤ 0 ∨ int16le (rd hdr 14) (rd hdr 15) ≤ 0) :
    ∃ img', img.read_tga_file (some (hdr ++ rest)) uninit = some (false, img')
      ∧ img'.m_data = none := by
  simp only [TGAImage.read_tga_file, TGAImage.readPixelData, readBytes_append hdr rest 18 hlen,
    TGA_Header.ofBytes]
  rw [if_pos (by tauto)]
  exact ⟨_, rfl, rfl⟩

/-- C5 at a header of width 0, read into an image that held a buffer. -/
theorem read_rejects_dimensions_witness :
    ∃ img', (TGAImage.mk (some [1, 2, 3]) 3 1 1).read_tga_file
      (some ([0, 0, 2, 0, 0, 0, 0, 0, 0, 0, 0, 0, 0, 0, 1, 0, 24, 32] ++ [5, 6, 7])) (fun _ => 0)
      = some (false, img')
      ∧ img'.m_data = none :=
  read_rejects_dimensions ⟨some [1, 2, 3], 3, 1, 1⟩
    [0, 0, 2, 0, 0, 0, 0, 0, 0, 0, 0, 0, 0, 0, 1, 0, 24, 32] [5, 6, 7] (fun _ => 0)
    (by decide) (by decide)

/-! ## Stores and header bytes -/

theorem length_storeBytes (src dst : List Byte) (off : Nat) :
    (storeBytes dst off src).length = dst.length := by
  induction src generalizing dst off with
  | nil => rfl
  | cons b rest ih => simp [storeBytes, ih]

/-- A run of stores inside the array replaces exactly the cells it covers. -/
theorem storeBytes_eq (src dst : List Byte) (off : Nat) (h : off + src.length ≤ dst.length) :
    storeBytes dst off src = dst.take off ++ src ++ dst.drop (off + src.length) := by
  induction src generalizing dst off with
  | nil => simp [storeBytes]
  | cons b rest ih =>
    simp only [List.length_cons] at h
    have hlt : off < dst.length := by omega
    rw [storeBytes, ih _ _ (by simp; omega)]
    rw [List.drop_set_of_lt _ _ (by omega)]
    have : List.take (off + 1) (dst.set off b) = List.take off dst ++ [b] := by
      rw [List.set_eq_take_append_cons_drop, if_pos hlt]
      rw [List.take_append_eq_append_take]
      simp [List.take_take, Nat.min_eq_left (Nat.le_succ off), List.length_take,
        Nat.min_eq_left (Nat.le_of_lt hlt)]
    rw [this]
    simp [Nat.add_comm, Nat.add_left_comm, Nat.add_assoc]

theorem storeBytes_whole (src dst : List Byte) (h : src.length = dst.length) :
    storeBytes dst 0 src = src := by
  rw [storeBytes_eq src dst 0 (by omega)]
  simp [h]

theorem length_newArray (uninit : Nat → Byte) (n : Nat) : (newArray uninit n).length = n := by
  simp [newArray]

theorem int8_byteOfInt (i : Int) (h : -128 ≤ i ∧ i ≤ 127) : int8 (byteOfInt i) = i := by
  unfold int8 byteOfInt
  simp only
  split <;> omega

theorem int16le_shortBytes (i : Int) (h : -32768 ≤ i ∧ i ≤ 32767) :
    int16le (byteOfInt i) (byteOfInt ((i % 65536) / 256)) = i := by
  unfold int16le byteOfInt
  simp only
  split <;> omega

/-- All twelve header fields fit their C types. -/
theorem ofBytes_toBytes (h : TGA_Header)
    (h1 : -128 ≤ h.idlength ∧ h.idlength ≤ 127)
    (h2 : -128 ≤ h.colormaptype ∧ h.colormaptype ≤ 127)
    (h3 : -128 ≤ h.datatypecode ∧ h.datatypecode ≤ 127)
    (h4 : -32768 ≤ h.colormaporigin ∧ h.colormaporigin ≤ 32767)
    (h5 : -32768 ≤ h.colormaplength ∧ h.colormaplength ≤ 32767)
    (h6 : -128 ≤ h.colormapdepth ∧ h.colormapdepth ≤ 127)
    (h7 : -32768 ≤ h.x_origin ∧ h.x_origin ≤ 32767)
    (h8 : -32768 ≤ h.y_origin ∧ h.y_origin ≤ 32767)
    (h9 : -32768 ≤ h.width ∧ h.width ≤ 32767)
    (h10 : -32768 ≤ h.height ∧ h.height ≤ 32767)
    (h11 : -128 ≤ h.bitsperpixel ∧ h.bitsperpixel ≤ 127)
    (h12 : -128 ≤ h.imagedescriptor ∧ h.imagedescriptor ≤ 127) :
    TGA_Header.ofBytes h.toBytes = h := by
  cases h
  simp only [TGA_Header.ofBytes, TGA_Header.toBytes, shortBytes, rd, List.cons_append,
    List.nil_append, List.getD_cons_zero, List.getD_cons_succ] at *
  simp only [TGA_Header.mk.injEq]
  simp [int8_byteOfInt, int16le_shortBytes, *]

theorem length_toBytes (h : TGA_Header) : h.toBytes.length = 18 := by
  simp [TGA_Header.toBytes, shortBytes]

theorem normalize_top_left (img : TGAImage) : img.normalize 32 = some img := by
  simp [TGAImage.normalize, descriptorBit5, descriptorBit4]

/-- What `write_tga_file` puts in the header is read back unchanged when the
dimensions fit a `short` and the bytes per pixel are 1, 3 or 4. -/
theorem ofBytes_header (img : TGAImage) (rle : Bool)
    (hw : 1 ≤ img.m_width ∧ img.m_width ≤ 32767)
    (hh : 1 ≤ img.m_height ∧ img.m_height ≤ 32767)
    (hb : img.m_bytespp = 1 ∨ img.m_bytespp = 3 ∨ img.m_bytespp = 4) :
    TGA_Header.ofBytes (img.header rle).toBytes = img.header rle := by
  apply ofBytes_toBytes <;> simp only [TGAImage.header, TGA_Header.zero] <;> try omega

theorem header_width (img : TGAImage) (rle : Bool) : (img.header rle).width = img.m_width := rfl

theorem header_height (img : TGAImage) (rle : Bool) : (img.header rle).height = img.m_height := rfl

theorem header_bits (img : TGAImage) (rle : Bool) :
    (img.header rle).bitsperpixel = img.m_bytespp * 8 := rfl

theorem header_descriptor (img : TGAImage) (rle : Bool) :
    (img.header rle).imagedescriptor = 32 := rfl

/-! ## Raw round trip and file layout -/

theorem tdiv_bytespp (bpp : Int) (hb : bpp = 1 ∨ bpp = 3 ∨ bpp = 4) :
    Int.tdiv (bpp * 8) 8 = bpp := by
  rcases hb with h | h | h <;> subst h <;> rfl

/-- An image of at most 512x512 pixels with 1, 3 or 4 bytes per pixel has a
size within `int`. -/
theorem size_in_range (w h bpp : Int) (hw : 1 ≤ w ∧ w ≤ 512) (hh : 1 ≤ h ∧ h ≤ 512)
    (hb : bpp = 1 ∨ bpp = 3 ∨ bpp = 4) : w * h * bpp ≤ 2147483647 := by
  have h1 : w * h ≤ 512 * 512 := Int.mul_le_mul hw.2 hh.2 (by omega) (by omega)
  rcases hb with h | h | h <;> subst h <;> omega

/-- On a file that starts with 18 header bytes the header is parsed and the
rest of the file is the pixel data stream. -/
theorem read_tga_file_append (img : TGAImage) (hdr rest : List Byte) (uninit : Nat → Byte)
    (hlen : hdr.length = 18) :
    img.read_tga_file (some (hdr ++ rest)) uninit
      = { img with m_data := none }.readPixelData (TGA_Header.ofBytes hdr) rest uninit := by
  simp only [TGAImage.read_tga_file, readBytes_append hdr rest 18 hlen]

/-- Reading back a raw file written from an allocated image whose dimensions fit
the header restores the image. -/
theorem read_write_raw (img img0 : TGAImage) (uninit : Nat → Byte) (hal : img.Allocated)
    (hb : img.m_bytespp = 1 ∨ img.m_bytespp = 3 ∨ img.m_bytespp = 4)
    (hw : 1 ≤ img.m_width ∧ img.m_width ≤ 32767)
    (hh : 1 ≤ img.m_height ∧ img.m_height ≤ 32767)
    (hfit : img.m_width * img.m_height * img.m_bytespp ≤ 2147483647) :
    img0.read_tga_file (some (img.write_tga_file false).2) uninit = some (true, img) := by
  obtain ⟨d, hd, hlen⟩ := hal
  have hn : (img.m_width * img.m_height * img.m_bytespp).toNat = d.length := by omega
  have hn2 : (img.m_bytespp * img.m_width * img.m_height).toNat = d.length := by
    rw [← hn]; congr 1; ring
  have hfile : (img.write_tga_file false).2
      = (img.header false).toBytes ++ (d ++ ([0, 0, 0, 0] ++ [0, 0, 0, 0] ++ footer)) := by
    simp [TGAImage.write_tga_file, hd, hn, cells]
  rw [hfile, read_tga_file_append _ _ _ _ (length_toBytes _), ofBytes_header img false hw hh hb]
  have hdc : (img.header false).datatypecode = 3 ∨ (img.header false).datatypecode = 2 := by
    simp only [TGAImage.header]
    by_cases h1 : img.m_bytespp = 1 <;> simp [h1]
  have hsz := size_fits img.m_bytespp img.m_width img.m_height
    (Int.mul_nonneg (by omega) (by omega)) (by omega) (by
      have e : img.m_bytespp * img.m_width * img.m_height
          = img.m_width * img.m_height * img.m_bytespp := by ring
      rw [e]
      exact hfit)
  unfold TGAImage.readPixelData
  simp only [header_width, header_height, header_bits, header_descriptor, tdiv_bytespp _ hb,
    normalize_top_left]
  rw [if_neg (by omega), hsz.1, hn2, if_pos (by rw [← hn2, ← hsz.1]; exact hsz.2), if_pos hdc,
    readBytes_append d _ d.length rfl]
  rw [List.take_left' rfl, storeBytes_whole d _ (by rw [length_newArray])]
  cases img
  subst hd
  rfl

/-- C2: for every allocated image with 1, 3 or 4 bytes per pixel and width and
height in [1,512], `write_tga_file` without RLE succeeds, the descriptor byte it
writes is `0x20` (bit 5 set, bit 4 clear), and `read_tga_file` on the file
written succeeds and yields the same width, height, bytes per pixel and pixel
buffer, whatever image the reader held before. -/
theorem raw_round_trip (img img0 : TGAImage) (uninit : Nat → Byte) (hal : img.Allocated)
    (hb : img.m_bytespp = 1 ∨ img.m_bytespp = 3 ∨ img.m_bytespp = 4)
    (hw : 1 ≤ img.m_width ∧ img.m_width ≤ 512)
    (hh : 1 ≤ img.m_height ∧ img.m_height ≤ 512) :
    (img.write_tga_file false).1 = true
    ∧ (rd (img.write_tga_file false).2 17).val = 32
    ∧ img0.read_tga_file (some (img.write_tga_file false).2) uninit = some (true, img) := by
  refine ⟨rfl, ?_, read_write_raw img img0 uninit hal hb ⟨hw.1, by omega⟩ ⟨hh.1, by omega⟩
    (size_in_range img.m_width img.m_height img.m_bytespp hw hh hb)⟩
  simp only [TGAImage.write_tga_file, TGA_Header.toBytes, shortBytes, rd, TGAImage.header,
    List.cons_append, List.nil_append, List.append_assoc, List.getD_cons_zero, List.getD_cons_succ]
  rfl

/-- C2 at a 2x2 image with 3 bytes per pixel. -/
theorem raw_round_trip_witness :
    ((TGAImage.mk (some [1, 2, 3, 4, 5, 6, 7, 8, 9, 10, 11, 12]) 2 2 3).write_tga_file false).1 = true
    ∧ (rd ((TGAImage.mk (some [1, 2, 3, 4, 5, 6, 7, 8, 9, 10, 11, 12]) 2 2 3).write_tga_file
        false).2 17).val = 32
    ∧ (TGAImage.mk none 0 0 0).read_tga_file
        (some ((TGAImage.mk (some [1, 2, 3, 4, 5, 6, 7, 8, 9, 10, 11, 12]) 2 2 3).write_tga_file
          false).2) (fun _ => 0)
      = some (true, TGAImage.mk (some [1, 2, 3, 4, 5, 6, 7, 8, 9, 10, 11, 12]) 2 2 3) :=
  raw_round_trip ⟨some [1, 2, 3, 4, 5, 6, 7, 8, 9, 10, 11, 12], 2, 2, 3⟩ ⟨none, 0, 0, 0⟩
    (fun _ => 0) ⟨_, rfl, by decide⟩ (by decide) (by decide) (by decide)

theorem byteOfInt_val (n : Nat) : (byteOfInt (n : Int)).val = n % 256 := by
  unfold byteOfInt
  simp only
  omega

/-- C10: for every allocated image with 1, 3 or 4 bytes per pixel and width and
height in [1,32767], the file `write_tga_file` writes is an 18-byte header, a
body, 8 zero bytes and the 18 bytes of `TRUEVISION-XFILE.` with a final zero.
Header bytes 0, 1 and 3..11 are zero, byte 2 is the data-type-code, bytes 12-13
and 14-15 are the width and the height, low byte first, byte 16 is eight times
the bytes per pixel and byte 17 is `0x20`.  Without RLE the body is the pixel
buffer, which has `width * height * bytesPerPixel` bytes. -/
theorem write_layout (img : TGAImage) (rle : Bool) (w h bpp : Nat) (buf : List Byte)
    (hd : img.m_data = some buf) (hw : img.m_width = w) (hh : img.m_height = h)
    (hb : img.m_bytespp = bpp) (hlen : buf.length = w * h * bpp)
    (hbpp : bpp = 1 ∨ bpp = 3 ∨ bpp = 4)
    (hwr : 1 ≤ w ∧ w ≤ 32767) (hhr : 1 ≤ h ∧ h ≤ 32767) :
    ∃ hdr body : List Byte,
      (img.write_tga_file rle).2 = hdr ++ body ++ List.replicate 8 0 ++ footer
      ∧ hdr.map Fin.val
          = [0, 0, if bpp = 1 then (if rle then 11 else 3) else (if rle then 10 else 2),
              0, 0, 0, 0, 0, 0, 0, 0, 0, w % 256, w / 256, h % 256, h / 256, bpp * 8, 32]
      ∧ footer.map Fin.val = ("TRUEVISION-XFILE.".toList.map Char.toNat) ++ [0]
      ∧ (rle = false → body = buf ∧ body.length = w * h * bpp) := by
  refine ⟨(img.header rle).toBytes,
    if rle = false then cells (img.m_data.getD []) 0
      (img.m_width * img.m_height * img.m_bytespp).toNat else img.unload_rle_data.2, ?_, ?_, ?_, ?_⟩
  · simp [TGAImage.write_tga_file]
  · have e1 : ((w : Int) % 65536 / 256) = ((w / 256 : Nat) : Int) := by omega
    have e2 : ((h : Int) % 65536 / 256) = ((h / 256 : Nat) : Int) := by omega
    have e3 : ((bpp : Int) * 8) = ((bpp * 8 : Nat) : Int) := by omega
    simp only [TGA_Header.toBytes, shortBytes, TGAImage.header, TGA_Header.zero, hw, hh, hb, e1,
      e2, e3, List.cons_append, List.nil_append, List.map_cons, List.map_nil, byteOfInt_val]
    have z : (byteOfInt 0).val = 0 := rfl
    have z2 : (byteOfInt (0 % 65536 / 256)).val = 0 := rfl
    have t : (byteOfInt 32).val = 32 := rfl
    simp only [z, z2, t]
    have c : (byteOfInt (if (bpp : Int) = 1 then if rle = true then 11 else 3
        else if rle = true then 10 else 2)).val
          = if bpp = 1 then (if rle = true then 11 else 3) else (if rle = true then 10 else 2) := by
      rcases hbpp with h1 | h1 | h1 <;> subst h1 <;> cases rle <;> rfl
    rw [c]
    clear c
    have a1 : w / 256 % 256 = w / 256 := by omega
    have a2 : h / 256 % 256 = h / 256 := by omega
    have a3 : bpp * 8 % 256 = bpp * 8 := by omega
    rw [a1, a2, a3]
  · decide
  · intro hr
    have hn : (img.m_width * img.m_height * img.m_bytespp).toNat = buf.length := by
      rw [hw, hh, hb, hlen]
      norm_cast
    simp [hr, hd, hn, cells, hlen]

/-- C10 at a 3x2 image with 1 byte per pixel, written without RLE. -/
theorem write_layout_witness :
    ∃ hdr body : List Byte,
      ((TGAImage.mk (some [1, 1, 1, 2, 3, 3]) 3 2 1).write_tga_file false).2
        = hdr ++ body ++ List.replicate 8 0 ++ footer
      ∧ hdr.map Fin.val
          = [0, 0, if 1 = 1 then (if false then 11 else 3) else (if false then 10 else 2),
              0, 0, 0, 0, 0, 0, 0, 0, 0, 3 % 256, 3 / 256, 2 % 256, 2 / 256, 1 * 8, 32]
      ∧ footer.map Fin.val = ("TRUEVISION-XFILE.".toList.map Char.toNat) ++ [0]
      ∧ (false = false → body = [1, 1, 1, 2, 3, 3] ∧ body.length = 3 * 2 * 1) :=
  write_layout ⟨some [1, 1, 1, 2, 3, 3], 3, 2, 1⟩ false 3 2 1 [1, 1, 1, 2, 3, 3] rfl rfl rfl rfl
    (by decide) (by decide) (by decide) (by decide)

/-! ## The RLE decoder on packets -/

theorem storeBytes_append (a b dst : List Byte) (off : Nat) :
    storeBytes (storeBytes dst off a) (off + a.length) b = storeBytes dst off (a ++ b) := by
  induction a generalizing dst off with
  | nil => rfl
  | cons x a ih =>
    show storeBytes (storeBytes (dst.set off x) (off + 1) a) (off + (a.length + 1)) b
      = storeBytes (dst.set off x) (off + 1) (a ++ b)
    rw [← ih, Nat.add_assoc, Nat.add_comm 1]

theorem count_pos (p : Packet) : 1 ≤ p.count ∧ p.count ≤ 128 := by
  have := p.header.isLt
  unfold Packet.count
  split <;> omega

/-- A raw packet whose `n` pixels are all in the stream and fit the pixel count
is stored verbatim. -/
theorem loadRawPacket_complete (bpp pixelcount n : Nat) (s : RleState) (payload rest : List Byte)
    (hinp : s.inp = payload ++ rest) (hlen : payload.length = n * bpp)
    (hfit : s.currentpixel + n ≤ pixelcount) :
    loadRawPacket bpp pixelcount n s
      = (true, { inp := rest, data := storeBytes s.data s.currentbyte payload,
                 currentpixel := s.currentpixel + n, currentbyte := s.currentbyte + n * bpp }) := by
  induction n generalizing s payload with
  | zero =>
    have hp : payload = [] := List.eq_nil_of_length_eq_zero (by simpa using hlen)
    subst hp
    cases s
    simp_all [loadRawPacket, storeBytes]
  | succ n ih =>
    have hmul : (n + 1) * bpp = n * bpp + bpp := Nat.succ_mul n bpp
    rw [hmul] at hlen
    rw [hmul]
    have hsplit : payload = payload.take bpp ++ payload.drop bpp := (List.take_append_drop _ _).symm
    have hl1 : (payload.take bpp).length = bpp := by
      rw [List.length_take, hlen]
      omega
    have hl2 : (payload.drop bpp).length = n * bpp := by
      rw [List.length_drop, hlen]
      omega
    have hread : readBytes bpp s.inp = some (payload.take bpp, payload.drop bpp ++ rest) := by
      rw [hinp]
      conv_lhs => rw [hsplit]
      rw [List.append_assoc]
      exact readBytes_append _ _ _ hl1
    rw [loadRawPacket]
    simp only [hread, RleState.storePixel]
    rw [if_neg (by omega), ih _ (payload.drop bpp) rfl hl2 (by simp only; omega)]
    have key := storeBytes_append (payload.take bpp) (payload.drop bpp) s.data s.currentbyte
    rw [hl1, List.take_append_drop] at key
    simp only [hl1, key, Nat.add_assoc, Nat.add_comm 1 n, Nat.add_comm bpp (n * bpp)]

/-- A run packet of `n` copies that fits the pixel count stores `n` copies of
the pixel. -/
theorem loadRunPacket_complete (pixelcount n : Nat) (px : List Byte) (s : RleState)
    (hfit : s.currentpixel + n ≤ pixelcount) :
    loadRunPacket pixelcount px n s
      = (true, { inp := s.inp,
                 data := storeBytes s.data s.currentbyte (List.replicate n px).flatten,
                 currentpixel := s.currentpixel + n,
                 currentbyte := s.currentbyte + n * px.length }) := by
  induction n generalizing s with
  | zero =>
    cases s
    simp [loadRunPacket, storeBytes]
  | succ n ih =>
    rw [loadRunPacket]
    simp only [RleState.storePixel]
    rw [if_neg (by omega), ih _ (by simp only; omega)]
    simp only [storeBytes_append, List.replicate_succ, List.flatten_cons, Nat.succ_mul,
      Nat.add_assoc, Nat.add_comm 1 n, Nat.add_comm px.length (n * px.length)]

/-- One pass of the decoder loop on a complete packet that fits the pixel
count: the expansion of the packet is stored at `currentbyte`. -/
theorem loadPacket_complete (bpp pixelcount : Nat) (p : Packet) (rest : List Byte) (s : RleState)
    (hinp : s.inp = p.bytes ++ rest) (hc : p.Complete bpp)
    (hfit : s.currentpixel + p.count ≤ pixelcount) :
    loadPacket bpp pixelcount s
      = (true, { inp := rest, data := storeBytes s.data s.currentbyte p.expand,
                 currentpixel := s.currentpixel + p.count,
                 currentbyte := s.currentbyte + p.count * bpp }) := by
  unfold loadPacket
  rw [hinp]
  simp only [Packet.bytes, List.cons_append]
  unfold Packet.Complete Packet.stored at hc
  unfold Packet.count at hfit
  unfold Packet.count Packet.expand
  by_cases hraw : p.header.val < 128
  · simp only [hraw, if_true] at hc hfit ⊢
    rw [loadRawPacket_complete bpp pixelcount _ { s with inp := p.payload ++ rest } p.payload rest
      rfl hc hfit]
  · simp only [hraw, if_false] at hc hfit ⊢
    rw [readBytes_append p.payload rest bpp (by omega)]
    simp only
    rw [loadRunPacket_complete pixelcount _ p.payload { s with inp := rest } hfit]
    have : p.payload.length = bpp := by omega
    simp only [this]

theorem length_expand (bpp : Nat) (p : Packet) (hc : p.Complete bpp) :
    p.expand.length = p.count * bpp := by
  unfold Packet.Complete Packet.stored at hc
  unfold Packet.expand Packet.count
  split
  · simp_all
  · simp_all [List.length_flatten]

theorem pixelTotal_cons (p : Packet) (ps : List Packet) :
    pixelTotal (p :: ps) = p.count + pixelTotal ps := by
  simp [pixelTotal]

theorem pixelTotal_append (ps qs : List Packet) :
    pixelTotal (ps ++ qs) = pixelTotal ps + pixelTotal qs := by
  simp [pixelTotal]

theorem length_flatMap_expand (bpp : Nat) (ps : List Packet) (hc : ∀ p ∈ ps, p.Complete bpp) :
    (ps.flatMap Packet.expand).length = pixelTotal ps * bpp := by
  induction ps with
  | nil => simp [pixelTotal]
  | cons p ps ih =>
    rw [List.flatMap_cons, List.length_append, length_expand bpp p (hc p (by simp)),
      ih (fun q hq => hc q (by simp [hq])), pixelTotal_cons, Nat.add_mul]

theorem length_flatMap_bytes (ps : List Packet) :
    ps.length ≤ (ps.flatMap Packet.bytes).length := by
  induction ps with
  | nil => simp
  | cons p ps ih =>
    rw [List.flatMap_cons, List.length_append]
    simp only [Packet.bytes, List.length_cons]
    omega

/-- The decoder loop on a run of complete packets that stays below the pixel
count: their expansions are stored one after the other and the loop goes on
with the rest of the stream. -/
theorem loadRleLoop_initial (bpp pixelcount : Nat) (ps : List Packet) (tail : List Byte)
    (fuel : Nat) (s : RleState)
    (hinp : s.inp = ps.flatMap Packet.bytes ++ tail)
    (hc : ∀ p ∈ ps, p.Complete bpp)
    (hlt : s.currentpixel + pixelTotal ps < pixelcount)
    (hfuel : ps.length ≤ fuel) :
    loadRleLoop bpp pixelcount fuel s
      = loadRleLoop bpp pixelcount (fuel - ps.length)
          { inp := tail, data := storeBytes s.data s.currentbyte (ps.flatMap Packet.expand),
            currentpixel := s.currentpixel + pixelTotal ps,
            currentbyte := s.currentbyte + pixelTotal ps * bpp } := by
  induction ps generalizing s fuel with
  | nil =>
    cases s
    simp_all [pixelTotal, storeBytes]
  | cons p ps ih =>
    rw [pixelTotal_cons] at hlt
    rw [List.flatMap_cons, List.append_assoc] at hinp
    obtain ⟨f, rfl⟩ : ∃ f, fuel = f + 1 := ⟨fuel - 1, by simp at hfuel; omega⟩
    have hp := loadPacket_complete bpp pixelcount p _ s hinp (hc p (by simp)) (by omega)
    rw [loadRleLoop]
    simp only [hp]
    rw [if_neg (by simp), if_pos (by omega)]
    rw [ih f _ rfl (fun q hq => hc q (by simp [hq])) (by simp only; omega)
      (by simp at hfuel; omega)]
    have hl := length_expand bpp p (hc p (by simp))
    have key := storeBytes_append p.expand (ps.flatMap Packet.expand) s.data s.currentbyte
    rw [hl] at key
    simp only [key, List.flatMap_cons, pixelTotal_cons, Nat.add_mul, Nat.add_assoc,
      List.length_cons, Nat.add_sub_add_right]

/-- The decoder loop on complete packets that stand for exactly the pixels still
missing: it succeeds after the last packet and leaves the bytes that follow
unread. -/
theorem loadRleLoop_exact (bpp pixelcount : Nat) (ps : List Packet) (extra : List Byte)
    (fuel : Nat) (s : RleState)
    (hinp : s.inp = ps.flatMap Packet.bytes ++ extra)
    (hc : ∀ p ∈ ps, p.Complete bpp)
    (hne : ps ≠ [])
    (hsum : s.currentpixel + pixelTotal ps = pixelcount)
    (hfuel : ps.length ≤ fuel) :
    loadRleLoop bpp pixelcount fuel s
      = (true, { inp := extra, data := storeBytes s.data s.currentbyte (ps.flatMap Packet.expand),
                 currentpixel := pixelcount,
                 currentbyte := s.currentbyte + pixelTotal ps * bpp }) := by
  obtain ⟨qs, p, rfl⟩ : ∃ qs p, ps = qs ++ [p] :=
    ⟨ps.dropLast, ps.getLast hne, (List.dropLast_append_getLast hne).symm⟩
  have hp1 := count_pos p
  rw [pixelTotal_append] at hsum
  have hpt : pixelTotal [p] = p.count := by simp [pixelTotal]
  rw [hpt] at hsum
  rw [List.flatMap_append, List.append_assoc] at hinp
  rw [loadRleLoop_initial bpp pixelcount qs _ fuel s hinp (fun q hq => hc q (by simp [hq]))
    (by omega) (by simp at hfuel; omega)]
  obtain ⟨f, hf⟩ : ∃ f, fuel - qs.length = f + 1 :=
    ⟨fuel - qs.length - 1, by simp at hfuel; omega⟩
  rw [hf, loadRleLoop]
  have hinp2 : [p].flatMap Packet.bytes ++ extra = p.bytes ++ extra := by simp
  have hp := loadPacket_complete bpp pixelcount p extra
    { inp := [p].flatMap Packet.bytes ++ extra,
      data := storeBytes s.data s.currentbyte (qs.flatMap Packet.expand),
      currentpixel := s.currentpixel + pixelTotal qs,
      currentbyte := s.currentbyte + pixelTotal qs * bpp } hinp2 (hc p (by simp))
      (by simp only; omega)
  simp only [hp]
  rw [if_neg (by simp), if_neg (by omega)]
  have hl := length_flatMap_expand bpp qs (fun q hq => hc q (by simp [hq]))
  have key := storeBytes_append (qs.flatMap Packet.expand) p.expand s.data s.currentbyte
  rw [hl] at key
  have he : [p].flatMap Packet.expand = p.expand := by simp
  simp only [key, List.flatMap_append, he, pixelTotal_append, hpt, Nat.add_mul, Nat.add_assoc]
  rw [hsum]

/-! ## The RLE decoder on bad streams -/

/-- A raw packet fails when the stream holds fewer bytes than its pixels need. -/
theorem loadRawPacket_short (bpp pixelcount n : Nat) (s : RleState)
    (h : s.inp.length < n * bpp) : (loadRawPacket bpp pixelcount n s).1 = false := by
  induction n generalizing s with
  | zero => simp at h
  | succ n ih =>
    rw [Nat.succ_mul] at h
    rw [loadRawPacket]
    unfold readBytes
    by_cases hb : bpp ≤ s.inp.length
    · simp only [hb, if_true, RleState.storePixel]
      split
      · rfl
      · apply ih
        simp only [List.length_drop]
        omega
    · simp [hb]

/-- A raw packet fails when it takes `currentpixel` past `pixelcount`. -/
theorem loadRawPacket_over (bpp pixelcount n : Nat) (s : RleState)
    (hle : s.currentpixel ≤ pixelcount) (h : s.currentpixel + n > pixelcount) :
    (loadRawPacket bpp pixelcount n s).1 = false := by
  induction n generalizing s with
  | zero => omega
  | succ n ih =>
    rw [loadRawPacket]
    cases hr : readBytes bpp s.inp with
    | none => rfl
    | some pr =>
      simp only [RleState.storePixel]
      split
      · rfl
      · apply ih
        · simp only; omega
        · simp only; omega

/-- A run packet fails when it takes `currentpixel` past `pixelcount`. -/
theorem loadRunPacket_over (pixelcount n : Nat) (px : List Byte) (s : RleState)
    (hle : s.currentpixel ≤ pixelcount) (h : s.currentpixel + n > pixelcount) :
    (loadRunPacket pixelcount px n s).1 = false := by
  induction n generalizing s with
  | zero => omega
  | succ n ih =>
    rw [loadRunPacket]
    simp only [RleState.storePixel]
    split
    · rfl
    · apply ih
      · simp only; omega
      · simp only; omega

/-- One pass of the decoder loop fails on each of the bad continuations. -/
theorem loadPacket_bad (bpp pixelcount : Nat) (s : RleState)
    (hle : s.currentpixel ≤ pixelcount)
    (inp : List Byte) (hinp : s.inp = inp)
    (hbad : BadTail bpp pixelcount s.currentpixel inp) :
    (loadPacket bpp pixelcount s).1 = false := by
  unfold loadPacket
  rw [hinp]
  cases hbad with
  | endOfStream => rfl
  | truncated header payload hshort =>
    simp only [Packet.stored] at hshort
    by_cases hraw : header.val < 128
    · simp only [hraw, if_true] at hshort ⊢
      exact loadRawPacket_short _ _ _ _ hshort
    · simp only [hraw, if_false] at hshort ⊢
      have : readBytes bpp payload = none := by
        unfold readBytes
        rw [if_neg (by omega)]
      rw [this]
  | overrun header rest hover =>
    simp only [Packet.count] at hover
    by_cases hraw : header.val < 128
    · simp only [hraw, if_true] at hover ⊢
      exact loadRawPacket_over _ _ _ _ hle hover
    · simp only [hraw, if_false] at hover ⊢
      cases hr : readBytes bpp rest with
      | none => rfl
      | some pr => exact loadRunPacket_over _ _ _ _ hle hover

theorem loadRleLoop_bad (bpp pixelcount fuel : Nat) (s : RleState)
    (h : (loadPacket bpp pixelcount s).1 = false) :
    (loadRleLoop bpp pixelcount fuel s).1 = false := by
  cases fuel with
  | zero => rfl
  | succ f =>
    rw [loadRleLoop]
    simp only [h, if_true]

/-- The decoder loop fails on complete packets for fewer than `pixelcount`
pixels followed by a bad continuation. -/
theorem loadRleLoop_rejects (bpp pixelcount : Nat) (ps : List Packet) (tail : List Byte)
    (data : List Byte)
    (hc : ∀ p ∈ ps, p.Complete bpp)
    (hlt : pixelTotal ps < pixelcount)
    (hbad : BadTail bpp pixelcount (pixelTotal ps) tail) :
    (loadRleLoop bpp pixelcount (ps.flatMap Packet.bytes ++ tail).length
      { inp := ps.flatMap Packet.bytes ++ tail, data := data, currentpixel := 0,
        currentbyte := 0 }).1 = false := by
  have hf : ps.length ≤ (ps.flatMap Packet.bytes ++ tail).length := by
    have := length_flatMap_bytes ps
    rw [List.length_append]
    omega
  rw [loadRleLoop_initial bpp pixelcount ps tail _ _ rfl hc (by simp only; omega) hf]
  apply loadRleLoop_bad
  apply loadPacket_bad _ _ _ _ tail rfl
  · simpa using hbad
  · simp only; omega

/-! ## The RLE reader -/

/-- After a valid header with an RLE data-type-code the reader allocates the
buffer and runs `load_rle_data` on the rest of the file. -/
theorem readPixelData_rle (img0 : TGAImage) (header : TGA_Header) (rest : List Byte)
    (uninit : Nat → Byte) (w h bpp : Nat)
    (hw : header.width = w) (hh : header.height = h)
    (hb : Int.tdiv header.bitsperpixel 8 = bpp)
    (hwp : 1 ≤ w) (hhp : 1 ≤ h) (hbpp : bpp = 1 ∨ bpp = 3 ∨ bpp = 4)
    (hfit : bpp * w * h ≤ 2147483647)
    (hcode : header.datatypecode = 10 ∨ header.datatypecode = 11) :
    img0.readPixelData header rest uninit
      = if ((TGAImage.mk (some (newArray uninit (bpp * w * h))) w h bpp).load_rle_data rest).1
            = false then
          some (false,
            ((TGAImage.mk (some (newArray uninit (bpp * w * h))) w h bpp).load_rle_data rest).2)
        else
          ((((TGAImage.mk (some (newArray uninit (bpp * w * h))) w h bpp).load_rle_data
            rest).2).normalize header.imagedescriptor).map (fun im => (true, im)) := by
  unfold TGAImage.readPixelData
  dsimp only
  rw [hw, hh, hb]
  have hn : ((bpp : Int) * w * h).toNat = bpp * w * h := by
    have : ((bpp : Int) * w * h) = ((bpp * w * h : Nat) : Int) := by push_cast; ring
    rw [this, Int.toNat_ofNat]
  have hsz := size_fits (bpp : Int) (w : Int) (h : Int)
    (Int.mul_nonneg (by omega) (by omega)) (by omega) (by exact_mod_cast hfit)
  rw [if_neg (by omega), hsz.1, hn, if_pos (by rw [← hn, ← hsz.1]; exact hsz.2),
    if_neg (by omega), if_pos hcode]

/-- The decoder on complete packets for exactly `width * height` pixels: the
buffer ends up holding their expansions. -/
theorem load_rle_data_exact (img : TGAImage) (ps : List Packet) (extra buf : List Byte)
    (w h bpp : Nat)
    (hd : img.m_data = some buf) (hw : img.m_width = w) (hh : img.m_height = h)
    (hb : img.m_bytespp = bpp) (hlen : buf.length = w * h * bpp)
    (hwp : 1 ≤ w) (hhp : 1 ≤ h)
    (hc : ∀ p ∈ ps, p.Complete bpp) (hsum : pixelTotal ps = w * h) :
    img.load_rle_data (ps.flatMap Packet.bytes ++ extra)
      = (true, { img with m_data := some (ps.flatMap Packet.expand) }) := by
  have hne : ps ≠ [] := by
    rintro rfl
    have : 1 ≤ w * h := Nat.mul_pos hwp hhp
    simp [pixelTotal] at hsum
    omega
  have hpc : (img.m_width * img.m_height).toNat = w * h := by
    rw [hw, hh]
    norm_cast
  have hf : ps.length ≤ (ps.flatMap Packet.bytes ++ extra).length := by
    have := length_flatMap_bytes ps
    rw [List.length_append]
    omega
  unfold TGAImage.load_rle_data
  simp only [hpc, hb, Int.toNat_ofNat, hd, Option.getD_some, Option.map_some']
  rw [loadRleLoop_exact bpp (w * h) ps extra _ _ rfl hc hne (by simp only; omega) hf]
  simp only
  rw [storeBytes_whole _ _ (by rw [length_flatMap_expand bpp ps hc, hsum, hlen])]

/-- C8: on a stream of complete packets whose pixel counts add up to exactly
`width * height`, followed by any bytes, `load_rle_data` succeeds and leaves in
the buffer the concatenation of the expansions of the packets: the pixels of a
raw packet (header byte `b < 128`, `b + 1` pixels) verbatim, the pixel of a run
packet (header byte `b ≥ 128`) `b - 127` times.  The bytes after the last
packet have no effect. -/
theorem load_rle_data_packets (img : TGAImage) (ps : List Packet) (extra buf : List Byte)
    (w h bpp : Nat)
    (hd : img.m_data = some buf) (hw : img.m_width = w) (hh : img.m_height = h)
    (hb : img.m_bytespp = bpp) (hlen : buf.length = w * h * bpp)
    (hwp : 1 ≤ w) (hhp : 1 ≤ h)
    (hc : ∀ p ∈ ps, p.Complete bpp) (hsum : pixelTotal ps = w * h) :
    img.load_rle_data (ps.flatMap Packet.bytes ++ extra)
      = (true, { img with m_data := some (ps.flatMap Packet.expand) }) :=
  load_rle_data_exact img ps extra buf w h bpp hd hw hh hb hlen hwp hhp hc hsum

/-- C8 at a 2x3 image with 1 byte per pixel: a raw packet of 2 pixels, a run
packet of 3 and a raw packet of 1, followed by two stray bytes. -/
theorem load_rle_data_packets_witness :
    (TGAImage.mk (some [0, 0, 0, 0, 0, 0]) 2 3 1).load_rle_data
        ([⟨1, [7, 8]⟩, ⟨130, [9]⟩, ⟨0, [5]⟩].flatMap Packet.bytes ++ [44, 45])
      = (true, { (TGAImage.mk (some [0, 0, 0, 0, 0, 0]) 2 3 1) with
          m_data := some (([⟨1, [7, 8]⟩, ⟨130, [9]⟩, ⟨0, [5]⟩] : List Packet).flatMap
            Packet.expand) }) :=
  load_rle_data_packets ⟨some [0, 0, 0, 0, 0, 0], 2, 3, 1⟩ [⟨1, [7, 8]⟩, ⟨130, [9]⟩, ⟨0, [5]⟩]
    [44, 45] [0, 0, 0, 0, 0, 0] 2 3 1 rfl rfl rfl rfl (by decide) (by decide) (by decide)
    (by decide) (by decide)

/-- C7 as stated fails in its second part: after the RLE header of a
32767x32767 image with 24 bits per pixel, on a stream that ends at once,
`read_tga_file` does not return false: the allocation of the buffer, whose
size does not fit `int`, throws before `load_rle_data` is called. -/
theorem read_throws_before_rle_decoding :
    BadTail 3 (32767 * 32767) (pixelTotal []) []
    ∧ pixelTotal [] < 32767 * 32767
    ∧ (TGAImage.mk none 0 0 0).read_tga_file
        (some ([0, 0, 10, 0, 0, 0, 0, 0, 0, 0, 0, 0, 255, 127, 255, 127, 24, 32]
          ++ (([] : List Packet).flatMap Packet.bytes ++ []))) (fun _ => 0)
      = none :=
  ⟨BadTail.endOfStream, by decide, by decide⟩

/-- C7, amended: for valid width, height and bytes per pixel, when the stream
consists of complete packets for fewer than `width * height` pixels followed by
the end of the stream, by a packet cut short inside its pixels, or by a packet
that takes the number of pixels past `width * height`, `load_rle_data` returns
false, and `read_tga_file` returns false on a file that has this stream after
a valid RLE header of these dimensions, provided the size
`width * height * bytesPerPixel` of the buffer is at most `INT_MAX`. -/
theorem load_rle_data_rejects (img img0 : TGAImage) (ps : List Packet)
    (tail buf hdr : List Byte) (uninit : Nat → Byte) (w h bpp : Nat)
    (_hd : img.m_data = some buf) (hw : img.m_width = w) (hh : img.m_height = h)
    (hb : img.m_bytespp = bpp) (_hlen : buf.length = w * h * bpp)
    (hwp : 1 ≤ w) (hhp : 1 ≤ h) (hbpp : bpp = 1 ∨ bpp = 3 ∨ bpp = 4)
    (hc : ∀ p ∈ ps, p.Complete bpp) (hlt : pixelTotal ps < w * h)
    (hbad : BadTail bpp (w * h) (pixelTotal ps) tail)
    (hl : hdr.length = 18)
    (h1 : (TGA_Header.ofBytes hdr).width = w) (h2 : (TGA_Header.ofBytes hdr).height = h)
    (h3 : Int.tdiv (TGA_Header.ofBytes hdr).bitsperpixel 8 = bpp)
    (h4 : (TGA_Header.ofBytes hdr).datatypecode = 10
      ∨ (TGA_Header.ofBytes hdr).datatypecode = 11)
    (hfit : w * h * bpp ≤ 2147483647) :
    (img.load_rle_data (ps.flatMap Packet.bytes ++ tail)).1 = false
    ∧ ∃ img', img0.read_tga_file (some (hdr ++ (ps.flatMap Packet.bytes ++ tail))) uninit
        = some (false, img') := by
  have hpc : ∀ (a b : Nat), ((a : Int) * (b : Int)).toNat = a * b := by
    intro a b
    norm_cast
  constructor
  · unfold TGAImage.load_rle_data
    simp only [hw, hh, hb, hpc, Int.toNat_ofNat]
    exact loadRleLoop_rejects bpp (w * h) ps tail _ hc hlt hbad
  · rw [read_tga_file_append _ _ _ _ hl, readPixelData_rle _ _ _ _ w h bpp h1 h2 h3 hwp hhp hbpp
      (by rw [Nat.mul_comm bpp w, Nat.mul_assoc, Nat.mul_comm bpp h, ← Nat.mul_assoc]; exact hfit)
      h4]
    have : ((TGAImage.mk (some (newArray uninit (bpp * w * h))) w h bpp).load_rle_data
        (ps.flatMap Packet.bytes ++ tail)).1 = false := by
      unfold TGAImage.load_rle_data
      simp only [hpc, Int.toNat_ofNat]
      exact loadRleLoop_rejects bpp (w * h) ps tail _ hc hlt hbad
    rw [if_pos this]
    exact ⟨_, rfl⟩

/-- The amended C7 at a 3x1 image with 1 byte per pixel: a raw packet of one pixel followed
by a run packet of three, which takes the count to four. -/
theorem load_rle_data_rejects_witness :
    ((TGAImage.mk (some [0, 0, 0]) 3 1 1).load_rle_data
        (([⟨0, [5]⟩] : List Packet).flatMap Packet.bytes ++ [130, 9])).1 = false
    ∧ ∃ img', (TGAImage.mk none 0 0 0).read_tga_file
        (some ([0, 0, 11, 0, 0, 0, 0, 0, 0, 0, 0, 0, 3, 0, 1, 0, 8, 32]
          ++ (([⟨0, [5]⟩] : List Packet).flatMap Packet.bytes ++ [130, 9]))) (fun _ => 0)
        = some (false, img') :=
  load_rle_data_rejects ⟨some [0, 0, 0], 3, 1, 1⟩ ⟨none, 0, 0, 0⟩ [⟨0, [5]⟩] [130, 9] [0, 0, 0]
    [0, 0, 11, 0, 0, 0, 0, 0, 0, 0, 0, 0, 3, 0, 1, 0, 8, 32] (fun _ => 0) 3 1 1
    rfl rfl rfl rfl (by decide) (by decide) (by decide) (by decide) (by decide) (by decide)
    (BadTail.overrun 130 [9] (by decide)) (by decide) (by decide) (by decide) (by decide)
    (by decide) (by decide)

/-! ## The RLE encoder -/

theorem rd_eq_getElem (d : List Byte) (i : Nat) (h : i < d.length) : rd d i = d[i] := by
  unfold rd
  exact List.getD_eq_getElem d 0 h

theorem length_cells (d : List Byte) (off n : Nat) (h : off + n ≤ d.length) :
    (cells d off n).length = n := by
  unfold cells
  rw [List.length_take, List.length_drop]
  omega

theorem getElem_cells (d : List Byte) (off n t : Nat) (h1 : t < (cells d off n).length)
    (h2 : off + t < d.length) : (cells d off n)[t] = d[off + t] := by
  simp only [cells, List.getElem_take, List.getElem_drop]

/-- When `succ_eq` comes out true, the pixel at `curbyte` and the next one are
the same bytes. -/
theorem succEq_cells (d : List Byte) (bpp curbyte : Nat) (hin : curbyte + bpp + bpp ≤ d.length)
    (h : succEq d bpp curbyte = true) :
    cells d (curbyte + bpp) bpp = cells d curbyte bpp := by
  unfold succEq at h
  rw [List.all_eq_true] at h
  apply List.ext_getElem
  · rw [length_cells _ _ _ (by omega), length_cells _ _ _ (by omega)]
  · intro t h1 h2
    have ht : t < bpp := by
      rw [length_cells _ _ _ (by omega)] at h1
      exact h1
    rw [getElem_cells d _ bpp t h1 (by omega), getElem_cells d _ bpp t h2 (by omega)]
    have := h t (List.mem_range.mpr ht)
    rw [rd_eq_getElem d _ (by omega), rd_eq_getElem d _ (by omega)] at this
    have e := (beq_iff_eq).mp this
    have hidx : curbyte + bpp + t = curbyte + t + bpp := by omega
    simp only [hidx]
    exact e.symm

/-- The inner loop of the encoder returns a chunk of 1 to 128 pixels inside the
image; when the chunk is a run, it has at least two pixels and all of them
equal the first. -/
theorem scanChunk_spec (d : List Byte) (bpp npixels curpix : Nat)
    (hlen : d.length = npixels * bpp) (fuel curbyte run_length : Nat) (raw : Bool)
    (h1 : 1 ≤ run_length) (h128 : run_length ≤ 128) (hin : curpix + run_length ≤ npixels)
    (hcb : curbyte = (curpix + run_length - 1) * bpp)
    (hrun : raw = false → 2 ≤ run_length
      ∧ ∀ k, k < run_length → cells d ((curpix + k) * bpp) bpp = cells d (curpix * bpp) bpp) :
    1 ≤ (scanChunk d bpp npixels curpix fuel curbyte run_length raw).1
    ∧ (scanChunk d bpp npixels curpix fuel curbyte run_length raw).1 ≤ 128
    ∧ curpix + (scanChunk d bpp npixels curpix fuel curbyte run_length raw).1 ≤ npixels
    ∧ ((scanChunk d bpp npixels curpix fuel curbyte run_length raw).2 = false →
        2 ≤ (scanChunk d bpp npixels curpix fuel curbyte run_length raw).1
        ∧ ∀ k, k < (scanChunk d bpp npixels curpix fuel curbyte run_length raw).1 →
            cells d ((curpix + k) * bpp) bpp = cells d (curpix * bpp) bpp) := by
  induction fuel generalizing curbyte run_length raw with
  | zero => exact ⟨h1, h128, hin, hrun⟩
  | succ fuel ih =>
    by_cases hcond : curpix + run_length < npixels ∧ run_length < 128
    · have hbound : curbyte + bpp + bpp ≤ d.length := by
        rw [hlen, hcb]
        have : (curpix + run_length - 1) * bpp + bpp + bpp = (curpix + run_length + 1) * bpp := by
          have e : curpix + run_length + 1 = (curpix + run_length - 1) + 1 + 1 := by omega
          rw [e, Nat.add_mul, Nat.add_mul, Nat.one_mul]
        rw [this]
        exact Nat.mul_le_mul_right bpp (by omega)
      have hnext : curbyte + bpp = (curpix + run_length) * bpp := by
        rw [hcb]
        have e : curpix + run_length = (curpix + run_length - 1) + 1 := by omega
        conv_rhs => rw [e, Nat.add_mul, Nat.one_mul]
      have hsucc := succEq_cells d bpp curbyte hbound
      cases he : succEq d bpp curbyte
      · -- the successor differs
        by_cases hone : run_length = 1
        · have hstep : scanChunk d bpp npixels curpix (fuel + 1) curbyte run_length raw
              = scanChunk d bpp npixels curpix fuel (curbyte + bpp) (run_length + 1) true := by
            rw [scanChunk, if_pos hcond]
            simp [he, hone]
          rw [hstep]
          apply ih _ _ _ (by omega) (by omega) (by omega)
            (by rw [hnext]; congr 1)
          intro hf
          cases hf
        · cases raw
          · have hstep : scanChunk d bpp npixels curpix (fuel + 1) curbyte run_length false
                = (run_length, false) := by
              rw [scanChunk, if_pos hcond]
              have hne : ¬ (1 = run_length) := fun h => hone h.symm
              simp [he, hne]
            rw [hstep]
            exact ⟨h1, h128, hin, hrun⟩
          · have hstep : scanChunk d bpp npixels curpix (fuel + 1) curbyte run_length true
                = scanChunk d bpp npixels curpix fuel (curbyte + bpp) (run_length + 1) true := by
              rw [scanChunk, if_pos hcond]
              have hne : ¬ (1 = run_length) := fun h => hone h.symm
              simp [he, hne]
            rw [hstep]
            apply ih _ _ _ (by omega) (by omega) (by omega)
              (by rw [hnext]; congr 1)
            intro hf
            cases hf
      · -- the successor is equal
        have heq := hsucc he
        by_cases hone : run_length = 1
        · have hstep : scanChunk d bpp npixels curpix (fuel + 1) curbyte run_length raw
              = scanChunk d bpp npixels curpix fuel (curbyte + bpp) (run_length + 1) false := by
            rw [scanChunk, if_pos hcond]
            simp [he, hone]
          rw [hstep]
          apply ih _ _ _ (by omega) (by omega) (by omega)
            (by rw [hnext]; congr 1)
          intro _
          refine ⟨by omega, ?_⟩
          intro k hk
          have hk2 : k = 0 ∨ k = 1 := by omega
          rcases hk2 with rfl | rfl
          · rfl
          · rw [hone] at hnext hcb
            rw [hnext] at heq
            rw [heq, hcb, Nat.add_sub_cancel]
        · cases raw
          · have hstep : scanChunk d bpp npixels curpix (fuel + 1) curbyte run_length false
                = scanChunk d bpp npixels curpix fuel (curbyte + bpp) (run_length + 1) false := by
              rw [scanChunk, if_pos hcond]
              have hne : ¬ (1 = run_length) := fun h => hone h.symm
              simp [he, hne]
            rw [hstep]
            obtain ⟨h2, hall⟩ := hrun rfl
            apply ih _ _ _ (by omega) (by omega) (by omega)
              (by rw [hnext]; congr 1)
            intro _
            refine ⟨by omega, ?_⟩
            intro k hk
            by_cases hk2 : k < run_length
            · exact hall k hk2
            · have : k = run_length := by omega
              subst this
              rw [← hnext, heq, hcb]
              have := hall (k - 1) (by omega)
              rw [← this]
              congr 2
              omega
          · have hstep : scanChunk d bpp npixels curpix (fuel + 1) curbyte run_length true
                = (run_length - 1, true) := by
              rw [scanChunk, if_pos hcond]
              have hne : ¬ (1 = run_length) := fun h => hone h.symm
              simp [he, hne]
            rw [hstep]
            refine ⟨by simp only; omega, by simp only; omega, by simp only; omega, ?_⟩
            intro hf
            cases hf
    · rw [scanChunk, if_neg hcond]
      exact ⟨h1, h128, hin, hrun⟩

theorem cells_add (d : List Byte) (off m n : Nat) :
    cells d off (m + n) = cells d off m ++ cells d (off + m) n := by
  unfold cells
  rw [List.take_add, List.drop_drop]

theorem cells_append_drop (d : List Byte) (off n : Nat) :
    cells d off n ++ d.drop (off + n) = d.drop off := by
  unfold cells
  rw [← List.drop_drop, List.take_append_drop]

/-- A run of `n` equal pixels is `n` copies of the first one. -/
theorem cells_run (d : List Byte) (bpp curpix n : Nat)
    (hall : ∀ k, k < n → cells d ((curpix + k) * bpp) bpp = cells d (curpix * bpp) bpp) :
    (List.replicate n (cells d (curpix * bpp) bpp)).flatten = cells d (curpix * bpp) (n * bpp) := by
  induction n with
  | zero => simp [cells]
  | succ n ih =>
    rw [List.replicate_succ', List.flatten_append, ih (fun k hk => hall k (by omega)),
      Nat.succ_mul, cells_add, ← Nat.add_mul, hall n (by omega)]
    simp

theorem byteOfInt_raw (n : Nat) (h1 : 1 ≤ n) (h128 : n ≤ 128) :
    (byteOfInt ((n : Int) - 1)).val = n - 1 := by
  unfold byteOfInt
  simp only
  omega

theorem byteOfInt_run (n : Nat) (h128 : n ≤ 128) :
    (byteOfInt ((n : Int) + 128 - 1)).val = n + 127 := by
  unfold byteOfInt
  simp only
  omega

/-- The bytes the encoder loop puts on the stream from pixel `curpix` on are
complete packets whose expansions, one after the other, are the rest of the
buffer. -/
theorem unloadRleLoop_packets (d : List Byte) (bpp npixels : Nat)
    (hlen : d.length = npixels * bpp) (fuel curpix : Nat)
    (hfuel : npixels - curpix ≤ fuel) (hcp : curpix ≤ npixels) :
    ∃ ps : List Packet,
      unloadRleLoop d bpp npixels fuel curpix = ps.flatMap Packet.bytes
      ∧ (∀ p ∈ ps, p.Complete bpp)
      ∧ (∀ p ∈ ps, 1 ≤ p.count ∧ p.count ≤ 128)
      ∧ ps.flatMap Packet.expand = d.drop (curpix * bpp)
      ∧ pixelTotal ps = npixels - curpix := by
  induction fuel generalizing curpix with
  | zero =>
    have : curpix = npixels := by omega
    subst this
    refine ⟨[], rfl, by simp, by simp, ?_, by simp [pixelTotal]⟩
    rw [← hlen, List.drop_length]
    rfl
  | succ fuel ih =>
    rw [unloadRleLoop]
    by_cases hlt : curpix < npixels
    · rw [if_pos hlt]
      obtain ⟨hL1, hL128, hLin, hLrun⟩ := scanChunk_spec d bpp npixels curpix hlen 128
        (curpix * bpp) 1 true (by omega) (by omega) (by omega) (by simp)
        (by intro hf; cases hf)
      generalize scanChunk d bpp npixels curpix 128 (curpix * bpp) 1 true = r at *
      obtain ⟨L, rawf⟩ := r
      simp only at hL1 hL128 hLin hLrun ⊢
      obtain ⟨ps, hps, hcomp, hcnt, hexp, htot⟩ := ih (curpix + L) (by omega) hLin
      have hinb : curpix * bpp + L * bpp ≤ d.length := by
        rw [hlen, ← Nat.add_mul]
        exact Nat.mul_le_mul_right bpp hLin
      have hpx : curpix * bpp + bpp ≤ d.length := by
        have : bpp ≤ L * bpp := Nat.le_mul_of_pos_left bpp (by omega)
        omega
      cases rawf
      · -- a run packet
        obtain ⟨h2, hall⟩ := hLrun rfl
        have hv := byteOfInt_run L hL128
        refine ⟨⟨byteOfInt ((L : Int) + 128 - 1), cells d (curpix * bpp) bpp⟩ :: ps, ?_, ?_, ?_, ?_, ?_⟩
        · simp [hps, Packet.bytes]
        · intro p hp
          rcases List.mem_cons.mp hp with rfl | hp
          · simp only [Packet.Complete, Packet.stored, hv]
            rw [if_neg (by omega), length_cells _ _ _ hpx, Nat.one_mul]
          · exact hcomp p hp
        · intro p hp
          rcases List.mem_cons.mp hp with rfl | hp
          · simp only [Packet.count, hv]
            rw [if_neg (by omega)]
            omega
          · exact hcnt p hp
        · rw [List.flatMap_cons, hexp]
          simp only [Packet.expand, hv]
          rw [if_neg (by omega), Nat.add_sub_cancel, cells_run d bpp curpix L hall, Nat.add_mul,
            cells_append_drop]
        · rw [pixelTotal_cons, htot]
          simp only [Packet.count, hv]
          rw [if_neg (by omega)]
          omega
      · -- a raw packet
        have hv := byteOfInt_raw L hL1 hL128
        refine ⟨⟨byteOfInt ((L : Int) - 1), cells d (curpix * bpp) (L * bpp)⟩ :: ps, ?_, ?_, ?_, ?_, ?_⟩
        · simp [hps, Packet.bytes]
        · intro p hp
          rcases List.mem_cons.mp hp with rfl | hp
          · simp only [Packet.Complete, Packet.stored, hv]
            rw [if_pos (by omega), length_cells _ _ _ hinb]
            congr 1
            omega
          · exact hcomp p hp
        · intro p hp
          rcases List.mem_cons.mp hp with rfl | hp
          · simp only [Packet.count, hv]
            rw [if_pos (by omega)]
            omega
          · exact hcnt p hp
        · rw [List.flatMap_cons, hexp]
          simp only [Packet.expand, hv]
          rw [if_pos (by omega), Nat.add_mul, cells_append_drop]
        · rw [pixelTotal_cons, htot]
          simp only [Packet.count, hv]
          rw [if_pos (by omega)]
          omega
    · rw [if_neg hlt]
      have : curpix = npixels := by omega
      subst this
      refine ⟨[], rfl, by simp, by simp, ?_, by simp [pixelTotal]⟩
      rw [← hlen, List.drop_length]
      rfl

/-! ## RLE round trip -/

/-- Reading back an RLE file written from an allocated image whose dimensions
fit the header restores the image. -/
theorem read_write_rle (img img0 : TGAImage) (uninit : Nat → Byte) (hal : img.Allocated)
    (hb : img.m_bytespp = 1 ∨ img.m_bytespp = 3 ∨ img.m_bytespp = 4)
    (hw : 1 ≤ img.m_width ∧ img.m_width ≤ 32767)
    (hh : 1 ≤ img.m_height ∧ img.m_height ≤ 32767)
    (hfit : img.m_width * img.m_height * img.m_bytespp ≤ 2147483647) :
    img0.read_tga_file (some (img.write_tga_file true).2) uninit = some (true, img) := by
  obtain ⟨d, hd, hlen⟩ := hal
  obtain ⟨md, mw, mh, mb⟩ := img
  simp only at hd hlen hb hw hh hfit
  subst hd
  obtain ⟨w, rfl⟩ : ∃ w : Nat, mw = w := ⟨mw.toNat, by omega⟩
  obtain ⟨h, rfl⟩ : ∃ h : Nat, mh = h := ⟨mh.toNat, by omega⟩
  obtain ⟨bpp, rfl⟩ : ∃ b : Nat, mb = b := ⟨mb.toNat, by omega⟩
  have hlenN : d.length = w * h * bpp := by exact_mod_cast hlen
  have hpc : ((w : Int) * (h : Int)).toNat = w * h := by norm_cast
  obtain ⟨ps, hps, hcomp, -, hexp, htot⟩ :=
    unloadRleLoop_packets d bpp (w * h) hlenN (w * h) 0 (by omega) (by omega)
  have hfile : ((TGAImage.mk (some d) w h bpp).write_tga_file true).2
      = ((TGAImage.mk (some d) w h bpp).header true).toBytes
          ++ (ps.flatMap Packet.bytes ++ ([0, 0, 0, 0] ++ [0, 0, 0, 0] ++ footer)) := by
    simp [TGAImage.write_tga_file, TGAImage.unload_rle_data, hpc, hps]
  rw [hfile, read_tga_file_append _ _ _ _ (length_toBytes _),
    ofBytes_header _ true hw hh hb]
  have hdc : ((TGAImage.mk (some d) w h bpp).header true).datatypecode = 10
      ∨ ((TGAImage.mk (some d) w h bpp).header true).datatypecode = 11 := by
    simp only [TGAImage.header]
    by_cases h1 : (bpp : Int) = 1 <;> simp [h1]
  have hfitN : bpp * w * h ≤ 2147483647 := by
    have : w * h * bpp ≤ 2147483647 := by exact_mod_cast hfit
    rw [Nat.mul_comm bpp w, Nat.mul_assoc, Nat.mul_comm bpp h, ← Nat.mul_assoc]
    exact this
  rw [readPixelData_rle _ _ _ _ w h bpp rfl rfl (by rw [header_bits]; exact tdiv_bytespp _ hb)
    (by omega) (by omega) (by omega) hfitN hdc]
  rw [load_rle_data_exact ⟨some (newArray uninit (bpp * w * h)), w, h, bpp⟩ ps _
    (newArray uninit (bpp * w * h)) w h bpp rfl rfl rfl rfl
    (by rw [length_newArray]; ring) (by omega) (by omega) hcomp (by rw [htot]; omega)]
  rw [if_neg (by simp), header_descriptor, normalize_top_left, hexp]
  simp

/-- C1: for every allocated image with 1, 3 or 4 bytes per pixel and width and
height in [1,512], `write_tga_file` with RLE succeeds and `read_tga_file` on the
file written succeeds and yields the same width, height, bytes per pixel and
pixel buffer, whatever image the reader held before. -/
theorem rle_round_trip (img img0 : TGAImage) (uninit : Nat → Byte) (hal : img.Allocated)
    (hb : img.m_bytespp = 1 ∨ img.m_bytespp = 3 ∨ img.m_bytespp = 4)
    (hw : 1 ≤ img.m_width ∧ img.m_width ≤ 512)
    (hh : 1 ≤ img.m_height ∧ img.m_height ≤ 512) :
    (img.write_tga_file true).1 = true
    ∧ img0.read_tga_file (some (img.write_tga_file true).2) uninit = some (true, img) :=
  ⟨rfl, read_write_rle img img0 uninit hal hb ⟨hw.1, by omega⟩ ⟨hh.1, by omega⟩
    (size_in_range img.m_width img.m_height img.m_bytespp hw hh hb)⟩

/-- C1 at a 4x2 checkerboard with 1 byte per pixel, where no two neighbours in a
row are equal. -/
theorem rle_round_trip_witness :
    ((TGAImage.mk (some [0, 255, 0, 255, 255, 0, 255, 0]) 4 2 1).write_tga_file true).1 = true
    ∧ (TGAImage.mk none 0 0 0).read_tga_file
        (some ((TGAImage.mk (some [0, 255, 0, 255, 255, 0, 255, 0]) 4 2 1).write_tga_file true).2)
        (fun _ => 0)
      = some (true, TGAImage.mk (some [0, 255, 0, 255, 255, 0, 255, 0]) 4 2 1) :=
  rle_round_trip ⟨some [0, 255, 0, 255, 255, 0, 255, 0], 4, 2, 1⟩ ⟨none, 0, 0, 0⟩ (fun _ => 0)
    ⟨_, rfl, by decide⟩ (by decide) (by decide) (by decide)

/-! ## Stores seen block by block -/

/-- A cell after a run of stores inside the array: the stored byte inside the
run, the old cell outside. -/
theorem getElem?_storeBytes (src dst : List Byte) (off i : Nat)
    (h : off + src.length ≤ dst.length) :
    (storeBytes dst off src)[i]?
      = if off ≤ i ∧ i < off + src.length then src[i - off]? else dst[i]? := by
  rw [storeBytes_eq src dst off h]
  by_cases h1 : i < off
  · rw [if_neg (by omega), List.append_assoc, List.getElem?_append_left (by
      rw [List.length_take]; omega), List.getElem?_take, if_pos h1]
  · by_cases h2 : i < off + src.length
    · rw [if_pos ⟨by omega, h2⟩, List.append_assoc, List.getElem?_append_right (by
        rw [List.length_take]; omega), List.length_take, Nat.min_eq_left (by omega),
        List.getElem?_append_left (by omega)]
    · rw [if_neg (by omega), List.getElem?_append_right (by
        rw [List.length_append, List.length_take]; omega), List.getElem?_drop,
        List.length_append, List.length_take, Nat.min_eq_left (by omega)]
      congr 1
      omega

theorem getElem?_cells (d : List Byte) (off n t : Nat) :
    (cells d off n)[t]? = if t < n then d[off + t]? else none := by
  unfold cells
  rw [List.getElem?_take, List.getElem?_drop]

/-- Block `r` of size `n` after block `p` has been overwritten with `src`. -/
theorem cells_storeBytes (src dst : List Byte) (n N p r : Nat) (hlen : dst.length = N * n)
    (hsrc : src.length = n) (hp : p < N) (hr : r < N) :
    cells (storeBytes dst (p * n) src) (r * n) n
      = if r = p then src else cells dst (r * n) n := by
  have hpn : p * n + n ≤ N * n := by
    rw [← Nat.succ_mul]
    exact Nat.mul_le_mul_right n hp
  have hrn : r * n + n ≤ N * n := by
    rw [← Nat.succ_mul]
    exact Nat.mul_le_mul_right n hr
  apply List.ext_getElem?
  intro t
  rw [getElem?_cells, getElem?_storeBytes src dst (p * n) (r * n + t) (by omega)]
  by_cases ht : t < n
  · rw [if_pos ht]
    by_cases hrp : r = p
    · subst hrp
      rw [if_pos rfl, if_pos (by omega)]
      congr 1
      omega
    · rw [if_neg hrp, getElem?_cells, if_pos ht]
      have hout : ¬ (p * n ≤ r * n + t ∧ r * n + t < p * n + src.length) := by
        rcases Nat.lt_or_gt_of_ne hrp with hlt | hgt
        · have : r * n + n ≤ p * n := by
            rw [← Nat.succ_mul]
            exact Nat.mul_le_mul_right n hlt
          omega
        · have : p * n + n ≤ r * n := by
            rw [← Nat.succ_mul]
            exact Nat.mul_le_mul_right n hgt
          omega
      rw [if_neg hout]
  · rw [if_neg ht]
    by_cases hrp : r = p
    · rw [if_pos hrp]
      exact (List.getElem?_eq_none (by omega)).symm
    · rw [if_neg hrp, getElem?_cells, if_neg ht]

/-- Two blocks of an array change places: the three `memmove` calls of
`flip_vertically` and the two `set` calls of `flip_horizontally`. -/
theorem cells_swap (d : List Byte) (n N p q r : Nat) (hlen : d.length = N * n)
    (hp : p < N) (hq : q < N) (hpq : p ≠ q) (hr : r < N) :
    cells (storeBytes (storeBytes d (p * n) (cells d (q * n) n)) (q * n) (cells d (p * n) n))
        (r * n) n
      = if r = p then cells d (q * n) n else if r = q then cells d (p * n) n
        else cells d (r * n) n := by
  have hpn : p * n + n ≤ d.length := by
    rw [hlen, ← Nat.succ_mul]
    exact Nat.mul_le_mul_right n hp
  have hqn : q * n + n ≤ d.length := by
    rw [hlen, ← Nat.succ_mul]
    exact Nat.mul_le_mul_right n hq
  rw [cells_storeBytes _ _ n N q r (by rw [length_storeBytes, hlen]) (length_cells _ _ _ hpn) hq hr,
    cells_storeBytes _ _ n N p r hlen (length_cells _ _ _ hqn) hp hr]
  by_cases h1 : r = p
  · have h2 : ¬ r = q := by omega
    simp only [h1, h2, if_true, if_false]
    rw [if_neg hpq]
  · simp only [h1, if_false]

/-! ## The flips -/

theorem length_swapLines (d : List Byte) (B : Nat) (h : Int) (j : Nat) :
    (swapLines d B h j).length = d.length := by
  simp [swapLines, length_storeBytes]

/-- After `k` passes of the loop of `flip_vertically` the first `k` and the last
`k` lines have changed places with their mirror lines; the others are as
before. -/
theorem foldl_swapLines (d : List Byte) (B h k : Nat) (hlen : d.length = h * B)
    (hk : 2 * k ≤ h) :
    ((List.range k).foldl (fun d j => swapLines d B (h : Int) j) d).length = d.length
    ∧ ∀ y, y < h →
        cells ((List.range k).foldl (fun d j => swapLines d B (h : Int) j) d) (y * B) B
          = if y < k ∨ h ≤ y + k then cells d ((h - 1 - y) * B) B else cells d (y * B) B := by
  induction k with
  | zero =>
    refine ⟨rfl, fun y hy => ?_⟩
    rw [if_neg (by omega)]
    rfl
  | succ k ih =>
    obtain ⟨ihl, ihc⟩ := ih (by omega)
    rw [List.range_succ, List.foldl_append]
    simp only [List.foldl_cons, List.foldl_nil]
    generalize List.foldl (fun d j => swapLines d B (h : Int) j) d (List.range k) = dk at ihl ihc ⊢
    refine ⟨by rw [length_swapLines, ihl], fun y hy => ?_⟩
    have hq : ((h : Int) - 1 - (k : Int)).toNat = h - 1 - k := by omega
    unfold swapLines
    simp only [hq]
    rw [cells_swap _ B h k (h - 1 - k) y (by rw [ihl, hlen]) (by omega) (by omega) (by omega) hy]
    by_cases h1 : y = k
    · subst h1
      rw [if_pos rfl, if_pos (by omega), ihc _ (by omega), if_neg (by omega)]
    · rw [if_neg h1]
      by_cases h2 : y = h - 1 - k
      · subst h2
        rw [if_pos rfl, if_pos (by omega), ihc _ (by omega), if_neg (by omega)]
        congr 2
        omega
      · rw [if_neg h2, ihc y hy]
        by_cases h3 : y < k ∨ h ≤ y + k
        · rw [if_pos h3, if_pos (by omega)]
        · rw [if_neg h3, if_neg (by omega)]

/-- The size of a line computed in `int`, when it is within `int`: the line
buffer can be allocated. -/
theorem line_size (w bpp : Nat) (hfit : w * bpp ≤ 2147483647) :
    toULong (wrapInt ((w : Int) * (bpp : Int))) = w * bpp
    ∧ canAllocate (w * bpp) = true := by
  have e : (w : Int) * (bpp : Int) = ((w * bpp : Nat) : Int) := by push_cast; rfl
  rw [e, wrapInt_eq _ (by omega) (by omega), toULong_eq _ (by omega) (by omega), Int.toNat_ofNat]
  exact ⟨rfl, canAllocate_small _ hfit⟩

/-- The method `flip_vertically` on an allocated image whose lines have at most
`INT_MAX` bytes: line `y` of the result is line `h - 1 - y` of the buffer
before. -/
theorem flip_vertically_lines (d : List Byte) (w h bpp : Nat) (hlen : d.length = w * h * bpp)
    (hfit : w * bpp ≤ 2147483647) :
    ∃ d', (TGAImage.mk (some d) w h bpp).flip_vertically = some (true, ⟨some d', w, h, bpp⟩)
      ∧ d'.length = d.length
      ∧ ∀ y, y < h →
          cells d' (y * (w * bpp)) (w * bpp) = cells d ((h - 1 - y) * (w * bpp)) (w * bpp) := by
  obtain ⟨hB, hcan⟩ := line_size w bpp hfit
  have hhalf : (Int.tdiv (h : Int) 2).toNat = h / 2 := by
    rw [Int.tdiv_eq_ediv (by omega) (by omega)]
    omega
  have hl : d.length = h * (w * bpp) := by rw [hlen]; ring
  obtain ⟨fl, fc⟩ := foldl_swapLines d (w * bpp) h (h / 2) hl (by omega)
  refine ⟨_, ?_, fl, fun y hy => ?_⟩
  · unfold TGAImage.flip_vertically
    dsimp only
    rw [hB, if_pos hcan, hhalf]
  · rw [fc y hy]
    by_cases h3 : y < h / 2 ∨ h ≤ y + h / 2
    · rw [if_pos h3]
    · rw [if_neg h3]
      have e : h - 1 - y = y := by omega
      rw [e]

theorem pixel_index_lt (w h x y : Nat) (hx : x < w) (hy : y < h) : x + y * w < w * h := by
  have h1 : (y + 1) * w ≤ h * w := Nat.mul_le_mul_right w hy
  rw [Nat.succ_mul] at h1
  rw [Nat.mul_comm w h]
  omega

theorem pixel_index_inj (w x y x' y' : Nat) (hx : x < w) (hx' : x' < w)
    (h : x + y * w = x' + y' * w) : x = x' ∧ y = y' := by
  have h1 : (x + y * w) % w = x := by
    rw [Nat.add_mul_mod_self_right, Nat.mod_eq_of_lt hx]
  have h2 : (x' + y' * w) % w = x' := by
    rw [Nat.add_mul_mod_self_right, Nat.mod_eq_of_lt hx']
  have hxx : x = x' := by rw [← h1, ← h2, h]
  subst hxx
  have hyw : y * w = y' * w := by omega
  exact ⟨rfl, Nat.eq_of_mul_eq_mul_right (by omega) hyw⟩

theorem block_le (N n p : Nat) (hp : p < N) : p * n + n ≤ N * n := by
  rw [← Nat.succ_mul]
  exact Nat.mul_le_mul_right n hp

theorem cells_drop (d : List Byte) (off n : Nat) : cells (d.drop off) 0 n = cells d off n := by
  simp [cells]

/-- The bytes `set` copies out of a colour that `get` made are the bytes of the
pixel `get` read. -/
theorem raw_ofPtr (p : List Byte) (bpp : Nat) (hbpp : bpp = 1 ∨ bpp = 3 ∨ bpp = 4)
    (hp : bpp ≤ p.length) :
    cells (TGAColor.ofPtr p (bpp : Int)).raw 0 bpp = cells p 0 bpp := by
  rcases hbpp with rfl | rfl | rfl
  · match p, hp with
    | a :: rest, _ => rfl
  · match p, hp with
    | a :: b :: c :: rest, _ => rfl
  · match p, hp with
    | a :: b :: c :: e :: rest, _ => rfl

/-- One pass of the inner loop of `flip_horizontally` exchanges two pixels of
the buffer. -/
theorem swapPixels_eq (d : List Byte) (w h bpp i j : Nat) (hlen : d.length = w * h * bpp)
    (hbpp : bpp = 1 ∨ bpp = 3 ∨ bpp = 4) (hi : i < w) (hj : j < h) :
    (TGAImage.mk (some d) w h bpp).swapPixels (i : Int) (j : Int)
      = ⟨some (storeBytes (storeBytes d ((i + j * w) * bpp)
            (cells d (((w - 1 - i) + j * w) * bpp) bpp)) (((w - 1 - i) + j * w) * bpp)
            (cells d ((i + j * w) * bpp) bpp)), w, h, bpp⟩ := by
  have hk : ((w : Int) - 1 - (i : Int)) = ((w - 1 - i : Nat) : Int) := by omega
  have ho : ∀ a : Nat, ((((a : Int) + (j : Int) * (w : Int)) * (bpp : Int))).toNat
      = (a + j * w) * bpp := by
    intro a
    norm_cast
  have hp := block_le (w * h) bpp _ (pixel_index_lt w h i j hi hj)
  have hq := block_le (w * h) bpp _ (pixel_index_lt w h (w - 1 - i) j (by omega) hj)
  have c1 : ¬ ((i : Int) < 0 ∨ (j : Int) < 0 ∨ (i : Int) ≥ w ∨ (j : Int) ≥ h) := by omega
  have c2 : ¬ (((w - 1 - i : Nat) : Int) < 0 ∨ (j : Int) < 0 ∨ ((w - 1 - i : Nat) : Int) ≥ w
      ∨ (j : Int) ≥ h) := by omega
  simp only [TGAImage.swapPixels, TGAImage.get, TGAImage.set, hk, if_neg c1, if_neg c2, ho,
    Int.toNat_ofNat]
  rw [raw_ofPtr _ bpp hbpp (by rw [List.length_drop]; omega),
    raw_ofPtr _ bpp hbpp (by rw [List.length_drop]; omega), cells_drop, cells_drop]

/-- After `m` passes of the inner loop of `flip_horizontally` for column `i`,
the pixels of columns `i` and `w - 1 - i` in the first `m` rows have changed
places; all other pixels are as before. -/
theorem foldl_swapPixels (e : List Byte) (w h bpp i m : Nat) (hlen : e.length = w * h * bpp)
    (hbpp : bpp = 1 ∨ bpp = 3 ∨ bpp = 4) (hi : 2 * i + 1 < w) (hm : m ≤ h) :
    ∃ e', (List.range m).foldl (fun (im : TGAImage) (j : Nat) => im.swapPixels (i : Int) (j : Int))
          ⟨some e, w, h, bpp⟩ = ⟨some e', w, h, bpp⟩
      ∧ e'.length = e.length
      ∧ ∀ x y, x < w → y < h →
          cells e' ((x + y * w) * bpp) bpp
            = if (x = i ∨ x = w - 1 - i) ∧ y < m then cells e (((w - 1 - x) + y * w) * bpp) bpp
              else cells e ((x + y * w) * bpp) bpp := by
  induction m with
  | zero =>
    refine ⟨e, rfl, rfl, fun x y _ _ => ?_⟩
    rw [if_neg (by omega)]
  | succ m ih =>
    obtain ⟨e1, he1, hl1, hc1⟩ := ih (by omega)
    rw [List.range_succ, List.foldl_append, he1]
    simp only [List.foldl_cons, List.foldl_nil]
    rw [swapPixels_eq e1 w h bpp i m (by rw [hl1, hlen]) hbpp (by omega) (by omega)]
    refine ⟨_, rfl, by rw [length_storeBytes, length_storeBytes, hl1], fun x y hx hy => ?_⟩
    have hpi := pixel_index_lt w h i m (by omega) (by omega)
    have hqi := pixel_index_lt w h (w - 1 - i) m (by omega) (by omega)
    have hri := pixel_index_lt w h x y hx hy
    rw [cells_swap e1 bpp (w * h) _ _ (x + y * w) (by rw [hl1, hlen]) hpi hqi (by omega) hri]
    by_cases h1 : x + y * w = i + m * w
    · obtain ⟨rfl, rfl⟩ := pixel_index_inj w x y i m hx (by omega) h1
      rw [if_pos rfl, if_pos ⟨Or.inl rfl, by omega⟩, hc1 _ _ (by omega) hy, if_neg (by omega)]
    · rw [if_neg h1]
      by_cases h2 : x + y * w = w - 1 - i + m * w
      · obtain ⟨rfl, rfl⟩ := pixel_index_inj w x y (w - 1 - i) m hx (by omega) h2
        rw [if_pos rfl, if_pos ⟨Or.inr rfl, by omega⟩, hc1 _ _ (by omega) hy, if_neg (by omega)]
        have hback : w - 1 - (w - 1 - i) = i := Nat.sub_sub_self (by omega)
        rw [hback]
      · rw [if_neg h2, hc1 x y hx hy]
        have hne : ¬ ((x = i ∨ x = w - 1 - i) ∧ y = m) := by
          rintro ⟨hx1 | hx1, rfl⟩
          · exact h1 (by rw [hx1])
          · exact h2 (by rw [hx1])
        by_cases h3 : (x = i ∨ x = w - 1 - i) ∧ y < m
        · rw [if_pos h3, if_pos ⟨h3.1, by omega⟩]
        · rw [if_neg h3, if_neg (by
            rintro ⟨hx1, hy1⟩
            rcases Nat.lt_succ_iff_lt_or_eq.mp hy1 with hy2 | hy2
            · exact h3 ⟨hx1, hy2⟩
            · exact hne ⟨hx1, hy2⟩)]

/-- After `k` passes of the outer loop of `flip_horizontally` the first `k` and
the last `k` columns have changed places with their mirror columns. -/
theorem foldl_swapColumns (d : List Byte) (w h bpp k : Nat) (hlen : d.length = w * h * bpp)
    (hbpp : bpp = 1 ∨ bpp = 3 ∨ bpp = 4) (hk : 2 * k ≤ w) :
    ∃ d', (List.range k).foldl (fun (im : TGAImage) (i : Nat) =>
            (List.range h).foldl (fun (im : TGAImage) (j : Nat) =>
              im.swapPixels (i : Int) (j : Int)) im) ⟨some d, w, h, bpp⟩
          = ⟨some d', w, h, bpp⟩
      ∧ d'.length = d.length
      ∧ ∀ x y, x < w → y < h →
          cells d' ((x + y * w) * bpp) bpp
            = if x < k ∨ w ≤ x + k then cells d (((w - 1 - x) + y * w) * bpp) bpp
              else cells d ((x + y * w) * bpp) bpp := by
  induction k with
  | zero =>
    refine ⟨d, rfl, rfl, fun x y _ _ => ?_⟩
    rw [if_neg (by omega)]
  | succ k ih =>
    obtain ⟨d1, hd1, hl1, hc1⟩ := ih (by omega)
    rw [List.range_succ, List.foldl_append, hd1]
    simp only [List.foldl_cons, List.foldl_nil]
    obtain ⟨d2, hd2, hl2, hc2⟩ := foldl_swapPixels d1 w h bpp k h (by rw [hl1, hlen]) hbpp
      (by omega) (Nat.le_refl h)
    refine ⟨d2, hd2, by rw [hl2, hl1], fun x y hx hy => ?_⟩
    rw [hc2 x y hx hy]
    by_cases h1 : x = k ∨ x = w - 1 - k
    · rw [if_pos ⟨h1, hy⟩, hc1 _ y (by omega) hy, if_neg (by omega), if_pos (by omega)]
    · rw [if_neg (fun hh => h1 hh.1), hc1 x y hx hy]
      by_cases h3 : x < k ∨ w ≤ x + k
      · rw [if_pos h3, if_pos (by omega)]
      · rw [if_neg h3, if_neg (by omega)]

/-- The method `flip_horizontally` on an allocated image: the pixel at `(x, y)` of the
result is the pixel at `(w - 1 - x, y)` of the buffer before. -/
theorem flip_horizontally_pixels (d : List Byte) (w h bpp : Nat)
    (hlen : d.length = w * h * bpp) (hbpp : bpp = 1 ∨ bpp = 3 ∨ bpp = 4) :
    ∃ d', (TGAImage.mk (some d) w h bpp).flip_horizontally = (true, ⟨some d', w, h, bpp⟩)
      ∧ d'.length = d.length
      ∧ ∀ x y, x < w → y < h →
          cells d' ((x + y * w) * bpp) bpp = cells d (((w - 1 - x) + y * w) * bpp) bpp := by
  have hhalf : (Int.tdiv (w : Int) 2).toNat = w / 2 := by
    rw [Int.tdiv_eq_ediv (by omega) (by omega)]
    omega
  obtain ⟨d', hd', hl', hc'⟩ := foldl_swapColumns d w h bpp (w / 2) hlen hbpp (by omega)
  refine ⟨d', ?_, hl', fun x y hx hy => ?_⟩
  · simp only [TGAImage.flip_horizontally, hhalf, Int.toNat_ofNat]
    rw [← hd']
  · rw [hc' x y hx hy]
    by_cases h3 : x < w / 2 ∨ w ≤ x + w / 2
    · rw [if_pos h3]
    · rw [if_neg h3]
      congr 3
      omega

theorem cells_cells (d : List Byte) (off n o m : Nat) (h : o + m ≤ n) :
    cells (cells d off n) o m = cells d (off + o) m := by
  unfold cells
  rw [List.drop_take, List.take_take, List.drop_drop, Nat.min_eq_left (by omega)]

/-- The method `flip_vertically` on an allocated image: the pixel at `(x, y)` of the result
is the pixel at `(x, h - 1 - y)` of the buffer before. -/
theorem flip_vertically_pixels (d : List Byte) (w h bpp : Nat) (hlen : d.length = w * h * bpp)
    (hfit : w * bpp ≤ 2147483647) :
    ∃ d', (TGAImage.mk (some d) w h bpp).flip_vertically = some (true, ⟨some d', w, h, bpp⟩)
      ∧ d'.length = d.length
      ∧ ∀ x y, x < w → y < h →
          cells d' ((x + y * w) * bpp) bpp = cells d ((x + (h - 1 - y) * w) * bpp) bpp := by
  obtain ⟨d', hd', hl', hc'⟩ := flip_vertically_lines d w h bpp hlen hfit
  refine ⟨d', hd', hl', fun x y hx hy => ?_⟩
  have hxb := block_le w bpp x hx
  have e1 : (x + y * w) * bpp = y * (w * bpp) + x * bpp := by ring
  have e2 : (x + (h - 1 - y) * w) * bpp = (h - 1 - y) * (w * bpp) + x * bpp := by ring
  rw [e1, e2, ← cells_cells d' _ (w * bpp) _ _ hxb, ← cells_cells d _ (w * bpp) _ _ hxb, hc' y hy]

theorem descriptorBit5_int8 (b : Byte) : descriptorBit5 (int8 b) = b.val.testBit 5 := by
  have hb := b.isLt
  rw [Nat.testBit_to_div_mod]
  unfold descriptorBit5 int8
  apply Bool.decide_congr
  split <;> omega

theorem descriptorBit4_int8 (b : Byte) : descriptorBit4 (int8 b) = b.val.testBit 4 := by
  have hb := b.isLt
  rw [Nat.testBit_to_div_mod]
  unfold descriptorBit4 int8
  apply Bool.decide_congr
  split <;> omega

/-! ## Orientation after reading -/

/-- After a valid header with a raw data-type-code the reader copies the pixel
data into the buffer and normalizes the orientation. -/
theorem readPixelData_raw (img0 : TGAImage) (header : TGA_Header) (data extra : List Byte)
    (uninit : Nat → Byte) (w h bpp : Nat)
    (hw : header.width = w) (hh : header.height = h)
    (hb : Int.tdiv header.bitsperpixel 8 = bpp)
    (hwp : 1 ≤ w) (hhp : 1 ≤ h) (hbpp : bpp = 1 ∨ bpp = 3 ∨ bpp = 4)
    (hcode : header.datatypecode = 3 ∨ header.datatypecode = 2)
    (hdata : data.length = w * h * bpp) (hfit : w * h * bpp ≤ 2147483647) :
    img0.readPixelData header (data ++ extra) uninit
      = ((TGAImage.mk (some data) w h bpp).normalize header.imagedescriptor).map
          (fun im => (true, im)) := by
  unfold TGAImage.readPixelData
  dsimp only
  rw [hw, hh, hb]
  have hn : ((bpp : Int) * w * h).toNat = data.length := by
    have : ((bpp : Int) * w * h) = ((w * h * bpp : Nat) : Int) := by push_cast; ring
    rw [this, Int.toNat_ofNat, hdata]
  have hsz := size_fits (bpp : Int) (w : Int) (h : Int)
    (Int.mul_nonneg (by omega) (by omega)) (by omega) (by
      have : ((bpp : Int) * w * h) = ((w * h * bpp : Nat) : Int) := by push_cast; ring
      rw [this]
      exact_mod_cast hfit)
  rw [if_neg (by omega), hsz.1, hn, if_pos (by rw [← hn, ← hsz.1]; exact hsz.2), if_pos hcode,
    readBytes_append data extra _ rfl,
    List.take_left' rfl, storeBytes_whole data _ (by rw [length_newArray])]

/-- After a header that passes the checks and asks for a buffer of `2^31` bytes
or more, the allocation throws. -/
theorem readPixelData_throws (img0 : TGAImage) (header : TGA_Header) (rest : List Byte)
    (uninit : Nat → Byte) (w h bpp : Nat)
    (hw : header.width = w) (hh : header.height = h)
    (hb : Int.tdiv header.bitsperpixel 8 = bpp)
    (hwp : 1 ≤ w ∧ w ≤ 32767) (hhp : 1 ≤ h ∧ h ≤ 32767) (hbpp : bpp = 1 ∨ bpp = 3 ∨ bpp = 4)
    (hbig : 2147483648 ≤ bpp * w * h) :
    img0.readPixelData header rest uninit = none := by
  unfold TGAImage.readPixelData
  dsimp only
  rw [hw, hh, hb]
  have h1 : bpp * w ≤ 131068 := by
    rcases hbpp with e | e | e <;> subst e <;> omega
  have h2 : bpp * w * h ≤ 131068 * 32767 := Nat.mul_le_mul h1 hhp.2
  have hthrow := size_throws (bpp : Int) (w : Int) (h : Int)
    (Int.mul_nonneg (by omega) (by omega))
    (by
      have : (bpp : Int) * w = ((bpp * w : Nat) : Int) := by push_cast; rfl
      rw [this]
      omega)
    (by
      have : (bpp : Int) * w * h = ((bpp * w * h : Nat) : Int) := by push_cast; rfl
      rw [this]
      omega)
    (by
      have : (bpp : Int) * w * h = ((bpp * w * h : Nat) : Int) := by push_cast; rfl
      rw [this]
      omega)
  rw [if_neg (by omega), hthrow]
  rfl

/-- What `get` returns inside the image depends only on the bytes of the pixel. -/
theorem get_congr (d1 d2 : List Byte) (w h bpp x1 y1 x2 y2 : Nat)
    (hx1 : x1 < w) (hy1 : y1 < h) (hx2 : x2 < w) (hy2 : y2 < h)
    (hc : cells d1 ((x1 + y1 * w) * bpp) bpp = cells d2 ((x2 + y2 * w) * bpp) bpp) :
    (TGAImage.mk (some d1) w h bpp).get (x1 : Int) (y1 : Int)
      = (TGAImage.mk (some d2) w h bpp).get (x2 : Int) (y2 : Int) := by
  have ho : ∀ a b : Nat, ((((a : Int) + (b : Int) * (w : Int)) * (bpp : Int))).toNat
      = (a + b * w) * bpp := by
    intro a b
    norm_cast
  have c1 : ¬ ((x1 : Int) < 0 ∨ (y1 : Int) < 0 ∨ (x1 : Int) ≥ w ∨ (y1 : Int) ≥ h) := by omega
  have c2 : ¬ ((x2 : Int) < 0 ∨ (y2 : Int) < 0 ∨ (x2 : Int) ≥ w ∨ (y2 : Int) ≥ h) := by omega
  simp only [TGAImage.get, if_neg c1, if_neg c2, ho, TGAColor.ofPtr, Int.toNat_ofNat, cells_drop,
    hc]

/-- C9 as stated fails: the raw file of a 32767x32767 image with 24 bits per
pixel, a valid header followed by all the `32767 * 32767 * 3` bytes of pixel
data, is not read: the size of the buffer does not fit `int` and the
allocation throws. -/
theorem read_throws_on_large_raw_file :
    (List.replicate (32767 * 32767 * 3) (0 : Byte)).length = 32767 * 32767 * 3
    ∧ (TGAImage.mk none 0 0 0).read_tga_file
        (some ([0, 0, 2, 0, 0, 0, 0, 0, 0, 0, 0, 0, 255, 127, 255, 127, 24, 32]
          ++ (List.replicate (32767 * 32767 * 3) (0 : Byte) ++ []))) (fun _ => 0)
      = none := by
  refine ⟨List.length_replicate _ _, ?_⟩
  rw [read_tga_file_append _ _ _ _ (by decide)]
  exact readPixelData_throws _ _ _ _ 32767 32767 3 (by decide) (by decide) (by decide)
    (by decide) (by decide) (by decide) (by decide)

/-- C9, amended: on a valid raw file (data-type-code 2 or 3) of width `w` and
height `h` whose pixel data are at most `INT_MAX` bytes, `read_tga_file`
succeeds and the pixel at `(x, y)` of the image is the pixel of the file data
at `(x', y')`, where `y' = y` if bit 5 of the image descriptor is set and
`h - 1 - y` otherwise, and `x' = w - 1 - x` if bit 4 is set and `x` otherwise;
the pixels are compared as buffer bytes and through `get`. -/
theorem read_normalizes_orientation (img0 : TGAImage) (hdr data extra : List Byte)
    (uninit : Nat → Byte) (w h bpp : Nat) (hl : hdr.length = 18)
    (h1 : (TGA_Header.ofBytes hdr).width = w) (h2 : (TGA_Header.ofBytes hdr).height = h)
    (h3 : Int.tdiv (TGA_Header.ofBytes hdr).bitsperpixel 8 = bpp)
    (hwp : 1 ≤ w) (hhp : 1 ≤ h) (hbpp : bpp = 1 ∨ bpp = 3 ∨ bpp = 4)
    (hcode : (TGA_Header.ofBytes hdr).datatypecode = 3
      ∨ (TGA_Header.ofBytes hdr).datatypecode = 2)
    (hdata : data.length = w * h * bpp) (hfit : w * h * bpp ≤ 2147483647) :
    ∃ buf, img0.read_tga_file (some (hdr ++ (data ++ extra))) uninit
        = some (true, ⟨some buf, w, h, bpp⟩)
      ∧ buf.length = w * h * bpp
      ∧ ∀ x y, x < w → y < h →
          cells buf ((x + y * w) * bpp) bpp
            = cells data (((if (rd hdr 17).val.testBit 4 then w - 1 - x else x)
                + (if (rd hdr 17).val.testBit 5 then y else h - 1 - y) * w) * bpp) bpp
          ∧ (TGAImage.mk (some buf) w h bpp).get (x : Int) (y : Int)
            = (TGAImage.mk (some data) w h bpp).get
                ((if (rd hdr 17).val.testBit 4 then w - 1 - x else x : Nat) : Int)
                ((if (rd hdr 17).val.testBit 5 then y else h - 1 - y : Nat) : Int) := by
  have hdesc : (TGA_Header.ofBytes hdr).imagedescriptor = int8 (rd hdr 17) := rfl
  rw [read_tga_file_append _ _ _ _ hl,
    readPixelData_raw _ _ data extra uninit w h bpp h1 h2 h3 hwp hhp hbpp hcode hdata hfit, hdesc]
  unfold TGAImage.normalize
  rw [descriptorBit5_int8, descriptorBit4_int8]
  -- the vertical flip, when bit 5 is clear
  have hline : w * bpp ≤ 2147483647 := by
    have : w * bpp * 1 ≤ w * bpp * h := Nat.mul_le_mul_left _ hhp
    have e : w * bpp * h = w * h * bpp := by ring
    omega
  have hv : ∃ d1, (if (rd hdr 17).val.testBit 5 = true then some (TGAImage.mk (some data) w h bpp)
        else (TGAImage.mk (some data) w h bpp).flip_vertically.map Prod.snd)
        = some ⟨some d1, w, h, bpp⟩
      ∧ d1.length = w * h * bpp
      ∧ ∀ x y, x < w → y < h → cells d1 ((x + y * w) * bpp) bpp
          = cells data ((x + (if (rd hdr 17).val.testBit 5 then y else h - 1 - y) * w) * bpp)
              bpp := by
    cases (rd hdr 17).val.testBit 5
    · obtain ⟨d', e, l, c⟩ := flip_vertically_pixels data w h bpp hdata hline
      refine ⟨d', by simp [e], by rw [l, hdata], fun x y hx hy => ?_⟩
      simpa using c x y hx hy
    · exact ⟨data, by simp, hdata, fun x y _ _ => by simp⟩
  obtain ⟨d1, e1, l1, c1⟩ := hv
  simp only [] at e1
  rw [e1]
  simp only [Option.map_some']
  -- the horizontal flip, when bit 4 is set
  have hh : ∃ d2, (if (rd hdr 17).val.testBit 4 = true
        then (TGAImage.mk (some d1) w h bpp).flip_horizontally.2
        else TGAImage.mk (some d1) w h bpp) = ⟨some d2, w, h, bpp⟩
      ∧ d2.length = w * h * bpp
      ∧ ∀ x y, x < w → y < h → cells d2 ((x + y * w) * bpp) bpp
          = cells d1 (((if (rd hdr 17).val.testBit 4 then w - 1 - x else x) + y * w) * bpp)
              bpp := by
    cases (rd hdr 17).val.testBit 4
    · exact ⟨d1, by simp, l1, fun x y _ _ => by simp⟩
    · obtain ⟨d', e, l, c⟩ := flip_horizontally_pixels d1 w h bpp l1 hbpp
      refine ⟨d', by simp [e], by rw [l, l1], fun x y hx hy => ?_⟩
      simpa using c x y hx hy
  obtain ⟨d2, e2, l2, c2⟩ := hh
  simp only [] at e2
  rw [e2]
  refine ⟨d2, rfl, l2, fun x y hx hy => ?_⟩
  have hx' : (if (rd hdr 17).val.testBit 4 then w - 1 - x else x) < w := by
    split <;> omega
  have hy' : (if (rd hdr 17).val.testBit 5 then y else h - 1 - y) < h := by
    split <;> omega
  have key := (c2 x y hx hy).trans (c1 _ y hx' hy)
  exact ⟨key, get_congr d2 data w h bpp x y _ _ hx hy hx' hy' key⟩

/-- The amended C9 at a raw 2x2 file with 1 byte per pixel and image descriptor `0x10`
(bit 5 clear, bit 4 set): both flips are applied. -/
theorem read_normalizes_orientation_witness :
    ∃ buf, (TGAImage.mk none 0 0 0).read_tga_file
          (some ([0, 0, 3, 0, 0, 0, 0, 0, 0, 0, 0, 0, 2, 0, 2, 0, 8, 16] ++ ([1, 2, 3, 4] ++ [])))
          (fun _ => 0)
        = some (true, ⟨some buf, (2 : Nat), (2 : Nat), (1 : Nat)⟩)
      ∧ buf.length = 2 * 2 * 1
      ∧ ∀ x y, x < 2 → y < 2 →
          cells buf ((x + y * 2) * 1) 1
            = cells [1, 2, 3, 4]
                (((if (rd [0, 0, 3, 0, 0, 0, 0, 0, 0, 0, 0, 0, 2, 0, 2, 0, 8, 16] 17).val.testBit 4
                    then 2 - 1 - x else x)
                + (if (rd [0, 0, 3, 0, 0, 0, 0, 0, 0, 0, 0, 0, 2, 0, 2, 0, 8, 16] 17).val.testBit 5
                    then y else 2 - 1 - y) * 2) * 1) 1
          ∧ (TGAImage.mk (some buf) (2 : Nat) (2 : Nat) (1 : Nat)).get (x : Int) (y : Int)
            = (TGAImage.mk (some [1, 2, 3, 4]) (2 : Nat) (2 : Nat) (1 : Nat)).get
                ((if (rd [0, 0, 3, 0, 0, 0, 0, 0, 0, 0, 0, 0, 2, 0, 2, 0, 8, 16] 17).val.testBit 4
                    then 2 - 1 - x else x : Nat) : Int)
                ((if (rd [0, 0, 3, 0, 0, 0, 0, 0, 0, 0, 0, 0, 2, 0, 2, 0, 8, 16] 17).val.testBit 5
                    then y else 2 - 1 - y : Nat) : Int) :=
  read_normalizes_orientation ⟨none, 0, 0, 0⟩
    [0, 0, 3, 0, 0, 0, 0, 0, 0, 0, 0, 0, 2, 0, 2, 0, 8, 16] [1, 2, 3, 4] [] (fun _ => 0) 2 2 1
    (by decide) (by decide) (by decide) (by decide) (by decide) (by decide) (by decide)
    (by decide) (by decide) (by decide)

/-! ## The buffer after a failed read -/

theorem get_of_no_buffer (img : TGAImage) (h : img.m_data = none) (x y : Int) :
    img.get x y = TGAColor.default := by
  simp [TGAImage.get, h]

theorem load_rle_data_keeps_buffer (img : TGAImage) (inp : List Byte) (d : List Byte)
    (h : img.m_data = some d) :
    ∃ d', (img.load_rle_data inp).2 = { img with m_data := some d' } := by
  simp [TGAImage.load_rle_data, h]

/-- A result of `normalize` paired with `true` is not a failure. -/
theorem map_true_ne_false (o : Option TGAImage) (img' : TGAImage)
    (h : o.map (fun im => (true, im)) = some (false, img')) : False := by
  cases o with
  | none => cases h
  | some im =>
    simp only [Option.map_some', Option.some.injEq, Prod.mk.injEq] at h
    exact absurd h.1 (by decide)

/-- After an accepted header a failed read leaves the buffer allocated. -/
theorem readPixelData_failure (img0 img' : TGAImage) (header : TGA_Header) (rest : List Byte)
    (uninit : Nat → Byte)
    (hacc : ¬ (header.width ≤ 0 ∨ header.height ≤ 0
      ∨ (Int.tdiv header.bitsperpixel 8 ≠ 1 ∧ Int.tdiv header.bitsperpixel 8 ≠ 3
        ∧ Int.tdiv header.bitsperpixel 8 ≠ 4)))
    (hfail : img0.readPixelData header rest uninit = some (false, img')) :
    img'.m_data ≠ none := by
  unfold TGAImage.readPixelData at hfail
  simp only at hfail
  rw [if_neg hacc] at hfail
  split at hfail
  · by_cases hraw : header.datatypecode = 3 ∨ header.datatypecode = 2
    · rw [if_pos hraw] at hfail
      split at hfail
      · simp only [Option.some.injEq, Prod.mk.injEq, true_and] at hfail
        rw [← hfail]
        simp
      · exact (map_true_ne_false _ _ hfail).elim
    · rw [if_neg hraw] at hfail
      by_cases hrle : header.datatypecode = 10 ∨ header.datatypecode = 11
      · rw [if_pos hrle] at hfail
        split at hfail
        · simp only [Option.some.injEq, Prod.mk.injEq, true_and] at hfail
          rw [← hfail]
          simp [TGAImage.load_rle_data]
        · exact (map_true_ne_false _ _ hfail).elim
      · rw [if_neg hrle] at hfail
        simp only [Option.some.injEq, Prod.mk.injEq, true_and] at hfail
        rw [← hfail]
        simp
  · cases hfail

/-- C6 (as stated, refuted): a raw 2x1 file with one byte per pixel whose pixel
data stop after the first byte makes `read_tga_file` return false, yet the image
keeps a buffer and `get` returns the pixel that was read, not the zero colour. -/
theorem read_failure_keeps_partial_buffer :
    (TGAImage.mk none 0 0 0).read_tga_file
        (some ([0, 0, 3, 0, 0, 0, 0, 0, 0, 0, 0, 0, 2, 0, 1, 0, 8, 32] ++ [7])) (fun _ => 0)
      = some (false, ⟨some [7, 0], 2, 1, 1⟩)
    ∧ (TGAImage.mk (some [7, 0]) 2 1 1).get 0 0 ≠ TGAColor.default := by
  decide

/-- C6 (amended): when `read_tga_file` returns false, the image is left without
a pixel buffer exactly when the failure comes before the allocation (the file
does not open, the header is cut short, or the width, the height or the bytes
per pixel are rejected); in that case `get` returns the zero colour at every
coordinate. -/
theorem read_failure_buffer (img img' : TGAImage) (file : Option (List Byte))
    (uninit : Nat → Byte)
    (hfail : img.read_tga_file file uninit = some (false, img')) :
    (img'.m_data = none ↔ ¬ headerAccepted file)
    ∧ (¬ headerAccepted file → ∀ x y : Int, img'.get x y = TGAColor.default) := by
  have key : img'.m_data = none ↔ ¬ headerAccepted file := by
    unfold TGAImage.read_tga_file at hfail
    unfold headerAccepted
    cases file with
    | none =>
      simp only [Option.some.injEq, Prod.mk.injEq, true_and] at hfail
      rw [← hfail]
      simp
    | some content =>
      simp only at hfail ⊢
      cases hr : readBytes 18 content with
      | none =>
        simp only [hr, Option.some.injEq, Prod.mk.injEq, true_and] at hfail
        rw [← hfail]
        simp
      | some pr =>
        obtain ⟨hbytes, rest⟩ := pr
        simp only [hr] at hfail ⊢
        by_cases hacc : ((TGA_Header.ofBytes hbytes).width ≤ 0
            ∨ (TGA_Header.ofBytes hbytes).height ≤ 0
            ∨ (Int.tdiv (TGA_Header.ofBytes hbytes).bitsperpixel 8 ≠ 1
              ∧ Int.tdiv (TGA_Header.ofBytes hbytes).bitsperpixel 8 ≠ 3
              ∧ Int.tdiv (TGA_Header.ofBytes hbytes).bitsperpixel 8 ≠ 4))
        · have : img'.m_data = none := by
            unfold TGAImage.readPixelData at hfail
            simp only at hfail
            rw [if_pos hacc] at hfail
            simp only [Option.some.injEq, Prod.mk.injEq, true_and] at hfail
            rw [← hfail]
          simp only [this, true_iff, not_not]
          exact hacc
        · have := readPixelData_failure { img with m_data := none } img'
            (TGA_Header.ofBytes hbytes) rest uninit hacc hfail
          simp only [this, false_iff, not_not]
          exact hacc
  exact ⟨key, fun h x y => get_of_no_buffer _ (key.mpr h) x y⟩

/-- The amended C6 at a header of width 0. -/
theorem read_failure_buffer_witness :
    ((TGAImage.mk none 0 1 3).m_data = none
      ↔ ¬ headerAccepted (some [0, 0, 2, 0, 0, 0, 0, 0, 0, 0, 0, 0, 0, 0, 1, 0, 24, 32, 5, 6, 7]))
    ∧ (¬ headerAccepted (some [0, 0, 2, 0, 0, 0, 0, 0, 0, 0, 0, 0, 0, 0, 1, 0, 24, 32, 5, 6, 7]) →
        ∀ x y : Int, (TGAImage.mk none 0 1 3).get x y = TGAColor.default) :=
  read_failure_buffer ⟨some [1, 2, 3], 3, 1, 1⟩ ⟨none, 0, 1, 3⟩
    (some [0, 0, 2, 0, 0, 0, 0, 0, 0, 0, 0, 0, 0, 0, 1, 0, 24, 32, 5, 6, 7]) (fun _ => 0)
    (by decide)

/-! ## The loop bounds of the model

The three loops that the model unrolls a bounded number of times never need
more passes: one more pass allowed changes no result. -/

theorem loadRawPacket_inp (bpp pixelcount n : Nat) (s : RleState) :
    (loadRawPacket bpp pixelcount n s).2.inp.length ≤ s.inp.length := by
  induction n generalizing s with
  | zero => simp [loadRawPacket]
  | succ n ih =>
    rw [loadRawPacket]
    unfold readBytes
    by_cases hb : bpp ≤ s.inp.length
    · simp only [hb, if_true, RleState.storePixel]
      split
      · simp only [List.length_drop]
        omega
      · refine Nat.le_trans (ih _) ?_
        simp only [List.length_drop]
        omega
    · simp [hb]

theorem loadRunPacket_inp (pixelcount n : Nat) (px : List Byte) (s : RleState) :
    (loadRunPacket pixelcount px n s).2.inp = s.inp := by
  induction n generalizing s with
  | zero => simp [loadRunPacket]
  | succ n ih =>
    rw [loadRunPacket]
    simp only [RleState.storePixel]
    split
    · rfl
    · rw [ih]

/-- A pass of the decoder loop that does not fail has read at least the packet
header. -/
theorem loadPacket_inp (bpp pixelcount : Nat) (s : RleState)
    (hok : (loadPacket bpp pixelcount s).1 = true) :
    (loadPacket bpp pixelcount s).2.inp.length < s.inp.length := by
  unfold loadPacket at hok ⊢
  cases hs : s.inp with
  | nil => simp [hs] at hok
  | cons hd rest =>
    simp only [hs] at hok ⊢
    by_cases hraw : hd.val < 128
    · simp only [hraw, if_true, List.length_cons]
      have := loadRawPacket_inp bpp pixelcount (hd.val + 1) { s with inp := rest }
      simp only at this
      omega
    · simp only [hraw, if_false, List.length_cons] at hok ⊢
      unfold readBytes at hok ⊢
      by_cases hb : bpp ≤ rest.length
      · simp only [hb, if_true, loadRunPacket_inp, List.length_drop]
        omega
      · simp [hb] at hok

/-- With as many passes as the input has bytes, the decoder loop never stops for
want of a pass. -/
theorem loadRleLoop_fuel (bpp pixelcount fuel : Nat) (s : RleState)
    (hfuel : s.inp.length ≤ fuel) :
    loadRleLoop bpp pixelcount (fuel + 1) s = loadRleLoop bpp pixelcount fuel s := by
  induction fuel generalizing s with
  | zero =>
    have hnil : s.inp = [] := List.eq_nil_of_length_eq_zero (by omega)
    have hp : loadPacket bpp pixelcount s = (false, s) := by
      unfold loadPacket
      rw [hnil]
    simp only [loadRleLoop, hp, if_true]
  | succ fuel ih =>
    rw [loadRleLoop]
    conv_rhs => rw [loadRleLoop]
    by_cases hok : (loadPacket bpp pixelcount s).1 = false
    · rw [if_pos hok, if_pos hok]
    · rw [if_neg hok, if_neg hok]
      have hlt := loadPacket_inp bpp pixelcount s (by simpa using hok)
      rw [ih _ (by omega)]

/-- As the inner encoder loop stops at a run length of 128, it never needs more
than `128 - run_length` passes. -/
theorem scanChunk_fuel (d : List Byte) (bpp npixels curpix fuel curbyte run_length : Nat)
    (raw : Bool) (hfuel : 128 ≤ run_length + fuel) :
    scanChunk d bpp npixels curpix (fuel + 1) curbyte run_length raw
      = scanChunk d bpp npixels curpix fuel curbyte run_length raw := by
  induction fuel generalizing curbyte run_length raw with
  | zero =>
    have hc : ¬ (curpix + run_length < npixels ∧ run_length < 128) := by omega
    simp only [scanChunk, hc, if_false]
  | succ fuel ih =>
    rw [scanChunk]
    conv_rhs => rw [scanChunk]
    by_cases hc : curpix + run_length < npixels ∧ run_length < 128
    · rw [if_pos hc, if_pos hc]
      simp only
      rw [ih (curbyte + bpp) (run_length + 1) _ (by omega)]
    · rw [if_neg hc, if_neg hc]

/-- With as many passes as there are pixels left, the encoder loop never stops
for want of a pass. -/
theorem unloadRleLoop_fuel (d : List Byte) (bpp npixels : Nat) (hlen : d.length = npixels * bpp)
    (fuel curpix : Nat) (hfuel : npixels - curpix ≤ fuel) (hcp : curpix ≤ npixels) :
    unloadRleLoop d bpp npixels (fuel + 1) curpix = unloadRleLoop d bpp npixels fuel curpix := by
  induction fuel generalizing curpix with
  | zero =>
    have hc : ¬ (curpix < npixels) := by omega
    simp only [unloadRleLoop, hc, if_false]
  | succ fuel ih =>
    rw [unloadRleLoop]
    conv_rhs => rw [unloadRleLoop]
    by_cases hc : curpix < npixels
    · rw [if_pos hc, if_pos hc]
      obtain ⟨hL1, -, hLin, -⟩ := scanChunk_spec d bpp npixels curpix hlen 128
        (curpix * bpp) 1 true (by omega) (by omega) (by omega) (by simp)
        (by intro hf; cases hf)
      simp only
      rw [ih _ (by omega) hLin]
    · rw [if_neg hc, if_neg hc]

/-! ## The pixel accessors -/

/-- C15: when the buffer is unallocated or `x < 0` or `y < 0` or `x >= width` or
`y >= height`, `get(x, y)` returns the colour whose four channel bytes are 0 and
whose bytes per pixel are 1. -/
theorem get_soft_fails (img : TGAImage) (x y : Int)
    (h : img.m_data = none ∨ x < 0 ∨ y < 0 ∨ x ≥ img.m_width ∨ y ≥ img.m_height) :
    img.get x y = ⟨0, 0, 0, 0, 1⟩ := by
  unfold TGAImage.get
  cases hd : img.m_data with
  | none => rfl
  | some d =>
    rw [hd] at h
    have h' : x < 0 ∨ y < 0 ∨ x ≥ img.m_width ∨ y ≥ img.m_height := by
      rcases h with h | h
      · cases h
      · exact h
    simp only [if_pos h']
    rfl

/-- C15 at a 2x2 image read at `x = 2`. -/
theorem get_soft_fails_witness :
    (TGAImage.mk (some [1, 2, 3, 4]) 2 2 1).get 2 0 = ⟨0, 0, 0, 0, 1⟩ :=
  get_soft_fails ⟨some [1, 2, 3, 4], 2, 2, 1⟩ 2 0 (by decide)

/-- C16: when `x < 0` or `y < 0` or `x >= width` or `y >= height`, `set(x, y, c)`
returns false and leaves the image, its buffer and its dimensions, as it
was. -/
theorem set_soft_fails (img : TGAImage) (x y : Int) (c : TGAColor)
    (h : x < 0 ∨ y < 0 ∨ x ≥ img.m_width ∨ y ≥ img.m_height) :
    img.set x y c = (false, img) := by
  unfold TGAImage.set
  cases hd : img.m_data with
  | none => rfl
  | some d => simp only [if_pos h]

/-- C16 at a 2x2 image written at `y = -1`. -/
theorem set_soft_fails_witness :
    (TGAImage.mk (some [1, 2, 3, 4]) 2 2 1).set 0 (-1) (TGAColor.rgba 9 9 9 9)
      = (false, TGAImage.mk (some [1, 2, 3, 4]) 2 2 1) :=
  set_soft_fails ⟨some [1, 2, 3, 4], 2, 2, 1⟩ 0 (-1) (TGAColor.rgba 9 9 9 9) (by decide)

/-- Inside an allocated image `set` stores the first bytes of the colour at the
offset of the pixel. -/
theorem set_eq (d : List Byte) (w h bpp x y : Nat) (c : TGAColor) (hx : x < w) (hy : y < h) :
    (TGAImage.mk (some d) w h bpp).set (x : Int) (y : Int) c
      = (true, ⟨some (storeBytes d ((x + y * w) * bpp) (c.raw.take bpp)), w, h, bpp⟩) := by
  have ho : ((((x : Int) + (y : Int) * (w : Int)) * (bpp : Int))).toNat = (x + y * w) * bpp := by
    norm_cast
  have c1 : ¬ ((x : Int) < 0 ∨ (y : Int) < 0 ∨ (x : Int) ≥ w ∨ (y : Int) ≥ h) := by omega
  simp only [TGAImage.set, if_neg c1, ho, Int.toNat_ofNat, cells, List.drop_zero]

/-- C17: for an allocated image with 1, 3 or 4 bytes per pixel and `(x, y)`
inside it, `set(x, y, c)` returns true, keeps the dimensions and the length of
the buffer, makes the `bytesPerPixel` bytes at offset
`(x + y * width) * bytesPerPixel` the first `bytesPerPixel` bytes of `c`, and
leaves every other byte of the buffer as it was. -/
theorem set_writes_one_pixel (d : List Byte) (w h bpp x y : Nat) (c : TGAColor)
    (hlen : d.length = w * h * bpp) (hbpp : bpp = 1 ∨ bpp = 3 ∨ bpp = 4)
    (hx : x < w) (hy : y < h) :
    ∃ d', (TGAImage.mk (some d) w h bpp).set (x : Int) (y : Int) c
        = (true, ⟨some d', w, h, bpp⟩)
      ∧ d'.length = d.length
      ∧ cells d' ((x + y * w) * bpp) bpp = c.raw.take bpp
      ∧ ∀ i, i < d.length → (i < (x + y * w) * bpp ∨ (x + y * w) * bpp + bpp ≤ i) →
          rd d' i = rd d i := by
  have hraw : (c.raw.take bpp).length = bpp := by
    rcases hbpp with rfl | rfl | rfl <;> rfl
  have hin := block_le (w * h) bpp _ (pixel_index_lt w h x y hx hy)
  rw [← hlen] at hin
  refine ⟨_, set_eq d w h bpp x y c hx hy, length_storeBytes _ _ _, ?_, ?_⟩
  · have := cells_storeBytes (c.raw.take bpp) d bpp (w * h) (x + y * w) (x + y * w) hlen hraw
      (pixel_index_lt w h x y hx hy) (pixel_index_lt w h x y hx hy)
    rw [this, if_pos rfl]
  · intro i _ hout
    unfold rd
    rw [List.getD_eq_getElem?_getD, List.getD_eq_getElem?_getD,
      getElem?_storeBytes _ _ _ _ (by rw [hraw]; exact hin), hraw, if_neg (by omega)]

/-- C17 at a 2x2 image with 3 bytes per pixel written at `(1, 1)`. -/
theorem set_writes_one_pixel_witness :
    ∃ d', (TGAImage.mk (some [1, 2, 3, 4, 5, 6, 7, 8, 9, 10, 11, 12]) (2 : Nat) (2 : Nat)
          (3 : Nat)).set ((1 : Nat) : Int) ((1 : Nat) : Int) (TGAColor.rgba 10 20 30 40)
        = (true, ⟨some d', (2 : Nat), (2 : Nat), (3 : Nat)⟩)
      ∧ d'.length = [1, 2, 3, 4, 5, 6, 7, 8, 9, 10, 11, 12].length
      ∧ cells d' ((1 + 1 * 2) * 3) 3 = (TGAColor.rgba 10 20 30 40).raw.take 3
      ∧ ∀ i, i < [1, 2, 3, 4, 5, 6, 7, 8, 9, 10, 11, 12].length →
          (i < (1 + 1 * 2) * 3 ∨ (1 + 1 * 2) * 3 + 3 ≤ i) →
          rd d' i = rd [1, 2, 3, 4, 5, 6, 7, 8, 9, 10, 11, 12] i :=
  set_writes_one_pixel [1, 2, 3, 4, 5, 6, 7, 8, 9, 10, 11, 12] 2 2 3 1 1 (TGAColor.rgba 10 20 30 40)
    (by decide) (by decide) (by decide) (by decide)

/-! ## Rejected calls of scale -/

/-- C14: when `w <= 0` or `h <= 0` or the image has no buffer, `scale(w, h)`
returns false and leaves the image, its width, height, bytes per pixel and
buffer, as it was. -/
theorem scale_rejects (img : TGAImage) (w h : Int) (uninit : Nat → Byte)
    (hbad : w ≤ 0 ∨ h ≤ 0 ∨ img.m_data = none) :
    img.scale w h uninit = some (false, img) := by
  unfold TGAImage.scale
  cases hd : img.m_data with
  | none => rfl
  | some d =>
    rw [hd] at hbad
    have h' : w ≤ 0 ∨ h ≤ 0 := by
      rcases hbad with h1 | h1 | h1
      · exact Or.inl h1
      · exact Or.inr h1
      · cases h1
    simp only [if_pos h']

/-- C14 at a 2x2 image scaled to width 0. -/
theorem scale_rejects_witness :
    (TGAImage.mk (some [1, 2, 3, 4]) 2 2 1).scale 0 5 (fun _ => 0)
      = some (false, TGAImage.mk (some [1, 2, 3, 4]) 2 2 1) :=
  scale_rejects ⟨some [1, 2, 3, 4], 2, 2, 1⟩ 0 5 (fun _ => 0) (by decide)

/-! ## The flips are involutions -/

/-- Two arrays of `N` blocks of `n` bytes that agree block by block are equal. -/
theorem eq_of_cells (a b : List Byte) (n N : Nat) (ha : a.length = N * n)
    (hb : b.length = N * n) (h : ∀ r, r < N → cells a (r * n) n = cells b (r * n) n) :
    a = b := by
  apply List.ext_getElem?
  intro i
  by_cases hi : i < N * n
  · have hn : 0 < n := by
      rcases Nat.eq_zero_or_pos n with h0 | h0
      · rw [h0] at hi
        simp at hi
      · exact h0
    have hr : i / n < N := Nat.div_lt_of_lt_mul (by rw [Nat.mul_comm]; exact hi)
    have ht : i % n < n := Nat.mod_lt i hn
    have hsplit : i / n * n + i % n = i := by
      rw [Nat.mul_comm]
      exact Nat.div_add_mod i n
    have e := congrArg (fun l => l[i % n]?) (h (i / n) hr)
    simp only [getElem?_cells, if_pos ht, hsplit] at e
    exact e
  · rw [List.getElem?_eq_none (by omega), List.getElem?_eq_none (by omega)]

theorem tdiv_two_toNat (w : Nat) : (Int.tdiv (w : Int) 2).toNat = w / 2 := by
  rw [Int.tdiv_eq_ediv (by omega) (by omega)]
  omega

theorem tdiv_two_small (w : Int) (h : w ≤ 1) : (Int.tdiv w 2).toNat = 0 := by
  rcases Int.le_total 0 w with h0 | h0
  · rw [Int.tdiv_eq_ediv h0 (by omega)]
    omega
  · have e : w = -(-w) := by omega
    have := Int.tdiv_nonneg (by omega : (0 : Int) ≤ -w) (by omega : (0 : Int) ≤ 2)
    rw [e, Int.neg_tdiv]
    omega

/-- On an allocated image with natural dimensions `flip_horizontally` twice
gives the image back. -/
theorem flip_horizontally_twice (d : List Byte) (w h bpp : Nat)
    (hlen : d.length = w * h * bpp) (hbpp : bpp = 1 ∨ bpp = 3 ∨ bpp = 4) :
    (TGAImage.mk (some d) w h bpp).flip_horizontally.2.flip_horizontally
      = (true, ⟨some d, w, h, bpp⟩) := by
  obtain ⟨d1, e1, l1, c1⟩ := flip_horizontally_pixels d w h bpp hlen hbpp
  obtain ⟨d2, e2, l2, c2⟩ := flip_horizontally_pixels d1 w h bpp (by rw [l1, hlen]) hbpp
  rw [e1]
  simp only
  rw [e2]
  have hd : d2 = d := by
    apply eq_of_cells d2 d bpp (w * h) (by rw [l2, l1, hlen]) hlen
    intro r hr
    have hw : 0 < w := by
      rcases Nat.eq_zero_or_pos w with h0 | h0
      · rw [h0] at hr
        simp at hr
      · exact h0
    have hx : r % w < w := Nat.mod_lt r hw
    have hy : r / w < h := Nat.div_lt_of_lt_mul hr
    have hsplit : r % w + r / w * w = r := by
      rw [Nat.mul_comm]
      exact Nat.mod_add_div r w
    have s1 := c2 (r % w) (r / w) hx hy
    have s2 := c1 (w - 1 - r % w) (r / w) (by omega) hy
    have hback : w - 1 - (w - 1 - r % w) = r % w := Nat.sub_sub_self (by omega)
    rw [hback] at s2
    rw [hsplit] at s1 s2
    rw [s1, s2]
  rw [hd]

/-- C18: for every allocated image with 1, 3 or 4 bytes per pixel, whatever its
width and height, `flip_horizontally` succeeds, and applied twice it gives back
the same buffer and the same dimensions. -/
theorem flip_horizontally_involution (img : TGAImage) (hal : img.Allocated)
    (hb : img.m_bytespp = 1 ∨ img.m_bytespp = 3 ∨ img.m_bytespp = 4) :
    img.flip_horizontally.1 = true
    ∧ img.flip_horizontally.2.flip_horizontally = (true, img) := by
  obtain ⟨d, hd, hlen⟩ := hal
  obtain ⟨md, mw, mh, mb⟩ := img
  simp only at hd hlen hb
  subst hd
  refine ⟨rfl, ?_⟩
  by_cases hw : mw ≤ 1
  · have hz := tdiv_two_small mw hw
    have e : (TGAImage.mk (some d) mw mh mb).flip_horizontally
        = (true, TGAImage.mk (some d) mw mh mb) := by
      simp only [TGAImage.flip_horizontally, hz, List.range_zero, List.foldl_nil]
    rw [e]
    exact e
  · have hbpos : 0 < mb := by omega
    have hh : 0 ≤ mh := by
      by_contra hneg
      have h1 : mw * mh < 0 := Int.mul_neg_of_pos_of_neg (by omega) (by omega)
      have h2 : mw * mh * mb < 0 := Int.mul_neg_of_neg_of_pos h1 hbpos
      omega
    obtain ⟨w, rfl⟩ : ∃ w : Nat, mw = w := ⟨mw.toNat, by omega⟩
    obtain ⟨h, rfl⟩ : ∃ h : Nat, mh = h := ⟨mh.toNat, by omega⟩
    obtain ⟨bpp, rfl⟩ : ∃ b : Nat, mb = b := ⟨mb.toNat, by omega⟩
    exact flip_horizontally_twice d w h bpp (by exact_mod_cast hlen) (by omega)

/-- C18 at a 3x2 image with 1 byte per pixel (odd width). -/
theorem flip_horizontally_involution_witness :
    (TGAImage.mk (some [1, 2, 3, 4, 5, 6]) 3 2 1).flip_horizontally.1 = true
    ∧ (TGAImage.mk (some [1, 2, 3, 4, 5, 6]) 3 2 1).flip_horizontally.2.flip_horizontally
      = (true, TGAImage.mk (some [1, 2, 3, 4, 5, 6]) 3 2 1) :=
  flip_horizontally_involution ⟨some [1, 2, 3, 4, 5, 6], 3, 2, 1⟩ ⟨_, rfl, by decide⟩ (by decide)

/-- On an array of `h` lines of `B` bytes the loop of `flip_vertically`, run
twice, gives the array back. -/
theorem foldl_swapLines_twice (d : List Byte) (B h : Nat) (hlen : d.length = h * B) :
    (List.range (h / 2)).foldl (fun d j => swapLines d B (h : Int) j)
        ((List.range (h / 2)).foldl (fun d j => swapLines d B (h : Int) j) d) = d := by
  obtain ⟨l1, c1⟩ := foldl_swapLines d B h (h / 2) hlen (by omega)
  generalize (List.range (h / 2)).foldl (fun d j => swapLines d B (h : Int) j) d = d1 at l1 c1 ⊢
  obtain ⟨l2, c2⟩ := foldl_swapLines d1 B h (h / 2) (by rw [l1, hlen]) (by omega)
  generalize (List.range (h / 2)).foldl (fun d j => swapLines d B (h : Int) j) d1 = d2 at l2 c2 ⊢
  apply eq_of_cells d2 d B h (by rw [l2, l1, hlen]) hlen
  intro y hy
  rw [c2 y hy]
  by_cases h3 : y < h / 2 ∨ h ≤ y + h / 2
  · rw [if_pos h3, c1 _ (by omega)]
    have hback : h - 1 - (h - 1 - y) = y := Nat.sub_sub_self (by omega)
    rw [hback]
    have hm : h - 1 - y < h / 2 ∨ h ≤ h - 1 - y + h / 2 := by omega
    rw [if_pos hm]
  · rw [if_neg h3, c1 y hy, if_neg h3]

/-- C19 as stated fails: `TGAImage(-2, -3, 1)` is an allocated image, its
buffer has `(-2) * (-3) * 1 = 6` bytes, and `flip_vertically` on it does not
return: the size of a line, `-2` as an `unsigned long`, cannot be allocated and
the allocation of the line buffer throws.  So it is with
`TGAImage(536870912, 0, 4)`, an allocated image of height 0 and 0 bytes: the
size of a line, `536870912 * 4 = 2^31`, is `-2^31` as an `int`. -/
theorem flip_vertically_throws_on_negative_width :
    (TGAImage.TGAImage3 (-2) (-3) 1 = some ⟨some [0, 0, 0, 0, 0, 0], -2, -3, 1⟩
      ∧ (TGAImage.mk (some [0, 0, 0, 0, 0, 0]) (-2) (-3) 1).Allocated
      ∧ (TGAImage.mk (some [0, 0, 0, 0, 0, 0]) (-2) (-3) 1).flip_vertically = none)
    ∧ (TGAImage.TGAImage3 536870912 0 4 = some ⟨some [], 536870912, 0, 4⟩
      ∧ (TGAImage.mk (some []) 536870912 0 4).Allocated
      ∧ (TGAImage.mk (some []) 536870912 0 4).flip_vertically = none) :=
  ⟨⟨by decide, ⟨_, rfl, by decide⟩, by decide⟩, ⟨by decide, ⟨_, rfl, by decide⟩, by decide⟩⟩

/-- C19, amended: for every allocated image whose line size
`width * bytesPerPixel` is from 0 to `INT_MAX`, whatever its height,
`flip_vertically` returns true, and applied twice it gives back the same buffer
and the same dimensions. -/
theorem flip_vertically_involution (img : TGAImage) (hal : img.Allocated)
    (hline : 0 ≤ img.m_width * img.m_bytespp ∧ img.m_width * img.m_bytespp ≤ 2147483647) :
    ∃ img1, img.flip_vertically = some (true, img1)
      ∧ img1.flip_vertically = some (true, img) := by
  obtain ⟨d, hd, hlen⟩ := hal
  obtain ⟨md, mw, mh, mb⟩ := img
  simp only at hd hlen hline
  subst hd
  have hB1 : toULong (wrapInt (mw * mb)) = (mw * mb).toNat := by
    rw [wrapInt_eq _ (by omega) hline.2, toULong_eq _ hline.1 hline.2]
  have hcan : canAllocate (mw * mb).toNat = true := canAllocate_small _ (by omega)
  have key : ∀ e : List Byte, (TGAImage.mk (some e) mw mh mb).flip_vertically
      = some (true, ⟨some ((List.range (Int.tdiv mh 2).toNat).foldl
          (fun d j => swapLines d (mw * mb).toNat mh j) e), mw, mh, mb⟩) := by
    intro e
    unfold TGAImage.flip_vertically
    dsimp only
    rw [hB1, if_pos hcan]
  refine ⟨_, key d, ?_⟩
  rw [key]
  by_cases hh : mh ≤ 1
  · rw [tdiv_two_small mh hh]
    rfl
  · obtain ⟨h, rfl⟩ : ∃ h : Nat, mh = h := ⟨mh.toNat, by omega⟩
    have hlenN : d.length = h * (mw * mb).toNat := by
      have h2 : mw * (h : Int) * mb = (h : Int) * (mw * mb) := by ring
      have h3 : ((mw * mb).toNat : Int) = mw * mb := Int.toNat_of_nonneg hline.1
      have h4 : (d.length : Int) = ((h * (mw * mb).toNat : Nat) : Int) := by
        rw [hlen, h2, Nat.cast_mul, h3]
      exact_mod_cast h4
    rw [tdiv_two_toNat, foldl_swapLines_twice d _ h hlenN]

/-- The amended C19 at a 2x3 image with 1 byte per pixel (odd height). -/
theorem flip_vertically_involution_witness :
    ∃ img1, (TGAImage.mk (some [1, 2, 3, 4, 5, 6]) 2 3 1).flip_vertically = some (true, img1)
      ∧ img1.flip_vertically = some (true, TGAImage.mk (some [1, 2, 3, 4, 5, 6]) 2 3 1) :=
  flip_vertically_involution ⟨some [1, 2, 3, 4, 5, 6], 2, 3, 1⟩ ⟨_, rfl, by decide⟩
    (by decide)

/-! ## Single packets out of the encoder -/

/-- When two neighbouring pixels are the same bytes, `succ_eq` comes out true. -/
theorem succEq_of_cells (d : List Byte) (bpp curbyte : Nat) (hin : curbyte + bpp + bpp ≤ d.length)
    (h : cells d (curbyte + bpp) bpp = cells d curbyte bpp) : succEq d bpp curbyte = true := by
  unfold succEq
  rw [List.all_eq_true]
  intro t ht
  have ht' : t < bpp := List.mem_range.mp ht
  have e := congrArg (fun l => l[t]?) h
  simp only [getElem?_cells, if_pos ht'] at e
  rw [rd_eq_getElem d _ (by omega), rd_eq_getElem d _ (by omega)]
  rw [List.getElem?_eq_getElem (by omega), List.getElem?_eq_getElem (by omega)] at e
  have e' := Option.some.inj e
  simp only [beq_iff_eq]
  have hidx : curbyte + bpp + t = curbyte + t + bpp := by omega
  simp only [hidx] at e'
  exact e'.symm

theorem succEq_of_ne (d : List Byte) (bpp curbyte : Nat) (hin : curbyte + bpp + bpp ≤ d.length)
    (h : cells d curbyte bpp ≠ cells d (curbyte + bpp) bpp) : succEq d bpp curbyte = false := by
  cases he : succEq d bpp curbyte
  · rfl
  · exact absurd (succEq_cells d bpp curbyte hin he).symm h

/-- One pass of the inner encoder loop that neither breaks nor stops. -/
theorem scanChunk_step (d : List Byte) (bpp npixels curpix fuel curbyte run_length : Nat)
    (raw raw1 : Bool) (hcond : curpix + run_length < npixels ∧ run_length < 128)
    (hraw1 : raw1 = if 1 = run_length then !succEq d bpp curbyte else raw)
    (hgo : ¬ (raw1 = true ∧ succEq d bpp curbyte = true)
      ∧ ¬ ((!raw1) = true ∧ (!succEq d bpp curbyte) = true)) :
    scanChunk d bpp npixels curpix (fuel + 1) curbyte run_length raw
      = scanChunk d bpp npixels curpix fuel (curbyte + bpp) (run_length + 1) raw1 := by
  rw [scanChunk, if_pos hcond]
  simp only
  rw [← hraw1, if_neg hgo.1, if_neg hgo.2]

theorem next_pixel_offset (curpix run_length bpp : Nat) (h1 : 1 ≤ run_length) :
    (curpix + run_length - 1) * bpp + bpp = (curpix + (run_length + 1) - 1) * bpp := by
  have e : curpix + (run_length + 1) - 1 = (curpix + run_length - 1) + 1 := by omega
  rw [e, Nat.add_mul, Nat.one_mul]

/-- On pixels that are all equal from `curpix` on, at most 128 of them, the
inner encoder loop runs to the last pixel and reports a run. -/
theorem scanChunk_run (d : List Byte) (bpp npixels curpix : Nat)
    (hsame : ∀ k, curpix ≤ k → k + 1 < npixels → succEq d bpp (k * bpp) = true)
    (hcap : npixels ≤ curpix + 128) (fuel curbyte run_length : Nat) (raw : Bool)
    (hfuel : 128 ≤ run_length + fuel) (h1 : 1 ≤ run_length)
    (hin : curpix + run_length ≤ npixels)
    (hcb : curbyte = (curpix + run_length - 1) * bpp)
    (hraw : (run_length = 1 ∧ curpix + 1 < npixels) ∨ raw = false) :
    scanChunk d bpp npixels curpix fuel curbyte run_length raw = (npixels - curpix, false) := by
  induction fuel generalizing curbyte run_length raw with
  | zero =>
    have hr : raw = false := by
      rcases hraw with ⟨h, _⟩ | h
      · omega
      · exact h
    rw [scanChunk, hr]
    congr 1
    omega
  | succ fuel ih =>
    by_cases hcond : curpix + run_length < npixels ∧ run_length < 128
    · have hs := hsame (curpix + run_length - 1) (by omega) (by omega)
      rw [← hcb] at hs
      have hraw1 : false = if 1 = run_length then !succEq d bpp curbyte else raw := by
        rw [hs]
        by_cases hone : 1 = run_length
        · rw [if_pos hone]
          rfl
        · rw [if_neg hone]
          rcases hraw with ⟨h, _⟩ | h
          · omega
          · exact h.symm
      rw [scanChunk_step d bpp npixels curpix fuel curbyte run_length raw false hcond hraw1
        (by rw [hs]; simp)]
      exact ih _ _ _ (by omega) (by omega) (by omega)
        (by rw [hcb]; exact next_pixel_offset _ _ _ h1) (Or.inr rfl)
    · have hr : raw = false := by
        rcases hraw with ⟨h, h'⟩ | h
        · omega
        · exact h
      rw [scanChunk, if_neg hcond, hr]
      congr 1
      omega

/-- On pixels of which no two neighbours are equal from `curpix` on, at most 128
of them, the inner encoder loop runs to the last pixel and reports a raw
chunk. -/
theorem scanChunk_raw (d : List Byte) (bpp npixels curpix : Nat)
    (hdiff : ∀ k, curpix ≤ k → k + 1 < npixels → succEq d bpp (k * bpp) = false)
    (hcap : npixels ≤ curpix + 128) (fuel curbyte run_length : Nat)
    (hfuel : 128 ≤ run_length + fuel) (h1 : 1 ≤ run_length)
    (hin : curpix + run_length ≤ npixels)
    (hcb : curbyte = (curpix + run_length - 1) * bpp) :
    scanChunk d bpp npixels curpix fuel curbyte run_length true = (npixels - curpix, true) := by
  induction fuel generalizing curbyte run_length with
  | zero =>
    rw [scanChunk]
    congr 1
    omega
  | succ fuel ih =>
    by_cases hcond : curpix + run_length < npixels ∧ run_length < 128
    · have hs := hdiff (curpix + run_length - 1) (by omega) (by omega)
      rw [← hcb] at hs
      have hraw1 : true = if 1 = run_length then !succEq d bpp curbyte else true := by
        rw [hs]
        simp
      rw [scanChunk_step d bpp npixels curpix fuel curbyte run_length true true hcond hraw1
        (by rw [hs]; simp)]
      exact ih _ _ (by omega) (by omega) (by omega)
        (by rw [hcb]; exact next_pixel_offset _ _ _ h1)
    · rw [scanChunk, if_neg hcond]
      congr 1
      omega

theorem unloadRleLoop_done (d : List Byte) (bpp npixels fuel : Nat) :
    unloadRleLoop d bpp npixels fuel npixels = [] := by
  cases fuel with
  | zero => rfl
  | succ f => rw [unloadRleLoop, if_neg (by omega)]

theorem length_flatten_replicate (n : Nat) (px : List Byte) :
    (List.replicate n px).flatten.length = n * px.length := by
  induction n with
  | zero => simp
  | succ n ih => rw [List.replicate_succ, List.flatten_cons, List.length_append, ih, Nat.succ_mul,
      Nat.add_comm]

/-- Pixel `k` of `n` copies of a pixel is that pixel. -/
theorem cells_flatten_replicate (n k : Nat) (px : List Byte) (hk : k < n) :
    cells (List.replicate n px).flatten (k * px.length) px.length = px := by
  induction k generalizing n with
  | zero =>
    obtain ⟨m, rfl⟩ : ∃ m, n = m + 1 := ⟨n - 1, by omega⟩
    simp [cells, List.replicate_succ]
  | succ k ih =>
    obtain ⟨m, rfl⟩ : ∃ m, n = m + 1 := ⟨n - 1, by omega⟩
    have := ih m (by omega)
    unfold cells at this ⊢
    rw [List.replicate_succ, List.flatten_cons, Nat.succ_mul, Nat.add_comm (k * px.length),
      List.drop_append]
    exact this

/-- The encoder on an image of `n` equal pixels, `2 ≤ n ≤ 128`: one run packet. -/
theorem unload_run (n w h bpp : Nat) (px : List Byte) (hn2 : 2 ≤ n) (hn128 : n ≤ 128)
    (hwh : w * h = n) (hpx : px.length = bpp) :
    (TGAImage.mk (some (List.replicate n px).flatten) w h bpp).unload_rle_data
      = (true, byteOfInt ((n : Int) + 128 - 1) :: px) := by
  have hpc : ((w : Int) * (h : Int)).toNat = n := by
    rw [← hwh]
    norm_cast
  have hlen : (List.replicate n px).flatten.length = n * bpp := by
    rw [length_flatten_replicate, hpx]
  have hsame : ∀ k, 0 ≤ k → k + 1 < n →
      succEq (List.replicate n px).flatten bpp (k * bpp) = true := by
    intro k _ hk
    apply succEq_of_cells
    · rw [hlen]
      have := block_le n bpp (k + 1) hk
      rw [Nat.succ_mul] at this
      exact this
    · have e1 := cells_flatten_replicate n k px (by omega)
      have e2 := cells_flatten_replicate n (k + 1) px hk
      rw [hpx] at e1 e2
      rw [Nat.succ_mul] at e2
      rw [e1, e2]
  have hscan := scanChunk_run (List.replicate n px).flatten bpp n 0 hsame (by omega) 128
    (0 * bpp) 1 true (by omega) (by omega) (by omega) (by simp) (Or.inl ⟨rfl, by omega⟩)
  obtain ⟨m, rfl⟩ : ∃ m, n = m + 1 := ⟨n - 1, by omega⟩
  have hpx0 := cells_flatten_replicate (m + 1) 0 px (by omega)
  rw [hpx] at hpx0
  simp only [TGAImage.unload_rle_data, hpc, Option.getD_some, Int.toNat_ofNat]
  rw [unloadRleLoop, if_pos (by omega), hscan]
  simp only [Nat.sub_zero, Bool.false_eq_true, if_false, Nat.zero_add, unloadRleLoop_done,
    List.append_nil, hpx0]

/-- The encoder on an image of `n` pixels, `1 ≤ n ≤ 128`, of which no two
neighbours are equal: one raw packet. -/
theorem unload_raw (n w h bpp : Nat) (d : List Byte) (hn1 : 1 ≤ n) (hn128 : n ≤ 128)
    (hwh : w * h = n) (hlen : d.length = n * bpp)
    (hdiff : ∀ k, k + 1 < n → cells d (k * bpp) bpp ≠ cells d ((k + 1) * bpp) bpp) :
    (TGAImage.mk (some d) w h bpp).unload_rle_data
      = (true, byteOfInt ((n : Int) - 1) :: d) := by
  have hpc : ((w : Int) * (h : Int)).toNat = n := by
    rw [← hwh]
    norm_cast
  have hne : ∀ k, 0 ≤ k → k + 1 < n → succEq d bpp (k * bpp) = false := by
    intro k _ hk
    have hb := block_le n bpp (k + 1) hk
    rw [Nat.succ_mul] at hb
    apply succEq_of_ne
    · rw [hlen]
      exact hb
    · have := hdiff k hk
      rw [Nat.succ_mul] at this
      exact this
  have hscan := scanChunk_raw d bpp n 0 hne (by omega) 128 (0 * bpp) 1 (by omega) (by omega)
    (by omega) (by simp)
  obtain ⟨m, rfl⟩ : ∃ m, n = m + 1 := ⟨n - 1, by omega⟩
  have hall : cells d (0 * bpp) ((m + 1) * bpp) = d := by
    unfold cells
    rw [Nat.zero_mul, List.drop_zero, ← hlen, List.take_length]
  simp only [TGAImage.unload_rle_data, hpc, Option.getD_some, Int.toNat_ofNat]
  rw [unloadRleLoop, if_pos (by omega), hscan]
  simp only [Nat.sub_zero, if_true, Nat.zero_add, unloadRleLoop_done, List.append_nil, hall]

/-- Decoding one complete packet that stands for all the pixels of the image. -/
theorem load_single_packet (p : Packet) (buf : List Byte) (w h bpp : Nat)
    (hlen : buf.length = w * h * bpp) (hc : p.Complete bpp) (hcount : p.count = w * h) :
    (TGAImage.mk (some buf) w h bpp).load_rle_data p.bytes
      = (true, ⟨some p.expand, w, h, bpp⟩) := by
  have hp := count_pos p
  have hw : 1 ≤ w := by
    rcases Nat.eq_zero_or_pos w with h0 | h0
    · rw [h0] at hcount
      simp at hcount
      omega
    · exact h0
  have hh : 1 ≤ h := by
    rcases Nat.eq_zero_or_pos h with h0 | h0
    · rw [h0] at hcount
      simp at hcount
      omega
    · exact h0
  have := load_rle_data_exact ⟨some buf, w, h, bpp⟩ [p] [] buf w h bpp rfl rfl rfl rfl hlen hw hh
    (by intro q hq; rw [List.mem_singleton.mp hq]; exact hc) (by simp [pixelTotal, hcount])
  simpa using this

/-- The image `TGAImage(5, 1, 3)` after `set(x, 0, TGAColor(10, 20, 30, A))` for
every column `x`: five pixels `30, 20, 10`, blue first. -/
theorem five_pixels_set (A : Byte) :
    TGAImage.TGAImage3 5 1 3 = some ⟨some (List.replicate 15 0), 5, 1, 3⟩
    ∧ (List.range 5).foldl (fun (im : TGAImage) (x : Nat) =>
        (im.set (x : Int) 0 (TGAColor.rgba 10 20 30 A)).2)
        ⟨some (List.replicate 15 0), 5, 1, 3⟩
      = ⟨some (List.replicate 5 [30, 20, 10]).flatten, 5, 1, 3⟩ := by
  constructor
  · decide
  · rfl

/-- C11: an image of exactly `n` identical pixels, `2 ≤ n ≤ 128`, is encoded by
`unload_rle_data` as one packet: the header byte `128 + n - 1` followed by the
bytes of the pixel; decoding this packet into an image of `n` pixels gives `n`
copies of the pixel.  In particular the 5x1 image with 3 bytes per pixel whose
pixels were set to `TGAColor(10, 20, 30, A)` is encoded as `132, 30, 20, 10`. -/
theorem run_packet_emission (n w h bpp : Nat) (px : List Byte) (hn2 : 2 ≤ n) (hn128 : n ≤ 128)
    (hwh : w * h = n) (hpx : px.length = bpp) :
    (∃ hdr : Byte, hdr.val = 128 + n - 1
      ∧ (TGAImage.mk (some (List.replicate n px).flatten) w h bpp).unload_rle_data
          = (true, hdr :: px)
      ∧ ∀ buf : List Byte, buf.length = n * bpp →
          (TGAImage.mk (some buf) w h bpp).load_rle_data (hdr :: px)
            = (true, ⟨some (List.replicate n px).flatten, w, h, bpp⟩))
    ∧ ∀ A : Byte, ∃ img0, TGAImage.TGAImage3 5 1 3 = some img0
        ∧ ((List.range 5).foldl (fun (im : TGAImage) (x : Nat) =>
            (im.set (x : Int) 0 (TGAColor.rgba 10 20 30 A)).2) img0).unload_rle_data
          = (true, [132, 30, 20, 10]) := by
  constructor
  · have hv := byteOfInt_run n hn128
    refine ⟨byteOfInt ((n : Int) + 128 - 1), by rw [hv]; omega,
      unload_run n w h bpp px hn2 hn128 hwh hpx, fun buf hbuf => ?_⟩
    have hc : (Packet.mk (byteOfInt ((n : Int) + 128 - 1)) px).Complete bpp := by
      simp only [Packet.Complete, Packet.stored, hv]
      rw [if_neg (by omega), hpx, Nat.one_mul]
    have hcount : (Packet.mk (byteOfInt ((n : Int) + 128 - 1)) px).count = w * h := by
      simp only [Packet.count, hv]
      rw [if_neg (by omega), hwh]
      omega
    have := load_single_packet ⟨byteOfInt ((n : Int) + 128 - 1), px⟩ buf w h bpp
      (by rw [hwh]; exact hbuf) hc hcount
    simp only [Packet.bytes, Packet.expand, hv] at this
    rw [if_neg (by omega), Nat.add_sub_cancel] at this
    exact this
  · intro A
    refine ⟨_, (five_pixels_set A).1, ?_⟩
    rw [(five_pixels_set A).2]
    rfl

/-- C11 at five pixels `30, 20, 10`: the packet is `132, 30, 20, 10`. -/
theorem run_packet_emission_witness :
    (∃ hdr : Byte, hdr.val = 128 + 5 - 1
      ∧ (TGAImage.mk (some (List.replicate 5 [30, 20, 10]).flatten) (5 : Nat) (1 : Nat)
          (3 : Nat)).unload_rle_data = (true, hdr :: [30, 20, 10])
      ∧ ∀ buf : List Byte, buf.length = 5 * 3 →
          (TGAImage.mk (some buf) (5 : Nat) (1 : Nat) (3 : Nat)).load_rle_data
              (hdr :: [30, 20, 10])
            = (true, ⟨some (List.replicate 5 [30, 20, 10]).flatten, (5 : Nat), (1 : Nat),
                (3 : Nat)⟩))
    ∧ ∀ A : Byte, ∃ img0, TGAImage.TGAImage3 5 1 3 = some img0
        ∧ ((List.range 5).foldl (fun (im : TGAImage) (x : Nat) =>
            (im.set (x : Int) 0 (TGAColor.rgba 10 20 30 A)).2) img0).unload_rle_data
          = (true, [132, 30, 20, 10]) :=
  run_packet_emission 5 5 1 3 [30, 20, 10] (by decide) (by decide) (by decide) (by decide)

/-- C12: an image of exactly `n` pixels, `1 ≤ n ≤ 128`, in which every two
consecutive pixels differ is encoded by `unload_rle_data` as one packet: the
header byte `n - 1` followed by the `n * bytesPerPixel` bytes of the buffer in
their order; decoding this packet into an image of `n` pixels gives the buffer
back. -/
theorem raw_packet_emission (n w h bpp : Nat) (d : List Byte) (hn1 : 1 ≤ n) (hn128 : n ≤ 128)
    (hwh : w * h = n) (hlen : d.length = n * bpp)
    (hdiff : ∀ k, k + 1 < n → cells d (k * bpp) bpp ≠ cells d ((k + 1) * bpp) bpp) :
    ∃ hdr : Byte, hdr.val = n - 1
      ∧ (TGAImage.mk (some d) w h bpp).unload_rle_data = (true, hdr :: d)
      ∧ ∀ buf : List Byte, buf.length = n * bpp →
          (TGAImage.mk (some buf) w h bpp).load_rle_data (hdr :: d)
            = (true, ⟨some d, w, h, bpp⟩) := by
  have hv := byteOfInt_raw n hn1 hn128
  refine ⟨byteOfInt ((n : Int) - 1), hv, unload_raw n w h bpp d hn1 hn128 hwh hlen hdiff,
    fun buf hbuf => ?_⟩
  have hc : (Packet.mk (byteOfInt ((n : Int) - 1)) d).Complete bpp := by
    simp only [Packet.Complete, Packet.stored, hv]
    rw [if_pos (by omega), hlen]
    congr 1
    omega
  have hcount : (Packet.mk (byteOfInt ((n : Int) - 1)) d).count = w * h := by
    simp only [Packet.count, hv]
    rw [if_pos (by omega), hwh]
    omega
  have := load_single_packet ⟨byteOfInt ((n : Int) - 1), d⟩ buf w h bpp
    (by rw [hwh]; exact hbuf) hc hcount
  simp only [Packet.bytes, Packet.expand, hv] at this
  rw [if_pos (by omega)] at this
  exact this

/-- C12 at three distinct pixels of 3 bytes: header byte 2 and the 9 bytes. -/
theorem raw_packet_emission_witness :
    ∃ hdr : Byte, hdr.val = 3 - 1
      ∧ (TGAImage.mk (some [1, 2, 3, 4, 5, 6, 7, 8, 9]) (3 : Nat) (1 : Nat)
          (3 : Nat)).unload_rle_data = (true, hdr :: [1, 2, 3, 4, 5, 6, 7, 8, 9])
      ∧ ∀ buf : List Byte, buf.length = 3 * 3 →
          (TGAImage.mk (some buf) (3 : Nat) (1 : Nat) (3 : Nat)).load_rle_data
              (hdr :: [1, 2, 3, 4, 5, 6, 7, 8, 9])
            = (true, ⟨some [1, 2, 3, 4, 5, 6, 7, 8, 9], (3 : Nat), (1 : Nat), (3 : Nat)⟩) :=
  raw_packet_emission 3 3 1 3 [1, 2, 3, 4, 5, 6, 7, 8, 9] (by decide) (by decide) (by decide)
    (by decide) (by
      intro k hk
      have hk2 : k = 0 ∨ k = 1 := by omega
      rcases hk2 with rfl | rfl <;> decide)

/-! ## The resampler -/

/-- The loop `while (errx >= m_width)` of `scale`, started with
`errx = q * W + rem`, `rem < W`, after `c` pixels of the new line have been
written: it writes `q` further pixels, all copies of the old pixel at byte
offset `src`, and leaves `rem` in `errx`. -/
theorem scaleCopyLoop_spec (d : List Byte) (W bpp N P src : Nat) (oscanline : Int)
    (hsrc : src + bpp ≤ d.length) (fuel : Nat) (s : ScaleRow) (q rem c : Nat)
    (he : s.errx = ((q * W + rem : Nat) : Int)) (hrem : rem < W)
    (hnx : s.nx = (c : Int) * bpp - bpp)
    (hox : (oscanline + s.ox).toNat = src)
    (hT : s.tdata.length = N * bpp) (hfuel : q ≤ fuel) (hin : P + c + q ≤ N)
    (hE : q * W + rem ≤ 2147483647) (hB : N * bpp ≤ 2147483647) :
    (scaleCopyLoop d W bpp ((P * bpp : Nat) : Int) oscanline fuel s).errx = (rem : Int)
    ∧ (scaleCopyLoop d W bpp ((P * bpp : Nat) : Int) oscanline fuel s).nx
        = ((c + q : Nat) : Int) * bpp - bpp
    ∧ (scaleCopyLoop d W bpp ((P * bpp : Nat) : Int) oscanline fuel s).ox = s.ox
    ∧ (scaleCopyLoop d W bpp ((P * bpp : Nat) : Int) oscanline fuel s).tdata.length
        = s.tdata.length
    ∧ ∀ r, r < N →
        cells (scaleCopyLoop d W bpp ((P * bpp : Nat) : Int) oscanline fuel s).tdata (r * bpp) bpp
          = if P + c ≤ r ∧ r < P + c + q then cells d src bpp
            else cells s.tdata (r * bpp) bpp := by
  induction fuel generalizing s q c with
  | zero =>
    have hq : q = 0 := by omega
    subst hq
    rw [scaleCopyLoop]
    refine ⟨by rw [he]; simp, by rw [hnx]; rfl, rfl, rfl, fun r _ => ?_⟩
    rw [if_neg (by omega)]
  | succ fuel ih =>
    rw [scaleCopyLoop]
    cases q with
    | zero =>
      have hcond : ¬ s.errx ≥ (W : Int) := by rw [he]; simp; omega
      rw [if_neg hcond]
      refine ⟨by rw [he]; simp, by rw [hnx]; rfl, rfl, rfl, fun r _ => ?_⟩
      rw [if_neg (by omega)]
    | succ q =>
      have hsplit : (q + 1) * W + rem = q * W + rem + W := by rw [Nat.succ_mul]; omega
      rw [hsplit] at he hE
      have hcond : s.errx ≥ (W : Int) := by rw [he]; push_cast; omega
      have hcN : (c + 1) * bpp ≤ N * bpp := Nat.mul_le_mul_right bpp (by omega)
      have e1 : wrapInt (s.errx - (W : Int)) = s.errx - (W : Int) :=
        wrapInt_eq _ (by rw [he]; push_cast; omega) (by rw [he]; push_cast; omega)
      have e2 : wrapInt (s.nx + (bpp : Int)) = s.nx + (bpp : Int) := by
        have e : s.nx + (bpp : Int) = ((c * bpp : Nat) : Int) := by
          rw [hnx]
          push_cast
          ring
        rw [e]
        rw [Nat.succ_mul] at hcN
        exact wrapInt_eq _ (by omega) (by omega)
      rw [if_pos hcond, e1, e2]
      have hoff : (((P * bpp : Nat) : Int) + (s.nx + (bpp : Int))).toNat = (P + c) * bpp := by
        rw [hnx]
        have : ((P * bpp : Nat) : Int) + ((c : Int) * bpp - bpp + bpp)
            = (((P + c) * bpp : Nat) : Int) := by
          push_cast
          ring
        rw [this, Int.toNat_ofNat]
      have hpc : P + c < N := by omega
      have hsl : (cells d src bpp).length = bpp := length_cells d src bpp hsrc
      obtain ⟨i1, i2, i3, i4, i5⟩ := ih
        { s with
          errx := s.errx - (W : Int)
          nx := s.nx + (bpp : Int)
          tdata := storeBytes s.tdata (((P * bpp : Nat) : Int) + (s.nx + (bpp : Int))).toNat
            (cells d (oscanline + s.ox).toNat ((bpp : Int)).toNat) }
        q (c + 1)
        (by simp only; rw [he]; push_cast; omega)
        (by simp only; rw [hnx]; push_cast; ring)
        hox
        (by simp only; rw [length_storeBytes, hT])
        (by omega) (by omega) (by omega)
      refine ⟨i1, ?_, i3, ?_, fun r hr => ?_⟩
      · rw [i2]
        push_cast
        ring
      · rw [i4]
        simp only
        rw [length_storeBytes]
      · rw [i5 r hr]
        simp only
        rw [hoff, hox, Int.toNat_ofNat,
          cells_storeBytes _ _ bpp N (P + c) r hT hsl hpc hr]
        by_cases h1 : r = P + c
        · rw [if_neg (by omega), if_pos h1, if_pos (by omega)]
        · rw [if_neg h1]
          by_cases h2 : P + (c + 1) ≤ r ∧ r < P + (c + 1) + q
          · rw [if_pos h2, if_pos (by omega)]
          · rw [if_neg h2, if_neg (by omega)]

/-- The quotient and remainder of the horizontal error term: adding `w` to the
remainder of `i * w` gives the step of `i * w / W`. -/
theorem dda_step (i w W : Nat) (hW : 1 ≤ W) :
    (i + 1) * w / W = i * w / W + (i * w % W + w) / W
    ∧ (i + 1) * w % W = (i * w % W + w) % W := by
  have h : (i + 1) * w = i * w % W + w + W * (i * w / W) := by
    have := Nat.div_add_mod (i * w) W
    rw [Nat.succ_mul]
    omega
  constructor
  · rw [h, Nat.add_mul_div_left _ _ (by omega : 0 < W)]
    omega
  · rw [h, Nat.add_mul_mod_self_left]

/-- The quotient `i * w / W` grows with `i`. -/
theorem dda_mono (i j w W : Nat) (h : i ≤ j) : i * w / W ≤ j * w / W :=
  Nat.div_le_div_right (Nat.mul_le_mul_right w h)

/-- The quotient `i * w / W` stays below `w` while `i ≤ W`. -/
theorem dda_le (i w W : Nat) (hW : 1 ≤ W) (h : i ≤ W) : i * w / W ≤ w := by
  have h1 : i * w / W ≤ W * w / W := dda_mono i W w W h
  rwa [Nat.mul_div_cancel_left w (by omega : 0 < W)] at h1

/-- One column of `scale`: the state after `i` columns of a scanline is turned
into the state after `i + 1` columns. -/
theorem scaleColumn_spec (d : List Byte) (W bpp w N M P Q : Nat)
    (hW : 1 ≤ W) (hd : d.length = M * bpp) (hQ : Q + W ≤ M)
    (hP : P + w ≤ N) (i : Nat) (hi : i < W) (s : ScaleRow)
    (he : s.errx = ((i * w % W : Nat) : Int))
    (hnx : s.nx = ((i * w / W : Nat) : Int) * bpp - bpp)
    (hox : s.ox = (i : Int) * bpp - bpp)
    (hT : s.tdata.length = N * bpp)
    (hWw : i * w % W + w ≤ 2147483647) (hB : N * bpp ≤ 2147483647) (hD : M * bpp ≤ 2147483647) :
    (scaleColumn d W bpp w ((P * bpp : Nat) : Int) ((Q * bpp : Nat) : Int) s).errx
        = (((i + 1) * w % W : Nat) : Int)
    ∧ (scaleColumn d W bpp w ((P * bpp : Nat) : Int) ((Q * bpp : Nat) : Int) s).nx
        = (((i + 1) * w / W : Nat) : Int) * bpp - bpp
    ∧ (scaleColumn d W bpp w ((P * bpp : Nat) : Int) ((Q * bpp : Nat) : Int) s).ox
        = ((i + 1 : Nat) : Int) * bpp - bpp
    ∧ (scaleColumn d W bpp w ((P * bpp : Nat) : Int) ((Q * bpp : Nat) : Int) s).tdata.length
        = N * bpp
    ∧ ∀ r, r < N →
        cells (scaleColumn d W bpp w ((P * bpp : Nat) : Int) ((Q * bpp : Nat) : Int) s).tdata
            (r * bpp) bpp
          = if P + i * w / W ≤ r ∧ r < P + (i + 1) * w / W then cells d ((Q + i) * bpp) bpp
            else cells s.tdata (r * bpp) bpp := by
  obtain ⟨hf, hm⟩ := dda_step i w W hW
  have hdm := Nat.div_add_mod (i * w % W + w) W
  have hrem : (i * w % W + w) % W < W := Nat.mod_lt _ (by omega)
  have hle := dda_le (i + 1) w W hW (by omega)
  have hsrc : (Q + i) * bpp + bpp ≤ d.length := by
    rw [hd]
    calc (Q + i) * bpp + bpp = (Q + i + 1) * bpp := by rw [Nat.succ_mul]
      _ ≤ M * bpp := Nat.mul_le_mul_right bpp (by omega)
  have hqe : (i * w % W + w) / W ≤ i * w % W + w := Nat.div_le_self _ _
  have he0 : i * w % W < W := Nat.mod_lt _ (by omega)
  have hiM : (i + 1) * bpp ≤ M * bpp := Nat.mul_le_mul_right bpp (by omega)
  rw [Nat.succ_mul] at hiM
  rw [hf, hm]
  generalize (i * w % W + w) / W = q at *
  generalize (i * w % W + w) % W = rem at *
  generalize i * w / W = c at *
  generalize i * w % W = e0 at *
  unfold scaleColumn
  dsimp only
  have e1 : wrapInt (s.ox + (bpp : Int)) = s.ox + (bpp : Int) := by
    have e : s.ox + (bpp : Int) = ((i * bpp : Nat) : Int) := by
      rw [hox]
      push_cast
      ring
    rw [e]
    exact wrapInt_eq _ (by omega) (by omega)
  have e2 : wrapInt (s.errx + (w : Int)) = s.errx + (w : Int) :=
    wrapInt_eq _ (by rw [he]; omega) (by rw [he]; omega)
  rw [e1, e2]
  have hspec := scaleCopyLoop_spec d W bpp N P ((Q + i) * bpp) ((Q * bpp : Nat) : Int) hsrc
    (s.errx + (w : Int)).toNat
    { s with ox := s.ox + (bpp : Int), errx := s.errx + (w : Int) } q rem c
    (by
      simp only
      rw [he]
      have : W * q = q * W := Nat.mul_comm _ _
      push_cast
      have h2 : ((W * q + rem : Nat) : Int) = ((e0 + w : Nat) : Int) := by rw [hdm]
      push_cast at h2
      rw [← h2]
      ring)
    hrem hnx
    (by
      simp only
      rw [hox]
      have : ((Q * bpp : Nat) : Int) + ((i : Int) * bpp - bpp + bpp)
          = (((Q + i) * bpp : Nat) : Int) := by
        push_cast
        ring
      rw [this, Int.toNat_ofNat])
    hT
    (by
      rw [he]
      have : ((e0 : Nat) : Int) + (w : Int) = ((e0 + w : Nat) : Int) := by push_cast; rfl
      rw [this, Int.toNat_ofNat]
      exact hqe)
    (by omega)
    (by rw [Nat.mul_comm q W, hdm]; omega) hB
  obtain ⟨h1, h2, h3, h4, h5⟩ := hspec
  refine ⟨h1, h2, ?_, ?_, fun r hr => ?_⟩
  · rw [h3]
    simp only
    rw [hox]
    push_cast
    ring
  · rw [h4]
    exact hT
  · rw [h5 r hr]
    by_cases hc : P + c ≤ r ∧ r < P + c + q
    · rw [if_pos hc, if_pos (by omega)]
    · rw [if_neg hc, if_neg (by omega)]

/-- The horizontal pass of `scale` over the first `i` columns of one scanline:
new pixel `k` of the line is old pixel `i'` whenever
`i' * w / W ≤ k < (i' + 1) * w / W`, and nothing outside the first
`i * w / W` pixels of the new line is touched. -/
theorem scaleColumns_spec (d : List Byte) (W bpp w N M P Q : Nat) (T0 : List Byte)
    (hW : 1 ≤ W) (hd : d.length = M * bpp) (hQ : Q + W ≤ M)
    (hT : T0.length = N * bpp) (hP : P + w ≤ N)
    (hWw : ∀ i, i < W → i * w % W + w ≤ 2147483647)
    (hB : N * bpp ≤ 2147483647) (hD : M * bpp ≤ 2147483647)
    (i : Nat) (hi : i ≤ W) :
    ((List.range i).foldl (fun (r : ScaleRow) (_ : Nat) =>
        scaleColumn d W bpp w ((P * bpp : Nat) : Int) ((Q * bpp : Nat) : Int) r)
        { tdata := T0, errx := 0, nx := -(bpp : Int), ox := -(bpp : Int) }).errx
      = ((i * w % W : Nat) : Int)
    ∧ ((List.range i).foldl (fun (r : ScaleRow) (_ : Nat) =>
        scaleColumn d W bpp w ((P * bpp : Nat) : Int) ((Q * bpp : Nat) : Int) r)
        { tdata := T0, errx := 0, nx := -(bpp : Int), ox := -(bpp : Int) }).nx
      = ((i * w / W : Nat) : Int) * bpp - bpp
    ∧ ((List.range i).foldl (fun (r : ScaleRow) (_ : Nat) =>
        scaleColumn d W bpp w ((P * bpp : Nat) : Int) ((Q * bpp : Nat) : Int) r)
        { tdata := T0, errx := 0, nx := -(bpp : Int), ox := -(bpp : Int) }).ox
      = (i : Int) * bpp - bpp
    ∧ ((List.range i).foldl (fun (r : ScaleRow) (_ : Nat) =>
        scaleColumn d W bpp w ((P * bpp : Nat) : Int) ((Q * bpp : Nat) : Int) r)
        { tdata := T0, errx := 0, nx := -(bpp : Int), ox := -(bpp : Int) }).tdata.length
      = N * bpp
    ∧ (∀ r, r < N → (r < P ∨ P + i * w / W ≤ r) →
        cells ((List.range i).foldl (fun (r : ScaleRow) (_ : Nat) =>
          scaleColumn d W bpp w ((P * bpp : Nat) : Int) ((Q * bpp : Nat) : Int) r)
          { tdata := T0, errx := 0, nx := -(bpp : Int), ox := -(bpp : Int) }).tdata
          (r * bpp) bpp = cells T0 (r * bpp) bpp)
    ∧ (∀ i' k, i' < i → i' * w / W ≤ k → k < (i' + 1) * w / W →
        cells ((List.range i).foldl (fun (r : ScaleRow) (_ : Nat) =>
          scaleColumn d W bpp w ((P * bpp : Nat) : Int) ((Q * bpp : Nat) : Int) r)
          { tdata := T0, errx := 0, nx := -(bpp : Int), ox := -(bpp : Int) }).tdata
          ((P + k) * bpp) bpp = cells d ((Q + i') * bpp) bpp) := by
  induction i with
  | zero =>
    simp only [List.range_zero, List.foldl_nil]
    refine ⟨by simp, by simp, by simp, hT, ?_, fun i' k h => ?_⟩
    · intros
      trivial
    · omega
  | succ i ih =>
    obtain ⟨h1, h2, h3, h4, h5, h6⟩ := ih (by omega)
    rw [List.range_succ, List.foldl_append, List.foldl_cons, List.foldl_nil]
    obtain ⟨g1, g2, g3, g4, g5⟩ := scaleColumn_spec d W bpp w N M P Q hW hd hQ hP i (by omega)
      _ h1 h2 h3 h4 (hWw i (by omega)) hB hD
    have hmono := dda_mono i (i + 1) w W (by omega)
    have hle := dda_le (i + 1) w W hW hi
    refine ⟨g1, g2, g3, g4, fun r hr hout => ?_, fun i' k hi' hk1 hk2 => ?_⟩
    · have hnot : ¬ (P + i * w / W ≤ r ∧ r < P + (i + 1) * w / W) ∧ (r < P ∨ P + i * w / W ≤ r) := by
        generalize (i + 1) * w / W = c1 at hout hmono ⊢
        generalize i * w / W = c0 at hmono ⊢
        omega
      rw [g5 r hr, if_neg hnot.1]
      exact h5 r hr hnot.2
    · have hkw : k < w := by
        have := dda_le (i' + 1) w W hW (by omega)
        omega
      rw [g5 (P + k) (by omega)]
      by_cases hii : i' = i
      · subst hii
        rw [if_pos (by omega)]
      · have hm2 := dda_mono (i' + 1) i w W (by omega)
        have hnot : ¬ (P + i * w / W ≤ P + k ∧ P + k < P + (i + 1) * w / W) := by
          generalize (i' + 1) * w / W = c2 at hk2 hm2
          generalize i * w / W = c0 at hm2 ⊢
          omega
        rw [if_neg hnot]
        exact h6 i' k (by omega) hk1 hk2

/-- The loop `while (erry >= m_height)` of `scale`, started with
`erry = q * H + rem`, `rem < H`, at new line `m`: it advances `q` lines, fills
the lines strictly between `m` and `m + q` with copies of line `m`, and
leaves `rem` in `erry`. -/
theorem scaleAdvanceLoop_spec (H L Nr : Nat) (fuel : Nat) (s : ScaleState) (q rem m : Nat)
    (he : s.erry = ((q * H + rem : Nat) : Int)) (hrem : rem < H)
    (hns : s.nscanline = ((m * L : Nat) : Int))
    (hT : s.tdata.length = Nr * L) (hfuel : q ≤ fuel) (hin : m + q ≤ Nr)
    (hE : q * H + rem ≤ 2147483647) (hH2 : 2 * H ≤ 2147483647)
    (hB : Nr * L ≤ 2147483647) :
    (scaleAdvanceLoop H L fuel s).erry = (rem : Int)
    ∧ (scaleAdvanceLoop H L fuel s).nscanline = (((m + q) * L : Nat) : Int)
    ∧ (scaleAdvanceLoop H L fuel s).oscanline = s.oscanline
    ∧ (scaleAdvanceLoop H L fuel s).tdata.length = Nr * L
    ∧ ∀ n, n < Nr →
        cells (scaleAdvanceLoop H L fuel s).tdata (n * L) L
          = if m < n ∧ n < m + q then cells s.tdata (m * L) L
            else cells s.tdata (n * L) L := by
  induction fuel generalizing s q m with
  | zero =>
    have hq : q = 0 := by omega
    subst hq
    rw [scaleAdvanceLoop]
    refine ⟨by rw [he]; simp, by rw [hns]; rfl, rfl, hT, fun n _ => ?_⟩
    rw [if_neg (by omega)]
  | succ fuel ih =>
    rw [scaleAdvanceLoop]
    cases q with
    | zero =>
      have hcond : ¬ s.erry ≥ (H : Int) := by rw [he]; simp; omega
      rw [if_neg hcond]
      refine ⟨by rw [he]; simp, by rw [hns]; rfl, rfl, hT, fun n _ => ?_⟩
      rw [if_neg (by omega)]
    | succ q =>
      have hsplit : (q + 1) * H + rem = q * H + rem + H := by rw [Nat.succ_mul]; omega
      rw [hsplit] at he hE
      have hcond : s.erry ≥ (H : Int) := by rw [he]; push_cast; omega
      have hmN : (m + 1) * L ≤ Nr * L := Nat.mul_le_mul_right L (by omega)
      have hns1 : s.nscanline + (L : Int) = (((m + 1) * L : Nat) : Int) := by
        rw [hns]
        push_cast
        ring
      have e1 : wrapInt (s.erry - (H : Int)) = s.erry - (H : Int) :=
        wrapInt_eq _ (by rw [he]; push_cast; omega) (by rw [he]; push_cast; omega)
      have e2 : wrapInt ((H : Int) * 2) = (H : Int) * 2 := wrapInt_eq _ (by omega) (by omega)
      have e3 : wrapInt (s.nscanline + (L : Int)) = s.nscanline + (L : Int) := by
        rw [hns1]
        exact wrapInt_eq _ (by omega) (by omega)
      rw [if_pos hcond, e1, e2, e3]
      have hoff : (s.nscanline + (L : Int)).toNat = (m + 1) * L := by
        rw [hns]
        have : ((m * L : Nat) : Int) + (L : Int) = (((m + 1) * L : Nat) : Int) := by
          push_cast
          ring
        rw [this, Int.toNat_ofNat]
      have hsrc : s.nscanline.toNat = m * L := by rw [hns, Int.toNat_ofNat]
      have hmL : m * L + L ≤ s.tdata.length := by
        rw [hT, ← Nat.succ_mul]
        exact Nat.mul_le_mul_right L (by omega)
      have hsl : (cells s.tdata (m * L) L).length = L := length_cells _ _ _ hmL
      cases q with
      | zero =>
        have hc2 : ¬ s.erry ≥ (H : Int) * 2 := by rw [he]; push_cast; omega
        rw [if_neg hc2]
        obtain ⟨i1, i2, i3, i4, i5⟩ := ih
          { s with erry := s.erry - (H : Int), nscanline := s.nscanline + (L : Int) }
          0 (m + 1)
          (by simp only; rw [he]; push_cast; omega)
          hns1 hT (by omega) (by omega) (by omega)
        refine ⟨i1, i2, i3, i4, fun n hn => ?_⟩
        rw [i5 n hn, if_neg (by omega), if_neg (by omega)]
      | succ q =>
        have hsplit2 : (q + 1) * H = q * H + H := Nat.succ_mul q H
        have hc2 : s.erry ≥ (H : Int) * 2 := by
          rw [he, hsplit2]
          push_cast
          have : (0 : Int) ≤ (q : Int) * (H : Int) :=
            Int.mul_nonneg (Int.ofNat_nonneg q) (Int.ofNat_nonneg H)
          omega
        rw [if_pos hc2]
        obtain ⟨i1, i2, i3, i4, i5⟩ := ih
          { s with
            tdata := storeBytes s.tdata (s.nscanline + (L : Int)).toNat
              (cells s.tdata s.nscanline.toNat L)
            erry := s.erry - (H : Int)
            nscanline := s.nscanline + (L : Int) }
          (q + 1) (m + 1)
          (by simp only; rw [he]; push_cast; omega)
          hns1
          (by simp only; rw [length_storeBytes, hT])
          (by omega) (by omega) (by rw [hsplit2]; omega)
        refine ⟨i1, ?_, i3, i4, fun n hn => ?_⟩
        · rw [i2]
          have e : m + 1 + (q + 1) = m + (q + 1 + 1) := by omega
          rw [e]
        · rw [i5 n hn]
          simp only
          rw [hoff, hsrc, cells_storeBytes _ _ L Nr (m + 1) (m + 1) hT hsl (by omega) (by omega),
            if_pos rfl, cells_storeBytes _ _ L Nr (m + 1) n hT hsl (by omega) hn]
          by_cases h1 : n = m + 1
          · rw [if_neg (by omega), if_pos h1, if_pos (by omega)]
          · by_cases h2 : m + 1 < n ∧ n < m + 1 + (q + 1)
            · rw [if_pos h2, if_pos (by omega)]
            · rw [if_neg h2, if_neg h1, if_neg (by omega)]

/-- Pixel `k` of line `n` of a buffer is pixel `k` of the block that holds line `n`. -/
theorem cells_line (T : List Byte) (w bpp n k : Nat) (hk : k < w) :
    cells T ((k + n * w) * bpp) bpp = cells (cells T (n * (w * bpp)) (w * bpp)) (k * bpp) bpp := by
  have hle : k * bpp + bpp ≤ w * bpp := by
    rw [← Nat.succ_mul]
    exact Nat.mul_le_mul_right bpp hk
  rw [cells_cells _ _ _ _ _ hle]
  congr 1
  ring

/-- One scanline of `scale`: the state after `j` old lines is turned into the
state after `j + 1` old lines. The new lines `j * h / H ≤ n < (j + 1) * h / H`
are filled from old line `j`, the new lines before them are kept. -/
theorem scaleLine_spec (d : List Byte) (W H bpp w h : Nat) (hW : 1 ≤ W) (hH : 1 ≤ H)
    (hh : 1 ≤ h) (hd : d.length = (H * W) * bpp) (j : Nat) (hj : j < H) (s : ScaleState)
    (he : s.erry = ((j * h % H : Nat) : Int))
    (hns : s.nscanline = (((j * h / H * w) * bpp : Nat) : Int))
    (hos : s.oscanline = (((j * W) * bpp : Nat) : Int))
    (hT : s.tdata.length = (h * w) * bpp)
    (hWw : ∀ i, i < W → i * w % W + w ≤ 2147483647)
    (hHh : j * h % H + h ≤ 2147483647) (hH2 : 2 * H ≤ 2147483647)
    (hB : (h * w) * bpp ≤ 2147483647) (hD : (H * W) * bpp ≤ 2147483647) :
    (scaleLine d W H bpp w h (w * bpp) (W * bpp) s).erry = (((j + 1) * h % H : Nat) : Int)
    ∧ (scaleLine d W H bpp w h (w * bpp) (W * bpp) s).nscanline
        = ((((j + 1) * h / H * w) * bpp : Nat) : Int)
    ∧ (scaleLine d W H bpp w h (w * bpp) (W * bpp) s).oscanline
        = ((((j + 1) * W) * bpp : Nat) : Int)
    ∧ (scaleLine d W H bpp w h (w * bpp) (W * bpp) s).tdata.length = (h * w) * bpp
    ∧ (∀ n k, n < j * h / H → k < w →
        cells (scaleLine d W H bpp w h (w * bpp) (W * bpp) s).tdata ((k + n * w) * bpp) bpp
          = cells s.tdata ((k + n * w) * bpp) bpp)
    ∧ (∀ n i' k, j * h / H ≤ n → n < (j + 1) * h / H → i' < W →
        i' * w / W ≤ k → k < (i' + 1) * w / W →
        cells (scaleLine d W H bpp w h (w * bpp) (W * bpp) s).tdata ((k + n * w) * bpp) bpp
          = cells d ((i' + j * W) * bpp) bpp) := by
  obtain ⟨hf, hm⟩ := dda_step j h H hH
  have hdm := Nat.div_add_mod (j * h % H + h) H
  have hrem : (j * h % H + h) % H < H := Nat.mod_lt _ (by omega)
  have hle := dda_le (j + 1) h H hH (by omega)
  have hqe : (j * h % H + h) / H ≤ j * h % H + h := Nat.div_le_self _ _
  have hPw : j * h / H * w + w ≤ h * w := by
    have hlt : j * h / H < h := by
      apply Nat.div_lt_of_lt_mul
      rw [Nat.mul_comm H h, Nat.mul_comm j h]
      exact Nat.mul_lt_mul_of_pos_left hj (by omega)
    rw [← Nat.succ_mul]
    exact Nat.mul_le_mul_right w hlt
  have hQW : j * W + W ≤ H * W := by
    rw [← Nat.succ_mul]
    exact Nat.mul_le_mul_right W hj
  obtain ⟨_, _, _, c4, c5, c6⟩ := scaleColumns_spec d W bpp w (h * w) (H * W) (j * h / H * w)
    (j * W) s.tdata hW hd hQW hT hPw hWw hB hD W (Nat.le_refl W)
  rw [Nat.mul_div_cancel_left w (by omega : 0 < W)] at c5
  generalize hrow : (List.range W).foldl (fun (r : ScaleRow) (_ : Nat) =>
      scaleColumn d W bpp w ((j * h / H * w * bpp : Nat) : Int) ((j * W * bpp : Nat) : Int) r)
      { tdata := s.tdata, errx := 0, nx := -(bpp : Int), ox := -(bpp : Int) } = row at c4 c5 c6
  have hline : scaleLine d W H bpp w h (w * bpp) (W * bpp) s
      = scaleAdvanceLoop H (w * bpp) (s.erry + (h : Int)).toNat
          { s with
            tdata := row.tdata
            erry := s.erry + (h : Int)
            oscanline := s.oscanline + ((W * bpp : Nat) : Int) } := by
    have hbpp : bpp ≤ 2147483647 := by
      have h1 : 1 * bpp ≤ (H * W) * bpp := Nat.mul_le_mul_right bpp (Nat.mul_pos hH hW)
      omega
    have hjW : (j * W + W) * bpp ≤ (H * W) * bpp := Nat.mul_le_mul_right bpp hQW
    have he0 : j * h % H < H := Nat.mod_lt _ (by omega)
    have en : wrapInt (-(bpp : Int)) = -(bpp : Int) := wrapInt_eq _ (by omega) (by omega)
    have ee : wrapInt (s.erry + (h : Int)) = s.erry + (h : Int) :=
      wrapInt_eq _ (by rw [he]; omega) (by rw [he]; omega)
    have eo : wrapInt (s.oscanline + ((W * bpp : Nat) : Int))
        = s.oscanline + ((W * bpp : Nat) : Int) := by
      have e : s.oscanline + ((W * bpp : Nat) : Int) = (((j * W + W) * bpp : Nat) : Int) := by
        rw [hos]
        push_cast
        ring
      rw [e]
      exact wrapInt_eq _ (by omega) (by omega)
    unfold scaleLine
    dsimp only
    rw [en, ee, eo, Int.toNat_ofNat, hns, hos, hrow]
  rw [hline, hf, hm]
  rw [hf] at hle
  have hrowlen : row.tdata.length = h * (w * bpp) := by rw [c4, Nat.mul_assoc]
  have he0H : j * h % H < H := Nat.mod_lt _ (by omega)
  generalize (j * h % H + h) / H = q at *
  generalize (j * h % H + h) % H = rem at *
  generalize j * h / H = m at *
  generalize j * h % H = e0 at *
  obtain ⟨a1, a2, a3, a4, a5⟩ := scaleAdvanceLoop_spec H (w * bpp) h (s.erry + (h : Int)).toNat
    { s with
      tdata := row.tdata
      erry := s.erry + (h : Int)
      oscanline := s.oscanline + ((W * bpp : Nat) : Int) } q rem m
    (by
      simp only
      rw [he]
      have h2 : ((H * q + rem : Nat) : Int) = ((e0 + h : Nat) : Int) := by rw [hdm]
      push_cast at h2
      push_cast
      rw [← h2]
      ring)
    hrem
    (by
      simp only
      rw [hns, Nat.mul_assoc])
    hrowlen
    (by
      rw [he]
      have : ((e0 : Nat) : Int) + (h : Int) = ((e0 + h : Nat) : Int) := by push_cast; rfl
      rw [this, Int.toNat_ofNat]
      exact hqe)
    hle
    (by
      rw [Nat.mul_comm q H, hdm]
      omega)
    hH2 (by rw [← Nat.mul_assoc]; exact hB)
  have hmw : m * w + w ≤ h * w := hPw
  refine ⟨a1, ?_, ?_, ?_, fun n k hn hk => ?_, fun n i' k hn1 hn2 hi' hk1 hk2 => ?_⟩
  · rw [a2, Nat.mul_assoc]
  · rw [a3]
    simp only
    rw [hos]
    push_cast
    ring
  · rw [a4, Nat.mul_assoc]
  · have hnw : n * w + w ≤ m * w := by
      rw [← Nat.succ_mul]
      exact Nat.mul_le_mul_right w hn
    rw [cells_line _ w bpp n k hk, a5 n (by omega), if_neg (by omega)]
    simp only
    rw [← cells_line _ w bpp n k hk]
    exact c5 (k + n * w) (by omega) (Or.inl (by omega))
  · have hk : k < w := by
      have := dda_le (i' + 1) w W hW (by omega)
      omega
    rw [cells_line _ w bpp n k hk, a5 n (by omega)]
    simp only
    have hsame : (if m < n ∧ n < m + q then cells row.tdata (m * (w * bpp)) (w * bpp)
        else cells row.tdata (n * (w * bpp)) (w * bpp))
        = cells row.tdata (m * (w * bpp)) (w * bpp) := by
      by_cases hc : m < n ∧ n < m + q
      · rw [if_pos hc]
      · rw [if_neg hc]
        have : n = m := by omega
        rw [this]
    rw [hsame, ← cells_line _ w bpp m k hk, Nat.add_comm k, Nat.add_comm i']
    exact c6 i' k hi' hk1 hk2

/-- The vertical pass of `scale` over the first `j` old scanlines: new pixel
`(k, n)` is old pixel `(i', j')` whenever `i' * w / W ≤ k < (i' + 1) * w / W`
and `j' * h / H ≤ n < (j' + 1) * h / H`. -/
theorem scaleLines_spec (d : List Byte) (W H bpp w h : Nat) (hW : 1 ≤ W) (hH : 1 ≤ H)
    (hh : 1 ≤ h) (hd : d.length = (H * W) * bpp) (T0 : List Byte)
    (hT : T0.length = (h * w) * bpp)
    (hWw : ∀ i, i < W → i * w % W + w ≤ 2147483647)
    (hHh : ∀ j, j < H → j * h % H + h ≤ 2147483647) (hH2 : 2 * H ≤ 2147483647)
    (hB : (h * w) * bpp ≤ 2147483647) (hD : (H * W) * bpp ≤ 2147483647)
    (j : Nat) (hj : j ≤ H) :
    ((List.range j).foldl (fun (s : ScaleState) (_ : Nat) =>
        scaleLine d W H bpp w h (w * bpp) (W * bpp) s)
        { tdata := T0, nscanline := 0, oscanline := 0, erry := 0 }).erry
      = ((j * h % H : Nat) : Int)
    ∧ ((List.range j).foldl (fun (s : ScaleState) (_ : Nat) =>
        scaleLine d W H bpp w h (w * bpp) (W * bpp) s)
        { tdata := T0, nscanline := 0, oscanline := 0, erry := 0 }).nscanline
      = (((j * h / H * w) * bpp : Nat) : Int)
    ∧ ((List.range j).foldl (fun (s : ScaleState) (_ : Nat) =>
        scaleLine d W H bpp w h (w * bpp) (W * bpp) s)
        { tdata := T0, nscanline := 0, oscanline := 0, erry := 0 }).oscanline
      = (((j * W) * bpp : Nat) : Int)
    ∧ ((List.range j).foldl (fun (s : ScaleState) (_ : Nat) =>
        scaleLine d W H bpp w h (w * bpp) (W * bpp) s)
        { tdata := T0, nscanline := 0, oscanline := 0, erry := 0 }).tdata.length
      = (h * w) * bpp
    ∧ (∀ j' n i' k, j' < j → j' * h / H ≤ n → n < (j' + 1) * h / H → i' < W →
        i' * w / W ≤ k → k < (i' + 1) * w / W →
        cells ((List.range j).foldl (fun (s : ScaleState) (_ : Nat) =>
          scaleLine d W H bpp w h (w * bpp) (W * bpp) s)
          { tdata := T0, nscanline := 0, oscanline := 0, erry := 0 }).tdata
          ((k + n * w) * bpp) bpp = cells d ((i' + j' * W) * bpp) bpp) := by
  induction j with
  | zero =>
    simp only [List.range_zero, List.foldl_nil]
    refine ⟨by simp, by simp, by simp, hT, fun j' n i' k h => ?_⟩
    omega
  | succ j ih =>
    obtain ⟨h1, h2, h3, h4, h5⟩ := ih (by omega)
    rw [List.range_succ, List.foldl_append, List.foldl_cons, List.foldl_nil]
    obtain ⟨g1, g2, g3, g4, g5, g6⟩ := scaleLine_spec d W H bpp w h hW hH hh hd j (by omega)
      _ h1 h2 h3 h4 hWw (hHh j (by omega)) hH2 hB hD
    refine ⟨g1, g2, g3, g4, fun j' n i' k hj' hn1 hn2 hi' hk1 hk2 => ?_⟩
    by_cases hjj : j' = j
    · subst hjj
      exact g6 n i' k hn1 hn2 hi' hk1 hk2
    · have hm := dda_mono (j' + 1) j h H (by omega)
      have hk : k < w := by
        have := dda_le (i' + 1) w W hW (by omega)
        omega
      rw [g5 n k (by omega) hk]
      exact h5 j' n i' k (by omega) hn1 hn2 hi' hk1 hk2

/-- The sizes `scale` computes in `int`, when they are within `int`: the new
buffer can be allocated and the method runs its loops. -/
theorem scale_runs (d : List Byte) (W H bpp w h : Nat) (uninit : Nat → Byte)
    (hw : 1 ≤ w) (hh : 1 ≤ h) (hb : 1 ≤ bpp) (hH : 1 ≤ H)
    (hB : w * h * bpp ≤ 2147483647) (hD : W * H * bpp ≤ 2147483647) :
    (TGAImage.mk (some d) W H bpp).scale w h uninit
      = some (true, ⟨some ((List.range H).foldl
          (fun (s : ScaleState) (_ : Nat) => scaleLine d W H bpp w h (w * bpp) (W * bpp) s)
          { tdata := newArray uninit (w * h * bpp), nscanline := 0, oscanline := 0,
            erry := 0 }).tdata, w, h, bpp⟩) := by
  have hsz := size_fits (w : Int) (h : Int) (bpp : Int)
    (Int.mul_nonneg (by omega) (by omega)) (by omega) (by exact_mod_cast hB)
  have e1 : ((w : Int) * (h : Int) * (bpp : Int)).toNat = w * h * bpp := by
    have : (w : Int) * (h : Int) * (bpp : Int) = ((w * h * bpp : Nat) : Int) := by push_cast; rfl
    rw [this, Int.toNat_ofNat]
  have hwb : w * bpp ≤ 2147483647 := by
    have h1 : w * bpp * 1 ≤ w * bpp * h := Nat.mul_le_mul_left _ hh
    have e : w * bpp * h = w * h * bpp := by ring
    omega
  have hWb : W * bpp ≤ 2147483647 := by
    have h1 : W * bpp * 1 ≤ W * bpp * H := Nat.mul_le_mul_left _ hH
    have e : W * bpp * H = W * H * bpp := by ring
    omega
  have hc : ¬ ((w : Int) ≤ 0 ∨ (h : Int) ≤ 0) := by omega
  unfold TGAImage.scale
  dsimp only
  rw [if_neg hc, hsz.1, e1, if_pos (by rw [← e1, ← hsz.1]; exact hsz.2), (line_size w bpp hwb).1,
    (line_size W bpp hWb).1, Int.toNat_ofNat]

/-- The method `scale` on an allocated `W x H` image, for a target of `w x h`
pixels, when the sizes and the loop variables stay within `int`: it succeeds,
the new buffer has `w * h * bpp` bytes, and new pixel `(k, n)` is old pixel
`(i', j')` whenever `i' * w / W ≤ k < (i' + 1) * w / W` and
`j' * h / H ≤ n < (j' + 1) * h / H`. -/
theorem scale_pixels (d : List Byte) (W H bpp w h : Nat) (uninit : Nat → Byte)
    (hW : 1 ≤ W) (hH : 1 ≤ H) (hw : 1 ≤ w) (hh : 1 ≤ h) (hd : d.length = W * H * bpp)
    (hb : 1 ≤ bpp) (hWw : ∀ i, i < W → i * w % W + w ≤ 2147483647)
    (hHh : ∀ j, j < H → j * h % H + h ≤ 2147483647)
    (hH2 : 2 * H ≤ 2147483647)
    (hB : w * h * bpp ≤ 2147483647) (hD : W * H * bpp ≤ 2147483647) :
    ∃ T, (TGAImage.mk (some d) W H bpp).scale w h uninit = some (true, ⟨some T, w, h, bpp⟩)
      ∧ T.length = w * h * bpp
      ∧ ∀ i' j' k n, i' < W → j' < H → i' * w / W ≤ k → k < (i' + 1) * w / W →
          j' * h / H ≤ n → n < (j' + 1) * h / H →
          cells T ((k + n * w) * bpp) bpp = cells d ((i' + j' * W) * bpp) bpp := by
  have hd2 : d.length = (H * W) * bpp := by rw [hd, Nat.mul_comm W H]
  have hT0 : (newArray uninit (w * h * bpp)).length = (h * w) * bpp := by
    rw [length_newArray, Nat.mul_comm w h]
  obtain ⟨_, _, _, h4, h5⟩ := scaleLines_spec d W H bpp w h hW hH hh hd2
    (newArray uninit (w * h * bpp)) hT0 hWw hHh hH2 (by rw [Nat.mul_comm h w]; exact hB)
    (by rw [Nat.mul_comm H W]; exact hD) H (Nat.le_refl H)
  refine ⟨_, scale_runs d W H bpp w h uninit hw hh hb hH hB hD, ?_,
    fun i' j' k n hi' hj' hk1 hk2 hn1 hn2 => h5 j' n i' k hj' hn1 hn2 hi' hk1 hk2⟩
  rw [h4, Nat.mul_comm h w]

/-- The method `get` inside the image reads the pixel block at `(x, y)`. -/
theorem get_eq (d : List Byte) (w h bpp x y : Nat) (hx : x < w) (hy : y < h) :
    (TGAImage.mk (some d) w h bpp).get (x : Int) (y : Int)
      = TGAColor.ofPtr (cells d ((x + y * w) * bpp) bpp) bpp := by
  have ho : ((((x : Int) + (y : Int) * (w : Int)) * (bpp : Int))).toNat = (x + y * w) * bpp := by
    norm_cast
  have c1 : ¬ ((x : Int) < 0 ∨ (y : Int) < 0 ∨ (x : Int) ≥ w ∨ (y : Int) ≥ h) := by omega
  simp only [TGAImage.get, if_neg c1, ho, TGAColor.ofPtr, Int.toNat_ofNat]
  rw [cells_cells _ _ _ 0 bpp (by omega)]
  simp only [cells, List.drop_zero, Nat.add_zero]

/-- C13: for every allocated 2x2 image whose pixel size `bpp` keeps the size
of the 4x4 buffer within `int` (`16 * bpp ≤ 2147483647`, so for 1, 3 and 4
bytes per pixel), `scale(4, 4)` succeeds with a 4x4 image of the same pixel
size, and for all `x, y < 4` the pixel at `(x, y)` of the result, as a block of
the buffer and as read by `get`, is the pixel at `(x / 2, y / 2)` of the image
before. -/
theorem scale_two_by_two (d : List Byte) (bpp : Nat) (uninit : Nat → Byte)
    (hbpp : 16 * bpp ≤ 2147483647) (hlen : d.length = 2 * 2 * bpp) :
    ∃ d', (TGAImage.mk (some d) (2 : Nat) (2 : Nat) bpp).scale (4 : Nat) (4 : Nat) uninit
        = some (true, ⟨some d', (4 : Nat), (4 : Nat), bpp⟩)
      ∧ d'.length = 4 * 4 * bpp
      ∧ ∀ x y : Nat, x < 4 → y < 4 →
          cells d' ((x + y * 4) * bpp) bpp = cells d ((x / 2 + y / 2 * 2) * bpp) bpp
          ∧ (TGAImage.mk (some d') (4 : Nat) (4 : Nat) bpp).get (x : Int) (y : Int)
            = (TGAImage.mk (some d) (2 : Nat) (2 : Nat) bpp).get ((x / 2 : Nat) : Int)
                ((y / 2 : Nat) : Int) := by
  have key : ∃ T, (TGAImage.mk (some d) (2 : Nat) (2 : Nat) bpp).scale (4 : Nat) (4 : Nat) uninit
        = some (true, ⟨some T, (4 : Nat), (4 : Nat), bpp⟩)
      ∧ T.length = 4 * 4 * bpp
      ∧ ∀ i' j' k n : Nat, i' < 2 → j' < 2 → i' * 4 / 2 ≤ k → k < (i' + 1) * 4 / 2 →
          j' * 4 / 2 ≤ n → n < (j' + 1) * 4 / 2 →
          cells T ((k + n * 4) * bpp) bpp = cells d ((i' + j' * 2) * bpp) bpp := by
    rcases Nat.eq_zero_or_pos bpp with h0 | hpos
    · subst h0
      have hd : d = [] := List.eq_nil_of_length_eq_zero (by omega)
      subst hd
      exact ⟨[], rfl, rfl, fun _ _ _ _ _ _ _ _ _ _ => rfl⟩
    · exact scale_pixels d 2 2 bpp 4 4 uninit (by omega) (by omega) (by omega)
        (by omega) hlen hpos (fun i _ => by omega) (fun j _ => by omega) (by omega) (by omega)
        (by omega)
  obtain ⟨T, hs, hl, hp⟩ := key
  refine ⟨T, hs, hl, fun x y hx hy => ?_⟩
  have hc := hp (x / 2) (y / 2) x y (by omega) (by omega) (by omega) (by omega) (by omega)
    (by omega)
  refine ⟨hc, ?_⟩
  rw [get_eq T 4 4 bpp x y hx hy, get_eq d 2 2 bpp (x / 2) (y / 2) (by omega) (by omega), hc]

/-- C13 at the 2x2 image with one byte per pixel and bytes 1, 2, 3, 4. -/
theorem scale_two_by_two_witness :
    ∃ d', (TGAImage.mk (some [1, 2, 3, 4]) (2 : Nat) (2 : Nat) (1 : Nat)).scale (4 : Nat) (4 : Nat)
          (fun _ => 0)
        = some (true, ⟨some d', (4 : Nat), (4 : Nat), (1 : Nat)⟩)
      ∧ d'.length = 4 * 4 * 1
      ∧ ∀ x y : Nat, x < 4 → y < 4 →
          cells d' ((x + y * 4) * 1) 1 = cells [1, 2, 3, 4] ((x / 2 + y / 2 * 2) * 1) 1
          ∧ (TGAImage.mk (some d') (4 : Nat) (4 : Nat) (1 : Nat)).get (x : Int) (y : Int)
            = (TGAImage.mk (some [1, 2, 3, 4]) (2 : Nat) (2 : Nat) (1 : Nat)).get
                ((x / 2 : Nat) : Int) ((y / 2 : Nat) : Int) :=
  scale_two_by_two [1, 2, 3, 4] 1 (fun _ => 0) (by decide) (by decide)

/-! ## The buffer invariant -/

/-- A property kept by every step of a fold is kept by the fold. -/
theorem foldl_keeps {α β : Type} (P : α → Prop) (f : α → β → α)
    (hf : ∀ a b, P a → P (f a b)) (l : List β) (a : α) (ha : P a) : P (l.foldl f a) := by
  induction l generalizing a with
  | nil => exact ha
  | cons b l ih => exact ih (f a b) (hf a b ha)

/-- The constructor `TGAImage(w, h, bpp)` with positive dimensions, 1, 3 or 4
bytes per pixel and `w * h * bpp` within `int` returns and establishes the
invariant. -/
theorem invariant_construct (w h bpp : Int) (img : TGAImage) (hw : 0 < w) (hh : 0 < h)
    (hb : bpp = 1 ∨ bpp = 3 ∨ bpp = 4) (hfit : w * h * bpp ≤ 2147483647)
    (hc : TGAImage.TGAImage3 w h bpp = some img) : img.Invariant := by
  have hwh : 0 ≤ w * h := Int.mul_nonneg (by omega) (by omega)
  have hsz := size_fits w h bpp hwh (by omega) hfit
  have h0 : 0 ≤ w * h * bpp := Int.mul_nonneg hwh (by omega)
  unfold TGAImage.TGAImage3 at hc
  dsimp only at hc
  rw [if_pos hsz.2, hsz.1] at hc
  have e := Option.some.inj hc
  subst e
  refine ⟨hb, hw, hh, _, rfl, ?_⟩
  rw [List.length_replicate]
  exact Int.toNat_of_nonneg h0

/-- The method `set` keeps the invariant, whatever it returns. -/
theorem invariant_set (img : TGAImage) (x y : Int) (c : TGAColor) (hinv : img.Invariant) :
    (img.set x y c).2.Invariant := by
  obtain ⟨hb, hw, hh, d, hd, hl⟩ := hinv
  unfold TGAImage.set
  rw [hd]
  simp only
  split
  · exact ⟨hb, hw, hh, d, hd, hl⟩
  · exact ⟨hb, hw, hh, _, rfl, by rw [length_storeBytes]; exact hl⟩

/-- The exchange of two pixels keeps the invariant. -/
theorem invariant_swapPixels (img : TGAImage) (i j : Int) (hinv : img.Invariant) :
    (img.swapPixels i j).Invariant := by
  unfold TGAImage.swapPixels
  exact invariant_set _ _ _ _ (invariant_set _ _ _ _ hinv)

/-- The method `flip_horizontally` keeps the invariant. -/
theorem invariant_flip_horizontally (img : TGAImage) (hinv : img.Invariant) :
    img.flip_horizontally.2.Invariant := by
  obtain ⟨d, hd, _⟩ := hinv.2.2.2
  unfold TGAImage.flip_horizontally
  rw [hd]
  simp only
  refine foldl_keeps TGAImage.Invariant _ (fun a i ha => ?_) _ img hinv
  exact foldl_keeps TGAImage.Invariant _ (fun a j ha => invariant_swapPixels a _ _ ha) _ a ha

/-- The method `flip_vertically`, when it returns, keeps the invariant. -/
theorem invariant_flip_vertically (img : TGAImage) (r : Bool × TGAImage)
    (hinv : img.Invariant) (hr : img.flip_vertically = some r) : r.2.Invariant := by
  obtain ⟨hb, hw, hh, d, hd, hl⟩ := hinv
  unfold TGAImage.flip_vertically at hr
  rw [hd] at hr
  dsimp only at hr
  split at hr
  · have e := Option.some.inj hr
    subst e
    refine ⟨hb, hw, hh, _, rfl, ?_⟩
    dsimp only
    rw [foldl_keeps (fun e : List Byte => e.length = d.length) _
      (fun a j ha => (length_swapLines a _ _ j).trans ha) _ d rfl]
    exact hl
  · exact absurd hr (by simp)

/-- The method `clear` keeps the invariant. -/
theorem invariant_clear (img : TGAImage) (hinv : img.Invariant) : img.clear.Invariant := by
  obtain ⟨hb, hw, hh, d, hd, hl⟩ := hinv
  unfold TGAImage.clear
  rw [hd]
  exact ⟨hb, hw, hh, _, rfl, by rw [length_storeBytes]; exact hl⟩

/-- The loop that copies pixels in `scale` keeps the length of the new buffer. -/
theorem length_scaleCopyLoop (d : List Byte) (W bpp ns os : Int) (fuel : Nat) (s : ScaleRow) :
    (scaleCopyLoop d W bpp ns os fuel s).tdata.length = s.tdata.length := by
  induction fuel generalizing s with
  | zero => rfl
  | succ fuel ih =>
    rw [scaleCopyLoop]
    split
    · rw [ih]
      exact length_storeBytes _ _ _
    · rfl

/-- One column of `scale` keeps the length of the new buffer. -/
theorem length_scaleColumn (d : List Byte) (W bpp w ns os : Int) (s : ScaleRow) :
    (scaleColumn d W bpp w ns os s).tdata.length = s.tdata.length := by
  unfold scaleColumn
  exact length_scaleCopyLoop _ _ _ _ _ _ _

/-- The loop that advances the new scanline in `scale` keeps the length of the
new buffer. -/
theorem length_scaleAdvanceLoop (H : Int) (L fuel : Nat) (s : ScaleState) :
    (scaleAdvanceLoop H L fuel s).tdata.length = s.tdata.length := by
  induction fuel generalizing s with
  | zero => rfl
  | succ fuel ih =>
    rw [scaleAdvanceLoop]
    split
    · rw [ih]
      dsimp only
      split
      · exact length_storeBytes _ _ _
      · rfl
    · rfl

/-- One scanline of `scale` keeps the length of the new buffer. -/
theorem length_scaleLine (d : List Byte) (W H bpp w h : Int) (L O : Nat) (s : ScaleState) :
    (scaleLine d W H bpp w h L O s).tdata.length = s.tdata.length := by
  unfold scaleLine
  dsimp only
  rw [length_scaleAdvanceLoop]
  dsimp only
  exact foldl_keeps (fun r : ScaleRow => r.tdata.length = s.tdata.length) _
    (fun a _ ha => (length_scaleColumn _ _ _ _ _ _ a).trans ha) _ _ rfl

/-- The method `scale` on an allocated image and a positive target whose buffer
can be allocated: it succeeds, and the new buffer has the number of bytes that
was asked for. -/
theorem scale_length (d : List Byte) (W H bpp w h : Int) (uninit : Nat → Byte)
    (hw : 0 < w) (hh : 0 < h)
    (hcan : canAllocate (toULong (wrapInt (wrapInt (w * h) * bpp))) = true) :
    ∃ T, (TGAImage.mk (some d) W H bpp).scale w h uninit = some (true, ⟨some T, w, h, bpp⟩)
      ∧ T.length = toULong (wrapInt (wrapInt (w * h) * bpp)) := by
  have hc : ¬ (w ≤ 0 ∨ h ≤ 0) := by omega
  unfold TGAImage.scale
  dsimp only
  rw [if_neg hc, if_pos hcan]
  refine ⟨_, rfl, ?_⟩
  rw [foldl_keeps (fun s : ScaleState => s.tdata.length
        = (newArray uninit (toULong (wrapInt (wrapInt (w * h) * bpp)))).length) _
      (fun a _ ha => (length_scaleLine _ _ _ _ _ _ _ _ a).trans ha) _ _ rfl]
  exact length_newArray _ _

/-- The method `scale`, when it returns and the size of a positive target is
within `int`, keeps the invariant, whatever it returns. -/
theorem invariant_scale (img : TGAImage) (w h : Int) (uninit : Nat → Byte) (r : Bool × TGAImage)
    (hinv : img.Invariant) (hfit : 0 < w → 0 < h → w * h * img.m_bytespp ≤ 2147483647)
    (hr : img.scale w h uninit = some r) : r.2.Invariant := by
  obtain ⟨hb, hW, hH, d, hd, hl⟩ := hinv
  unfold TGAImage.scale at hr
  rw [hd] at hr
  dsimp only at hr
  by_cases hc : w ≤ 0 ∨ h ≤ 0
  · rw [if_pos hc] at hr
    have e := Option.some.inj hr
    subst e
    exact ⟨hb, hW, hH, d, hd, hl⟩
  · rw [if_neg hc] at hr
    have hw : 0 < w := by omega
    have hh : 0 < h := by omega
    have hwh : 0 ≤ w * h := Int.mul_nonneg (by omega) (by omega)
    have hsz := size_fits w h img.m_bytespp hwh (by omega) (hfit hw hh)
    have h0 : 0 ≤ w * h * img.m_bytespp := Int.mul_nonneg hwh (by omega)
    rw [if_pos hsz.2, hsz.1] at hr
    have e := Option.some.inj hr
    subst e
    refine ⟨hb, hw, hh, _, rfl, ?_⟩
    dsimp only
    rw [foldl_keeps (fun s : ScaleState =>
        s.tdata.length = (newArray uninit (w * h * img.m_bytespp).toNat).length) _
      (fun a _ ha => (length_scaleLine _ _ _ _ _ _ _ _ a).trans ha) _ _ rfl]
    rw [length_newArray]
    exact Int.toNat_of_nonneg h0

theorem loadRawPacket_data (bpp pixelcount n : Nat) (s : RleState) :
    (loadRawPacket bpp pixelcount n s).2.data.length = s.data.length := by
  induction n generalizing s with
  | zero => simp [loadRawPacket]
  | succ n ih =>
    rw [loadRawPacket]
    cases hr : readBytes bpp s.inp with
    | none => rfl
    | some pr =>
      simp only
      split
      · simp only [RleState.storePixel, length_storeBytes]
      · rw [ih]
        simp only [RleState.storePixel, length_storeBytes]

theorem loadRunPacket_data (pixelcount n : Nat) (px : List Byte) (s : RleState) :
    (loadRunPacket pixelcount px n s).2.data.length = s.data.length := by
  induction n generalizing s with
  | zero => simp [loadRunPacket]
  | succ n ih =>
    rw [loadRunPacket]
    split
    · simp only [RleState.storePixel, length_storeBytes]
    · rw [ih]
      simp only [RleState.storePixel, length_storeBytes]

theorem loadPacket_data (bpp pixelcount : Nat) (s : RleState) :
    (loadPacket bpp pixelcount s).2.data.length = s.data.length := by
  unfold loadPacket
  cases hs : s.inp with
  | nil => rfl
  | cons hd rest =>
    simp only
    split
    · rw [loadRawPacket_data]
    · cases hr : readBytes bpp rest with
      | none => rfl
      | some pr =>
        simp only
        rw [loadRunPacket_data]

/-- The decoder loop stores into the buffer and never changes its length. -/
theorem loadRleLoop_data (bpp pixelcount fuel : Nat) (s : RleState) :
    (loadRleLoop bpp pixelcount fuel s).2.data.length = s.data.length := by
  induction fuel generalizing s with
  | zero => rfl
  | succ fuel ih =>
    rw [loadRleLoop]
    split
    · exact loadPacket_data bpp pixelcount s
    · split
      · rw [ih, loadPacket_data]
      · exact loadPacket_data bpp pixelcount s

/-- The flips at the end of `read_tga_file`, when they return, keep the
invariant. -/
theorem invariant_normalize (img img1 : TGAImage) (imagedescriptor : Int)
    (hinv : img.Invariant) (hn : img.normalize imagedescriptor = some img1) :
    img1.Invariant := by
  unfold TGAImage.normalize at hn
  by_cases h5 : descriptorBit5 imagedescriptor = true
  · rw [if_pos h5] at hn
    dsimp only at hn
    have e := Option.some.inj hn
    subst e
    split
    · exact invariant_flip_horizontally _ hinv
    · exact hinv
  · rw [if_neg h5] at hn
    cases hf : img.flip_vertically with
    | none =>
      rw [hf] at hn
      exact absurd hn (by simp)
    | some r =>
      rw [hf] at hn
      dsimp only [Option.map] at hn
      have e := Option.some.inj hn
      subst e
      have h1 := invariant_flip_vertically img r hinv hf
      split
      · exact invariant_flip_horizontally _ h1
      · exact h1

/-- A successful result built from the flips establishes the invariant. -/
theorem invariant_map_normalize (img img' : TGAImage) (imagedescriptor : Int)
    (hinv : img.Invariant)
    (hok : (img.normalize imagedescriptor).map (fun im => (true, im)) = some (true, img')) :
    img'.Invariant := by
  cases hn : img.normalize imagedescriptor with
  | none =>
    rw [hn] at hok
    exact absurd hok (by simp)
  | some im =>
    rw [hn] at hok
    have e : im = img' := by simpa using hok
    subst e
    exact invariant_normalize img im imagedescriptor hinv hn

/-- A read of the pixel data that succeeds, after a header whose width and
height are those of a `short`, establishes the invariant. -/
theorem invariant_readPixelData (img0 img' : TGAImage) (header : TGA_Header) (rest : List Byte)
    (uninit : Nat → Byte) (hwr : header.width ≤ 32767) (hhr : header.height ≤ 32767)
    (hok : img0.readPixelData header rest uninit = some (true, img')) : img'.Invariant := by
  by_cases hc : header.width ≤ 0 ∨ header.height ≤ 0
      ∨ (Int.tdiv header.bitsperpixel 8 ≠ 1 ∧ Int.tdiv header.bitsperpixel 8 ≠ 3
        ∧ Int.tdiv header.bitsperpixel 8 ≠ 4)
  · unfold TGAImage.readPixelData at hok
    dsimp only at hok
    rw [if_pos hc] at hok
    exact absurd hok (by simp)
  · have hw : 0 < header.width := by omega
    have hh : 0 < header.height := by omega
    have hb : Int.tdiv header.bitsperpixel 8 = 1 ∨ Int.tdiv header.bitsperpixel 8 = 3
        ∨ Int.tdiv header.bitsperpixel 8 = 4 := by omega
    obtain ⟨w, hwe⟩ : ∃ w : Nat, header.width = (w : Int) :=
      ⟨header.width.toNat, (Int.toNat_of_nonneg (by omega)).symm⟩
    obtain ⟨h, hhe⟩ : ∃ h : Nat, header.height = (h : Int) :=
      ⟨header.height.toNat, (Int.toNat_of_nonneg (by omega)).symm⟩
    obtain ⟨bpp, hbe⟩ : ∃ bpp : Nat, Int.tdiv header.bitsperpixel 8 = (bpp : Int) :=
      ⟨(Int.tdiv header.bitsperpixel 8).toNat, (Int.toNat_of_nonneg (by omega)).symm⟩
    have hbn : bpp = 1 ∨ bpp = 3 ∨ bpp = 4 := by omega
    by_cases hbig : 2147483648 ≤ bpp * w * h
    · rw [readPixelData_throws img0 header rest uninit w h bpp hwe hhe hbe (by omega) (by omega)
        hbn hbig] at hok
      exact absurd hok (by simp)
    · have e3 : (bpp : Int) * (w : Int) * (h : Int) = ((bpp * w * h : Nat) : Int) := by
        push_cast
        rfl
      have hsz := size_fits (bpp : Int) (w : Int) (h : Int)
        (Int.mul_nonneg (by omega) (by omega)) (by omega) (by rw [e3]; omega)
      have hn : (((bpp * w * h : Nat) : Nat) : Int)
          = (w : Int) * (h : Int) * (bpp : Int) := by
        push_cast
        ring
      have hb' : (bpp : Int) = 1 ∨ (bpp : Int) = 3 ∨ (bpp : Int) = 4 := by omega
      have hw' : (0 : Int) < (w : Int) := by omega
      have hh' : (0 : Int) < (h : Int) := by omega
      unfold TGAImage.readPixelData at hok
      dsimp only at hok
      rw [if_neg hc, hwe, hhe, hbe, if_pos hsz.2, hsz.1, e3, Int.toNat_ofNat] at hok
      by_cases h1 : header.datatypecode = 3 ∨ header.datatypecode = 2
      · rw [if_pos h1] at hok
        cases hr : readBytes (bpp * w * h) rest with
        | none =>
          rw [hr] at hok
          exact absurd hok (by simp)
        | some pr =>
          rw [hr] at hok
          dsimp only at hok
          refine invariant_map_normalize _ img' _ ?_ hok
          exact ⟨hb', hw', hh', _, rfl,
            by rw [length_storeBytes, length_newArray]; exact hn⟩
      · rw [if_neg h1] at hok
        by_cases h2 : header.datatypecode = 10 ∨ header.datatypecode = 11
        · rw [if_pos h2] at hok
          split at hok
          · exact absurd hok (by simp)
          · refine invariant_map_normalize _ img' _ ?_ hok
            refine ⟨hb', hw', hh', _, rfl, ?_⟩
            unfold TGAImage.load_rle_data
            dsimp only [Option.getD_some, Option.map]
            rw [loadRleLoop_data]
            dsimp only
            rw [length_newArray]
            exact hn
        · rw [if_neg h2] at hok
          exact absurd hok (by simp)

/-- A call of `read_tga_file` that returns true establishes the invariant. -/
theorem invariant_read (img img' : TGAImage) (file : Option (List Byte)) (uninit : Nat → Byte)
    (hok : img.read_tga_file file uninit = some (true, img')) : img'.Invariant := by
  unfold TGAImage.read_tga_file at hok
  cases file with
  | none => exact absurd hok (by simp)
  | some content =>
    dsimp only at hok
    cases hr : readBytes 18 content with
    | none =>
      rw [hr] at hok
      exact absurd hok (by simp)
    | some pr =>
      rw [hr] at hok
      dsimp only at hok
      exact invariant_readPixelData _ img' _ _ _ (int16le_range _ _).2 (int16le_range _ _).2 hok
/-- C20 as stated fails.  The default constructor gives an image with no buffer
and width, height and bytes per pixel 0.  The constructor `TGAImage(w, h, bpp)`
checks none of its arguments, so `TGAImage(2, 2, 2)` has 2 bytes per pixel and
`TGAImage(0, 0, 3)` has width 0; it computes the size of the buffer in `int`,
so `TGAImage(65536, 65536, 1)` has a buffer of 0 bytes.  The method `scale`
computes the size of the new buffer in `int` as well: `scale(65536, 65536)` on
`TGAImage(1, 1, 1)` leaves a width and a height of 65536 with a buffer of 0
bytes.  And a `read_tga_file` that cannot open its file returns false and leaves
the image without a buffer. -/
theorem constructors_break_invariant :
    ¬ TGAImage.TGAImage0.Invariant
    ∧ (TGAImage.TGAImage3 2 2 2 = some ⟨some [0, 0, 0, 0, 0, 0, 0, 0], 2, 2, 2⟩
        ∧ ¬ (TGAImage.mk (some [0, 0, 0, 0, 0, 0, 0, 0]) 2 2 2).Invariant)
    ∧ (TGAImage.TGAImage3 0 0 3 = some ⟨some [], 0, 0, 3⟩
        ∧ ¬ (TGAImage.mk (some []) 0 0 3).Invariant)
    ∧ (TGAImage.TGAImage3 65536 65536 1 = some ⟨some [], 65536, 65536, 1⟩
        ∧ ¬ (TGAImage.mk (some []) 65536 65536 1).Invariant)
    ∧ (TGAImage.TGAImage3 1 1 1 = some ⟨some [0], 1, 1, 1⟩
        ∧ (TGAImage.mk (some [0]) 1 1 1).scale 65536 65536 (fun _ => 0)
          = some (true, ⟨some [], 65536, 65536, 1⟩))
    ∧ (TGAImage.TGAImage0.read_tga_file none (fun _ => 0) = some (false, ⟨none, 0, 0, 0⟩)
        ∧ ¬ (TGAImage.mk none 0 0 0).Invariant) := by
  refine ⟨?_, ⟨by decide, ?_⟩, ⟨by decide, ?_⟩, ⟨by decide, ?_⟩, ⟨by decide, ?_⟩,
    ⟨by decide, ?_⟩⟩
  · rintro ⟨_, hw, _⟩
    exact absurd hw (by decide)
  · rintro ⟨hb, _⟩
    exact absurd hb (by decide)
  · rintro ⟨_, hw, _⟩
    exact absurd hw (by decide)
  · rintro ⟨_, _, _, d, hd, hl⟩
    have e := Option.some.inj hd
    subst e
    exact absurd hl (by decide)
  · obtain ⟨T, hs, hl⟩ := scale_length [0] 1 1 1 65536 65536 (fun _ => 0) (by decide) (by decide)
      (by decide)
    have hT : T = [] := List.eq_nil_of_length_eq_zero (hl.trans (by decide))
    rw [hs, hT]
  · rintro ⟨_, hw, _⟩
    exact absurd hw (by decide)

/-- C20, amended: every image built by the constructor `TGAImage(w, h, bpp)`
with `w > 0`, `h > 0`, `bpp` in `{1, 3, 4}` and `w * h * bpp` within `int`, or
left by a `read_tga_file` that returned true, and every image obtained from
such an image by calls of `set`, `flip_horizontally`, `flip_vertically`, `clear`
or `scale` that return, the size `w * h * bytesPerPixel` of a positive target
of `scale` being within `int`, has 1, 3 or 4 bytes per pixel, positive width
and height, and a buffer of exactly `width * height * bytesPerPixel` bytes. -/
theorem buffer_invariant (img : TGAImage) (h : img.Obtained) : img.Invariant := by
  induction h with
  | construct w h bpp img hw hh hb hfit hc => exact invariant_construct w h bpp img hw hh hb hfit hc
  | read img0 img file uninit hok => exact invariant_read img0 img file uninit hok
  | set img x y c _ ih => exact invariant_set img x y c ih
  | flip_horizontally img _ ih => exact invariant_flip_horizontally img ih
  | flip_vertically img r _ hr ih => exact invariant_flip_vertically img r ih hr
  | clear img _ ih => exact invariant_clear img ih
  | scale img w h uninit r _ hfit hr ih => exact invariant_scale img w h uninit r ih hfit hr

/-- C20 at the image `TGAImage(2, 2, 3)` after `set(1, 1, c)`,
`flip_vertically()` and `scale(4, 4)`. -/
theorem buffer_invariant_witness :
    (TGAImage.mk (some [0, 0, 0, 0, 0, 0, 30, 20, 10, 30, 20, 10, 0, 0, 0, 0, 0, 0, 30, 20, 10,
      30, 20, 10, 0, 0, 0, 0, 0, 0, 0, 0, 0, 0, 0, 0, 0, 0, 0, 0, 0, 0, 0, 0, 0, 0, 0, 0])
      4 4 3).Invariant :=
  buffer_invariant _
    (TGAImage.Obtained.scale ⟨some [0, 0, 0, 30, 20, 10, 0, 0, 0, 0, 0, 0], 2, 2, 3⟩ 4 4
      (fun _ => 0)
      (true, ⟨some [0, 0, 0, 0, 0, 0, 30, 20, 10, 30, 20, 10, 0, 0, 0, 0, 0, 0, 30, 20, 10,
        30, 20, 10, 0, 0, 0, 0, 0, 0, 0, 0, 0, 0, 0, 0, 0, 0, 0, 0, 0, 0, 0, 0, 0, 0, 0, 0],
        4, 4, 3⟩)
      (TGAImage.Obtained.flip_vertically ⟨some [0, 0, 0, 0, 0, 0, 0, 0, 0, 30, 20, 10], 2, 2, 3⟩
        (true, ⟨some [0, 0, 0, 30, 20, 10, 0, 0, 0, 0, 0, 0], 2, 2, 3⟩)
        (TGAImage.Obtained.set ⟨some [0, 0, 0, 0, 0, 0, 0, 0, 0, 0, 0, 0], 2, 2, 3⟩ 1 1
          (TGAColor.rgba 10 20 30 40)
          (TGAImage.Obtained.construct 2 2 3 _ (by decide) (by decide) (by decide) (by decide)
            (by decide)))
        (by decide))
      (fun _ _ => by decide) (by decide))

/-! ## The packets of the encoder -/

/-- Passes of the outer encoder loop beyond the number of pixels change nothing. -/
theorem unloadRleLoop_extra (d : List Byte) (bpp npixels : Nat) (hlen : d.length = npixels * bpp)
    (extra : Nat) :
    unloadRleLoop d bpp npixels (npixels + extra) 0 = unloadRleLoop d bpp npixels npixels 0 := by
  induction extra with
  | zero => rfl
  | succ extra ih =>
    rw [← Nat.add_assoc, unloadRleLoop_fuel d bpp npixels hlen _ 0 (by omega) (by omega), ih]

/-- Passes of the inner encoder loop beyond 128 change nothing. -/
theorem scanChunk_extra (d : List Byte) (bpp npixels curpix curbyte : Nat) (extra : Nat) :
    scanChunk d bpp npixels curpix (128 + extra) curbyte 1 true
      = scanChunk d bpp npixels curpix 128 curbyte 1 true := by
  induction extra with
  | zero => rfl
  | succ extra ih =>
    rw [← Nat.add_assoc, scanChunk_fuel d bpp npixels curpix _ curbyte 1 true (by omega), ih]

/-- A complete packet in the words of the specification: a raw packet of `L`
pixels has header `L - 1` and `L` pixels, a run packet of `L` pixels has header
`128 + L - 1` and one pixel. -/
theorem packet_shape (bpp : Nat) (p : Packet) (hc : p.Complete bpp) :
    ∃ L, 1 ≤ L ∧ L ≤ 128 ∧ p.count = L
      ∧ ((p.header.val = L - 1 ∧ p.payload.length = L * bpp)
        ∨ (p.header.val = 128 + L - 1 ∧ p.payload.length = bpp)) := by
  have hv := p.header.isLt
  unfold Packet.Complete Packet.stored at hc
  unfold Packet.count
  by_cases h : p.header.val < 128
  · rw [if_pos h] at hc ⊢
    exact ⟨p.header.val + 1, by omega, by omega, rfl, Or.inl ⟨by omega, hc⟩⟩
  · rw [if_neg h] at hc ⊢
    exact ⟨p.header.val - 127, by omega, by omega, rfl, Or.inr ⟨by omega, by omega⟩⟩

/-- C21: for every allocated image with 1, 3 or 4 bytes per pixel and width and
height at least 1, `unload_rle_data` returns true and its output is a sequence
of packets, each of `L` pixels with `1 ≤ L ≤ 128` (raw: header `L - 1` and `L`
pixels; run: header `128 + L - 1` and one pixel), whose pixel counts add up to
`width * height`; and neither loop of the encoder needs more passes than the
model gives it (`width * height` for the outer, 128 for the inner loop). -/
theorem unload_rle_data_well_formed (img : TGAImage) (hal : img.Allocated)
    (hb : img.m_bytespp = 1 ∨ img.m_bytespp = 3 ∨ img.m_bytespp = 4)
    (hw : 1 ≤ img.m_width) (hh : 1 ≤ img.m_height) :
    (∃ ps : List Packet,
      img.unload_rle_data = (true, ps.flatMap Packet.bytes)
      ∧ (∀ p ∈ ps, ∃ L, 1 ≤ L ∧ L ≤ 128 ∧ p.count = L
          ∧ ((p.header.val = L - 1 ∧ p.payload.length = L * img.m_bytespp.toNat)
            ∨ (p.header.val = 128 + L - 1 ∧ p.payload.length = img.m_bytespp.toNat)))
      ∧ pixelTotal ps = (img.m_width * img.m_height).toNat)
    ∧ (∀ extra,
        unloadRleLoop (img.m_data.getD []) img.m_bytespp.toNat
            (img.m_width * img.m_height).toNat ((img.m_width * img.m_height).toNat + extra) 0
          = img.unload_rle_data.2)
    ∧ (∀ curpix extra,
        scanChunk (img.m_data.getD []) img.m_bytespp.toNat (img.m_width * img.m_height).toNat
            curpix (128 + extra) (curpix * img.m_bytespp.toNat) 1 true
          = scanChunk (img.m_data.getD []) img.m_bytespp.toNat
              (img.m_width * img.m_height).toNat curpix 128 (curpix * img.m_bytespp.toNat)
              1 true) := by
  obtain ⟨d, hd, hlen⟩ := hal
  obtain ⟨md, mw, mh, mb⟩ := img
  simp only at hd hlen hb hw hh
  subst hd
  obtain ⟨w, rfl⟩ : ∃ w : Nat, mw = w := ⟨mw.toNat, by omega⟩
  obtain ⟨h, rfl⟩ : ∃ h : Nat, mh = h := ⟨mh.toNat, by omega⟩
  obtain ⟨bpp, rfl⟩ : ∃ b : Nat, mb = b := ⟨mb.toNat, by omega⟩
  have hlenN : d.length = w * h * bpp := by exact_mod_cast hlen
  have hpc : ((w : Int) * (h : Int)).toNat = w * h := by norm_cast
  obtain ⟨ps, hps, hcomp, -, -, htot⟩ :=
    unloadRleLoop_packets d bpp (w * h) hlenN (w * h) 0 (by omega) (by omega)
  simp only [TGAImage.unload_rle_data, hpc, Int.toNat_ofNat, Option.getD_some]
  refine ⟨⟨ps, by rw [hps], fun p hp => packet_shape bpp p (hcomp p hp), by rw [htot]; omega⟩,
    fun extra => unloadRleLoop_extra d bpp (w * h) hlenN extra,
    fun curpix extra => scanChunk_extra d bpp (w * h) curpix _ extra⟩

/-- C21 at a 4x2 checkerboard with 1 byte per pixel. -/
theorem unload_rle_data_well_formed_witness :
    (∃ ps : List Packet,
      (TGAImage.mk (some [0, 255, 0, 255, 255, 0, 255, 0]) 4 2 1).unload_rle_data
        = (true, ps.flatMap Packet.bytes)
      ∧ (∀ p ∈ ps, ∃ L, 1 ≤ L ∧ L ≤ 128 ∧ p.count = L
          ∧ ((p.header.val = L - 1 ∧ p.payload.length = L * (1 : Int).toNat)
            ∨ (p.header.val = 128 + L - 1 ∧ p.payload.length = (1 : Int).toNat)))
      ∧ pixelTotal ps = ((4 : Int) * 2).toNat)
    ∧ (∀ extra,
        unloadRleLoop ((some [0, 255, 0, 255, 255, 0, 255, 0] : Option (List Byte)).getD [])
            (1 : Int).toNat ((4 : Int) * 2).toNat (((4 : Int) * 2).toNat + extra) 0
          = (TGAImage.mk (some [0, 255, 0, 255, 255, 0, 255, 0]) 4 2 1).unload_rle_data.2)
    ∧ (∀ curpix extra,
        scanChunk ((some [0, 255, 0, 255, 255, 0, 255, 0] : Option (List Byte)).getD [])
            (1 : Int).toNat ((4 : Int) * 2).toNat curpix (128 + extra) (curpix * (1 : Int).toNat)
            1 true
          = scanChunk ((some [0, 255, 0, 255, 255, 0, 255, 0] : Option (List Byte)).getD [])
              (1 : Int).toNat ((4 : Int) * 2).toNat curpix 128 (curpix * (1 : Int).toNat)
              1 true) :=
  unload_rle_data_well_formed ⟨some [0, 255, 0, 255, 255, 0, 255, 0], 4, 2, 1⟩
    ⟨_, rfl, by decide⟩ (by decide) (by decide) (by decide)

/-! ## The closed form of the resampler -/

/-- The index `sourceIndex k W w` is `c - 1` for the least `c` with
`(k + 1) * W ≤ c * w`, that is, for `c` the quotient `(k + 1) * W / w` rounded
up. -/
theorem sourceIndex_spec (k W w : Nat) (hW : 1 ≤ W) (hw : 1 ≤ w) :
    sourceIndex k W w * w < (k + 1) * W ∧ (k + 1) * W ≤ (sourceIndex k W w + 1) * w := by
  unfold sourceIndex
  have ha : 1 ≤ (k + 1) * W := Nat.mul_pos (by omega) hW
  generalize (k + 1) * W = a at *
  have hdm := Nat.div_add_mod (a + w - 1) w
  have hmod : (a + w - 1) % w < w := Nat.mod_lt _ (by omega)
  have hc1 : 1 ≤ (a + w - 1) / w := (Nat.one_le_div_iff (by omega)).mpr (by omega)
  generalize (a + w - 1) % w = m at *
  generalize (a + w - 1) / w = c at *
  obtain ⟨c', rfl⟩ : ∃ c', c = c' + 1 := ⟨c - 1, by omega⟩
  have e1 : w * (c' + 1) = c' * w + w := by ring
  rw [e1] at hdm
  have e2 : (c' + 1 - 1 + 1) * w = c' * w + w := by
    rw [Nat.add_sub_cancel, Nat.succ_mul]
  rw [e2, Nat.add_sub_cancel]
  constructor <;> omega

/-- The old pixel `sourceIndex k W w` lies inside the old line and is the one the
loops of `scale` copy to new pixel `k`. -/
theorem sourceIndex_range (k W w : Nat) (hW : 1 ≤ W) (hk : k < w) :
    sourceIndex k W w < W
    ∧ sourceIndex k W w * w / W ≤ k
    ∧ k < (sourceIndex k W w + 1) * w / W := by
  obtain ⟨h1, h2⟩ := sourceIndex_spec k W w hW (by omega)
  generalize sourceIndex k W w = i at *
  refine ⟨?_, ?_, ?_⟩
  · have h3 : (k + 1) * W ≤ w * W := Nat.mul_le_mul_right W (by omega)
    have h4 : i * w < W * w := by
      rw [Nat.mul_comm W w]
      omega
    exact Nat.lt_of_mul_lt_mul_right h4
  · have : i * w / W < k + 1 := (Nat.div_lt_iff_lt_mul (by omega)).mpr h1
    omega
  · have : k + 1 ≤ (i + 1) * w / W := (Nat.le_div_iff_mul_le (by omega)).mpr h2
    omega

/-- The copies made by the loop `while (errx >= m_width)`, started with
`errx = q * W + rem` after `c` pixels of the new line: their destinations are
the pixels `c`, ..., `c + q - 1` of the line. -/
theorem scaleCopyLoopStores_spec (d : List Byte) (W bpp N P : Nat) (oscanline : Int)
    (fuel : Nat) (s : ScaleRow) (q rem c : Nat)
    (he : s.errx = ((q * W + rem : Nat) : Int)) (hrem : rem < W)
    (hnx : s.nx = (c : Int) * bpp - bpp) (hin : P + c + q ≤ N)
    (hE : q * W + rem ≤ 2147483647) (hB : N * bpp ≤ 2147483647) :
    ∀ o ∈ scaleCopyLoopStores d W bpp ((P * bpp : Nat) : Int) oscanline fuel s,
      ∃ r : Nat, P + c ≤ r ∧ r < P + c + q ∧ o = ((r * bpp : Nat) : Int) := by
  induction fuel generalizing s q c with
  | zero =>
    intro o ho
    simp [scaleCopyLoopStores] at ho
  | succ fuel ih =>
    intro o ho
    rw [scaleCopyLoopStores] at ho
    cases q with
    | zero =>
      have hcond : ¬ s.errx ≥ (W : Int) := by rw [he]; simp; omega
      rw [if_neg hcond] at ho
      simp at ho
    | succ q =>
      have hsplit : (q + 1) * W + rem = q * W + rem + W := by rw [Nat.succ_mul]; omega
      rw [hsplit] at he hE
      have hcond : s.errx ≥ (W : Int) := by rw [he]; push_cast; omega
      have hcN : (c + 1) * bpp ≤ N * bpp := Nat.mul_le_mul_right bpp (by omega)
      have e1 : wrapInt (s.errx - (W : Int)) = s.errx - (W : Int) :=
        wrapInt_eq _ (by rw [he]; push_cast; omega) (by rw [he]; push_cast; omega)
      have e2 : wrapInt (s.nx + (bpp : Int)) = s.nx + (bpp : Int) := by
        have e : s.nx + (bpp : Int) = ((c * bpp : Nat) : Int) := by
          rw [hnx]
          push_cast
          ring
        rw [e]
        rw [Nat.succ_mul] at hcN
        exact wrapInt_eq _ (by omega) (by omega)
      rw [if_pos hcond, e1, e2, List.mem_cons] at ho
      rcases ho with ho | ho
      · refine ⟨P + c, by omega, by omega, ?_⟩
        rw [ho, hnx]
        push_cast
        ring
      · obtain ⟨r, h1, h2, h3⟩ := ih _ q (c + 1)
          (by simp only; rw [he]; push_cast; omega)
          (by simp only; rw [hnx]; push_cast; ring) (by omega) (by omega) o ho
        exact ⟨r, by omega, by omega, h3⟩

/-- The line copies made by the loop `while (erry >= m_height)`, started with
`erry = q * H + rem` at new line `m`: their destinations are the lines
`m + 1`, ..., `m + q - 1`. -/
theorem scaleAdvanceLoopStores_spec (H L Nr : Nat) (fuel : Nat) (s : ScaleState) (q rem m : Nat)
    (he : s.erry = ((q * H + rem : Nat) : Int)) (hrem : rem < H)
    (hns : s.nscanline = ((m * L : Nat) : Int)) (hin : m + q ≤ Nr)
    (hE : q * H + rem ≤ 2147483647) (hH2 : 2 * H ≤ 2147483647)
    (hB : Nr * L ≤ 2147483647) :
    ∀ o ∈ scaleAdvanceLoopStores H L fuel s,
      ∃ r : Nat, m < r ∧ r < m + q ∧ o = ((r * L : Nat) : Int) := by
  induction fuel generalizing s q m with
  | zero =>
    intro o ho
    simp [scaleAdvanceLoopStores] at ho
  | succ fuel ih =>
    intro o ho
    rw [scaleAdvanceLoopStores] at ho
    cases q with
    | zero =>
      have hcond : ¬ s.erry ≥ (H : Int) := by rw [he]; simp; omega
      rw [if_neg hcond] at ho
      simp at ho
    | succ q =>
      have hsplit : (q + 1) * H + rem = q * H + rem + H := by rw [Nat.succ_mul]; omega
      rw [hsplit] at he hE
      have hcond : s.erry ≥ (H : Int) := by rw [he]; push_cast; omega
      have hmN : (m + 1) * L ≤ Nr * L := Nat.mul_le_mul_right L (by omega)
      have hns1 : s.nscanline + (L : Int) = (((m + 1) * L : Nat) : Int) := by
        rw [hns]
        push_cast
        ring
      have e1 : wrapInt (s.erry - (H : Int)) = s.erry - (H : Int) :=
        wrapInt_eq _ (by rw [he]; push_cast; omega) (by rw [he]; push_cast; omega)
      have e2 : wrapInt ((H : Int) * 2) = (H : Int) * 2 := wrapInt_eq _ (by omega) (by omega)
      have e3 : wrapInt (s.nscanline + (L : Int)) = s.nscanline + (L : Int) := by
        rw [hns1]
        exact wrapInt_eq _ (by omega) (by omega)
      rw [if_pos hcond, e1, e2, e3, List.mem_append] at ho
      rcases ho with ho | ho
      · cases q with
        | zero =>
          have hc2 : ¬ s.erry ≥ (H : Int) * 2 := by rw [he]; push_cast; omega
          rw [if_neg hc2] at ho
          simp at ho
        | succ q =>
          by_cases hc2 : s.erry ≥ (H : Int) * 2
          · rw [if_pos hc2, List.mem_singleton] at ho
            exact ⟨m + 1, by omega, by omega, by rw [ho, hns1]⟩
          · rw [if_neg hc2] at ho
            simp at ho
      · obtain ⟨r, h1, h2, h3⟩ := ih _ q (m + 1)
          (by simp only; rw [he]; push_cast; omega) hns1 (by omega) (by omega) o ho
        exact ⟨r, by omega, by omega, h3⟩

/-- The end of a block of `n` bytes that starts at block index `r < N` lies
inside `N * n` bytes. -/
theorem block_end_le (r N n : Nat) (hr : r < N) :
    (0 : Int) ≤ ((r * n : Nat) : Int) ∧ ((r * n : Nat) : Int) + (n : Int) ≤ ((N * n : Nat) : Int) := by
  have h := block_le N n r hr
  constructor
  · exact Int.ofNat_nonneg _
  · exact_mod_cast h

/-- The copies of one pass of the loop over the scanlines, from the state after
`j` old lines, all lie inside the new buffer. -/
theorem scaleLineStores_bound (d : List Byte) (W H bpp w h : Nat) (hW : 1 ≤ W) (hH : 1 ≤ H)
    (hh : 1 ≤ h) (hd : d.length = (H * W) * bpp) (j : Nat) (hj : j < H) (s : ScaleState)
    (he : s.erry = ((j * h % H : Nat) : Int))
    (hns : s.nscanline = (((j * h / H * w) * bpp : Nat) : Int))
    (hos : s.oscanline = (((j * W) * bpp : Nat) : Int))
    (hT : s.tdata.length = (h * w) * bpp)
    (hWw : ∀ i, i < W → i * w % W + w ≤ 2147483647)
    (hHh : j * h % H + h ≤ 2147483647) (hH2 : 2 * H ≤ 2147483647)
    (hB : (h * w) * bpp ≤ 2147483647) (hD : (H * W) * bpp ≤ 2147483647) :
    ∀ st ∈ scaleLineStores d W H bpp w h (w * bpp) (W * bpp) s,
      0 ≤ st.1 ∧ st.1 + (st.2 : Int) ≤ (((h * w) * bpp : Nat) : Int) := by
  have hlt : j * h / H < h := by
    apply Nat.div_lt_of_lt_mul
    rw [Nat.mul_comm H h, Nat.mul_comm j h]
    exact Nat.mul_lt_mul_of_pos_left hj (by omega)
  have hPw : j * h / H * w + w ≤ h * w := by
    rw [← Nat.succ_mul]
    exact Nat.mul_le_mul_right w hlt
  have hQW : j * W + W ≤ H * W := by
    rw [← Nat.succ_mul]
    exact Nat.mul_le_mul_right W hj
  have hbpp : bpp ≤ 2147483647 := by
    have h1 : 1 * bpp ≤ (H * W) * bpp := Nat.mul_le_mul_right bpp (Nat.mul_pos hH hW)
    omega
  have hjW : (j * W + W) * bpp ≤ (H * W) * bpp := Nat.mul_le_mul_right bpp hQW
  have he0H : j * h % H < H := Nat.mod_lt _ (by omega)
  have en : wrapInt (-(bpp : Int)) = -(bpp : Int) := wrapInt_eq _ (by omega) (by omega)
  have ee : wrapInt (s.erry + (h : Int)) = s.erry + (h : Int) :=
    wrapInt_eq _ (by rw [he]; omega) (by rw [he]; omega)
  have eo : wrapInt (s.oscanline + ((W * bpp : Nat) : Int))
      = s.oscanline + ((W * bpp : Nat) : Int) := by
    have e : s.oscanline + ((W * bpp : Nat) : Int) = (((j * W + W) * bpp : Nat) : Int) := by
      rw [hos]
      push_cast
      ring
    rw [e]
    exact wrapInt_eq _ (by omega) (by omega)
  intro st hst
  unfold scaleLineStores at hst
  dsimp only at hst
  rw [en, ee, eo] at hst
  simp only [Int.toNat_ofNat] at hst
  rw [hns, hos, List.mem_append] at hst
  rcases hst with hst | hst
  · rw [List.mem_flatMap] at hst
    obtain ⟨i, hi, hst⟩ := hst
    rw [List.mem_range] at hi
    have hWi := hWw i hi
    rw [List.mem_map] at hst
    obtain ⟨o, ho, rfl⟩ := hst
    obtain ⟨c1, c2, c3, -, -, -⟩ := scaleColumns_spec d W bpp w (h * w) (H * W) (j * h / H * w)
      (j * W) s.tdata hW hd hQW hT hPw hWw hB hD i (by omega)
    obtain ⟨hf, -⟩ := dda_step i w W hW
    have hdm := Nat.div_add_mod (i * w % W + w) W
    have hrem : (i * w % W + w) % W < W := Nat.mod_lt _ (by omega)
    have hle := dda_le (i + 1) w W hW (by omega)
    rw [hf] at hle
    unfold scaleColumnStores at ho
    generalize (List.range i).foldl (fun (r : ScaleRow) (_ : Nat) =>
      scaleColumn d W bpp w ((j * h / H * w * bpp : Nat) : Int) ((j * W * bpp : Nat) : Int) r)
      { tdata := s.tdata, errx := 0, nx := -(bpp : Int), ox := -(bpp : Int) } = row at c1 c2 c3 ho
    have hiM : (i + 1) * bpp ≤ (H * W) * bpp :=
      Nat.mul_le_mul_right bpp (by have := Nat.mul_pos hH hW; omega)
    have hiW : i * w % W < W := Nat.mod_lt _ (by omega)
    have e1 : wrapInt (row.ox + (bpp : Int)) = row.ox + (bpp : Int) := by
      have e : row.ox + (bpp : Int) = ((i * bpp : Nat) : Int) := by
        rw [c3]
        push_cast
        ring
      rw [e]
      rw [Nat.succ_mul] at hiM
      exact wrapInt_eq _ (by omega) (by omega)
    have e2 : wrapInt (row.errx + (w : Int)) = row.errx + (w : Int) :=
      wrapInt_eq _ (by rw [c1]; omega) (by rw [c1]; omega)
    dsimp only at ho
    rw [e1, e2] at ho
    have he1 : ({ row with ox := row.ox + (bpp : Int), errx := row.errx + (w : Int) } : ScaleRow).errx
        = (((i * w % W + w) / W * W + (i * w % W + w) % W : Nat) : Int) := by
      simp only
      rw [c1]
      have h2 : ((W * ((i * w % W + w) / W) + (i * w % W + w) % W : Nat) : Int)
          = ((i * w % W + w : Nat) : Int) := by rw [hdm]
      rw [Nat.mul_comm W] at h2
      rw [h2]
      push_cast
      rfl
    have hE : (i * w % W + w) / W * W + (i * w % W + w) % W ≤ 2147483647 := by
      rw [Nat.mul_comm _ W, hdm]
      omega
    have hin : j * h / H * w + i * w / W + (i * w % W + w) / W ≤ h * w := by
      generalize (i * w % W + w) / W = q at *
      generalize i * w / W = c at *
      omega
    obtain ⟨r, h1, h2, h3⟩ := scaleCopyLoopStores_spec d W bpp (h * w) (j * h / H * w)
      ((j * W * bpp : Nat) : Int) _ _ ((i * w % W + w) / W) ((i * w % W + w) % W) (i * w / W)
      he1 hrem c2 hin hE hB o ho
    have hr : r < h * w := by
      generalize (i * w % W + w) / W = q at *
      generalize i * w / W = c at *
      omega
    simp only
    rw [h3]
    exact block_end_le r (h * w) bpp hr
  · rw [List.mem_map] at hst
    obtain ⟨o, ho, rfl⟩ := hst
    obtain ⟨hf, -⟩ := dda_step j h H hH
    have hdm := Nat.div_add_mod (j * h % H + h) H
    have hrem : (j * h % H + h) % H < H := Nat.mod_lt _ (by omega)
    have hle := dda_le (j + 1) h H hH (by omega)
    rw [hf] at hle
    generalize (List.range W).foldl (fun (r : ScaleRow) (_ : Nat) =>
      scaleColumn d W bpp w ((j * h / H * w * bpp : Nat) : Int) ((j * W * bpp : Nat) : Int) r)
      { tdata := s.tdata, errx := 0, nx := -(bpp : Int), ox := -(bpp : Int) } = row at ho
    have he1 : s.erry + (h : Int)
        = (((j * h % H + h) / H * H + (j * h % H + h) % H : Nat) : Int) := by
      rw [he]
      have h2 : ((H * ((j * h % H + h) / H) + (j * h % H + h) % H : Nat) : Int)
          = ((j * h % H + h : Nat) : Int) := by rw [hdm]
      rw [Nat.mul_comm H] at h2
      rw [h2]
      push_cast
      rfl
    have hns1 : (((j * h / H * w) * bpp : Nat) : Int) = ((j * h / H * (w * bpp) : Nat) : Int) := by
      rw [Nat.mul_assoc]
    have hE : (j * h % H + h) / H * H + (j * h % H + h) % H ≤ 2147483647 := by
      rw [Nat.mul_comm _ H, hdm]
      omega
    obtain ⟨r, h1, h2, h3⟩ := scaleAdvanceLoopStores_spec H (w * bpp) h _ _
      ((j * h % H + h) / H) ((j * h % H + h) % H) (j * h / H) he1 hrem hns1 hle hE hH2
      (by rw [← Nat.mul_assoc]; exact hB) o ho
    have hr : r < h := by
      generalize (j * h % H + h) / H = q at *
      generalize j * h / H = m at *
      omega
    simp only
    rw [h3, Nat.mul_assoc h w bpp]
    exact block_end_le r h (w * bpp) hr

/-- The copies of `scale`, when the sizes it computes are within `int`: the
method runs its loops. -/
theorem scaleStores_runs (d : List Byte) (W H bpp w h : Nat) (uninit : Nat → Byte)
    (hw : 1 ≤ w) (hh : 1 ≤ h) (hb : 1 ≤ bpp) (hH : 1 ≤ H)
    (hB : w * h * bpp ≤ 2147483647) (hD : W * H * bpp ≤ 2147483647) :
    (TGAImage.mk (some d) W H bpp).scaleStores w h uninit
      = (List.range H).flatMap (fun j =>
          scaleLineStores d W H bpp w h (w * bpp) (W * bpp)
            ((List.range j).foldl
              (fun (s : ScaleState) (_ : Nat) => scaleLine d W H bpp w h (w * bpp) (W * bpp) s)
              { tdata := newArray uninit (w * h * bpp), nscanline := 0, oscanline := 0,
                erry := 0 })) := by
  have hsz := size_fits (w : Int) (h : Int) (bpp : Int)
    (Int.mul_nonneg (by omega) (by omega)) (by omega) (by exact_mod_cast hB)
  have e1 : ((w : Int) * (h : Int) * (bpp : Int)).toNat = w * h * bpp := by
    have : (w : Int) * (h : Int) * (bpp : Int) = ((w * h * bpp : Nat) : Int) := by push_cast; rfl
    rw [this, Int.toNat_ofNat]
  have hwb : w * bpp ≤ 2147483647 := by
    have h1 : w * bpp * 1 ≤ w * bpp * h := Nat.mul_le_mul_left _ hh
    have e : w * bpp * h = w * h * bpp := by ring
    omega
  have hWb : W * bpp ≤ 2147483647 := by
    have h1 : W * bpp * 1 ≤ W * bpp * H := Nat.mul_le_mul_left _ hH
    have e : W * bpp * H = W * H * bpp := by ring
    omega
  have hc : ¬ ((w : Int) ≤ 0 ∨ (h : Int) ≤ 0) := by omega
  unfold TGAImage.scaleStores
  dsimp only
  rw [if_neg hc, hsz.1, e1, if_pos (by rw [← e1, ← hsz.1]; exact hsz.2), (line_size w bpp hwb).1,
    (line_size W bpp hWb).1, Int.toNat_ofNat]

/-- Every copy `scale` makes into the new buffer lies inside its
`w * h * bpp` bytes, when the sizes and the loop variables stay within `int`. -/
theorem scaleStores_bound (d : List Byte) (W H bpp w h : Nat) (uninit : Nat → Byte)
    (hW : 1 ≤ W) (hH : 1 ≤ H) (hw : 1 ≤ w) (hh : 1 ≤ h) (hd : d.length = W * H * bpp)
    (hb : 1 ≤ bpp) (hWw : ∀ i, i < W → i * w % W + w ≤ 2147483647)
    (hHh : ∀ j, j < H → j * h % H + h ≤ 2147483647) (hH2 : 2 * H ≤ 2147483647)
    (hB : w * h * bpp ≤ 2147483647) (hD : W * H * bpp ≤ 2147483647) :
    ∀ st ∈ (TGAImage.mk (some d) W H bpp).scaleStores w h uninit,
      0 ≤ st.1 ∧ st.1 + (st.2 : Int) ≤ ((w * h * bpp : Nat) : Int) := by
  have hd2 : d.length = (H * W) * bpp := by rw [hd, Nat.mul_comm W H]
  have hT0 : (newArray uninit (w * h * bpp)).length = (h * w) * bpp := by
    rw [length_newArray, Nat.mul_comm w h]
  have hB2 : (h * w) * bpp ≤ 2147483647 := by rw [Nat.mul_comm h w]; exact hB
  have hD2 : (H * W) * bpp ≤ 2147483647 := by rw [Nat.mul_comm H W]; exact hD
  intro st hst
  rw [scaleStores_runs d W H bpp w h uninit hw hh hb hH hB hD, List.mem_flatMap] at hst
  obtain ⟨j, hj, hst⟩ := hst
  rw [List.mem_range] at hj
  obtain ⟨h1, h2, h3, h4, -⟩ := scaleLines_spec d W H bpp w h hW hH hh hd2
    (newArray uninit (w * h * bpp)) hT0 hWw hHh hH2 hB2 hD2 j (by omega)
  have := scaleLineStores_bound d W H bpp w h hW hH hh hd2 j hj _ h1 h2 h3 h4 hWw (hHh j hj) hH2
    hB2 hD2 st hst
  rw [Nat.mul_comm w h]
  exact this

/-- The method `scale` in closed form, when the sizes and the loop variables
stay within `int`: new pixel `(k, n)` is the old pixel
`(sourceIndex k W w, sourceIndex n H h)`. -/
theorem scale_closed_form (d : List Byte) (W H bpp w h : Nat) (uninit : Nat → Byte)
    (hW : 1 ≤ W) (hH : 1 ≤ H) (hw : 1 ≤ w) (hh : 1 ≤ h) (hd : d.length = W * H * bpp)
    (hb : 1 ≤ bpp) (hWw : ∀ i, i < W → i * w % W + w ≤ 2147483647)
    (hHh : ∀ j, j < H → j * h % H + h ≤ 2147483647) (hH2 : 2 * H ≤ 2147483647)
    (hB : w * h * bpp ≤ 2147483647) (hD : W * H * bpp ≤ 2147483647) :
    ∃ T, (TGAImage.mk (some d) W H bpp).scale w h uninit = some (true, ⟨some T, w, h, bpp⟩)
      ∧ T.length = w * h * bpp
      ∧ ∀ k n, k < w → n < h →
          cells T ((k + n * w) * bpp) bpp
            = cells d ((sourceIndex k W w + sourceIndex n H h * W) * bpp) bpp := by
  obtain ⟨T, hs, hl, hp⟩ := scale_pixels d W H bpp w h uninit hW hH hw hh hd hb hWw hHh hH2 hB hD
  refine ⟨T, hs, hl, fun k n hk hn => ?_⟩
  obtain ⟨a1, a2, a3⟩ := sourceIndex_range k W w hW hk
  obtain ⟨b1, b2, b3⟩ := sourceIndex_range n H h hH hn
  exact hp _ _ k n a1 b1 a2 a3 b2 b3

/-- A buffer of `w * h` pixels is determined by its pixels. -/
theorem eq_of_pixels (a b : List Byte) (w h bpp : Nat) (ha : a.length = w * h * bpp)
    (hb : b.length = w * h * bpp)
    (hp : ∀ k n, k < w → n < h →
      cells a ((k + n * w) * bpp) bpp = cells b ((k + n * w) * bpp) bpp) : a = b := by
  refine eq_of_cells a b bpp (w * h) ha hb (fun r hr => ?_)
  have hw : 0 < w := by
    rcases Nat.eq_zero_or_pos w with h0 | h0
    · rw [h0] at hr
      simp at hr
    · exact h0
  have hk : r % w < w := Nat.mod_lt _ hw
  have hn : r / w < h := by
    apply Nat.div_lt_of_lt_mul
    exact hr
  have e : r % w + r / w * w = r := by
    have := Nat.mod_add_div r w
    rw [Nat.mul_comm w] at this
    exact this
  have := hp (r % w) (r / w) hk hn
  rw [e] at this
  exact this

/-- When the target has the size of the source, the closed form is the
identity. -/
theorem sourceIndex_same (k W : Nat) (hW : 1 ≤ W) : sourceIndex k W W = k := by
  obtain ⟨h1, h2⟩ := sourceIndex_spec k W W hW hW
  have a : sourceIndex k W W < k + 1 := Nat.lt_of_mul_lt_mul_right h1
  have b : k + 1 ≤ sourceIndex k W W + 1 := Nat.le_of_mul_le_mul_right h2 (by omega)
  omega
/-- The loop `while (errx >= m_width)` makes no pass when `errx < m_width`. -/
theorem scaleCopyLoop_done (d : List Byte) (W bpp ns os : Int) (fuel : Nat) (s : ScaleRow)
    (h : ¬ s.errx ≥ W) : scaleCopyLoop d W bpp ns os fuel s = s := by
  cases fuel with
  | zero => rfl
  | succ fuel => rw [scaleCopyLoop, if_neg h]

/-- The loop `while (erry >= m_height)` makes no pass when `erry < m_height`. -/
theorem scaleAdvanceLoop_done (H : Int) (L fuel : Nat) (s : ScaleState)
    (h : ¬ s.erry ≥ H) : scaleAdvanceLoop H L fuel s = s := by
  cases fuel with
  | zero => rfl
  | succ fuel => rw [scaleAdvanceLoop, if_neg h]

/-- The loop `while (erry >= m_height)` copies no line while
`erry < m_height << 1`. -/
theorem scaleAdvanceLoop_no_copy (H : Int) (L fuel : Nat) (s : ScaleState) (hH : 0 < H)
    (hH2 : H * 2 ≤ 2147483647) (he : s.erry < H * 2) :
    (scaleAdvanceLoop H L fuel s).tdata = s.tdata := by
  induction fuel generalizing s with
  | zero => rfl
  | succ fuel ih =>
    rw [scaleAdvanceLoop]
    have e2 : wrapInt (H * 2) = H * 2 := wrapInt_eq _ (by omega) hH2
    by_cases hc : s.erry ≥ H
    · have e1 : wrapInt (s.erry - H) = s.erry - H := wrapInt_eq _ (by omega) (by omega)
      rw [if_pos hc, ih _ (by dsimp only; rw [e1]; omega)]
      dsimp only
      rw [e2, if_neg (by omega)]
    · rw [if_neg hc]

/-- On an image of width `INT_MAX` and a target width of 2, `errx` is even and
so never reaches the width, also after it has overflowed: no column copies a
pixel. -/
theorem scaleColumns_no_copy (d : List Byte) (ns os : Int) (l : List Nat) (r : ScaleRow)
    (hr : r.errx % 2 = 0) :
    (l.foldl (fun (r : ScaleRow) (_ : Nat) => scaleColumn d 2147483647 1 2 ns os r) r).tdata
      = r.tdata := by
  refine (foldl_keeps (fun a : ScaleRow => a.errx % 2 = 0 ∧ a.tdata = r.tdata) _
      (fun a _ ha => ?_) l r ⟨hr, rfl⟩).2
  have hlt : ¬ wrapInt (a.errx + 2) ≥ 2147483647 := by
    have := ha.1
    unfold wrapInt
    omega
  unfold scaleColumn
  dsimp only
  rw [scaleCopyLoop_done _ _ _ _ _ _ _ hlt]
  refine ⟨?_, ha.2⟩
  have := ha.1
  dsimp only
  unfold wrapInt
  omega

/-- One scanline of `scale` from width `INT_MAX` to width 2 and from height 1
to height 1 leaves the new buffer as it was. -/
theorem scaleLine_errx_overflow (d : List Byte) (L O : Nat) (s : ScaleState)
    (hs : s.erry = 0) : (scaleLine d 2147483647 1 1 2 1 L O s).tdata = s.tdata := by
  unfold scaleLine
  dsimp only
  generalize List.range (Int.toNat 2147483647) = l
  have h1 : (0 : Int) < 1 := by decide
  have h2 : (1 : Int) * 2 ≤ 2147483647 := by decide
  have h3 : wrapInt (s.erry + 1) < 1 * 2 := by rw [hs]; decide
  have h0 : (0 : Int) % 2 = 0 := by decide
  rw [scaleAdvanceLoop_no_copy 1 L _ _ h1 h2 h3]
  have := scaleColumns_no_copy d s.nscanline s.oscanline l
    { tdata := s.tdata, errx := 0, nx := wrapInt (-1), ox := wrapInt (-1) } h0
  rw [this]

/-- On the allocated image of width `INT_MAX`, height 1 and one byte per pixel,
`scale(2, 1)` returns the fresh array as it was: `errx` overflows before it
reaches the width, and no pixel is copied. -/
theorem scale_errx_overflow (u : Nat → Byte) :
    (TGAImage.mk (some (List.replicate 2147483647 0)) 2147483647 1 1).scale 2 1 u
      = some (true, ⟨some [u 0, u 1], 2, 1, 1⟩) := by
  have hc : ¬ ((2 : Int) ≤ 0 ∨ (1 : Int) ≤ 0) := by decide
  have hn : toULong (wrapInt (wrapInt (2 * 1) * 1)) = 2 := by decide
  have hl : toULong (wrapInt (2 * 1)) = 2 := by decide
  have ho : toULong (wrapInt (2147483647 * 1)) = 2147483647 := by decide
  have h1 : List.range (Int.toNat 1) = [0] := by decide
  have hcan : canAllocate 2 = true := by decide
  unfold TGAImage.scale
  dsimp only
  rw [if_neg hc, hn, hl, ho, if_pos hcan, h1, List.foldl_cons, List.foldl_nil,
    scaleLine_errx_overflow _ _ _ _ rfl]
  rfl

/-- A store of at most one byte at offset 0 leaves cell 1 as it was. -/
theorem rd_one_storeBytes (T c : List Byte) (hc : c.length ≤ 1) :
    rd (storeBytes T 0 c) 1 = rd T 1 := by
  match c, hc with
  | [], _ => rfl
  | [x], _ =>
    unfold rd
    simp [storeBytes]
  | _ :: _ :: _, h => exact absurd h (by simp)

/-- The one column of a scanline of width 1 scaled to width 1 copies the old
pixel of the line to the new line. -/
theorem scaleColumn_unit (d T : List Byte) (ns os : Int) :
    (scaleColumn d 1 1 1 ns os
        { tdata := T, errx := 0, nx := wrapInt (-1), ox := wrapInt (-1) }).tdata
      = storeBytes T (ns + 0).toNat (cells d (os + 0).toNat 1) := by
  rfl

/-- One scanline of `scale` from width 1 to width 1 and from height `INT_MAX`
to height 2, while `erry` is even: the new scanline is not advanced. -/
theorem scaleLine_erry_overflow (d : List Byte) (L O : Nat) (s : ScaleState)
    (hs : s.erry % 2 = 0) :
    scaleLine d 1 2147483647 1 1 2 L O s
      = { tdata := storeBytes s.tdata (s.nscanline + 0).toNat
            (cells d (s.oscanline + 0).toNat 1),
          nscanline := s.nscanline,
          oscanline := wrapInt (s.oscanline + (O : Int)),
          erry := wrapInt (s.erry + 2) } := by
  have hlt : ¬ wrapInt (s.erry + 2) ≥ 2147483647 := by
    unfold wrapInt
    omega
  have h1 : List.range (Int.toNat 1) = [0] := by decide
  unfold scaleLine
  dsimp only
  rw [h1, List.foldl_cons, List.foldl_nil, scaleAdvanceLoop_done _ _ _ _ hlt, scaleColumn_unit]

/-- The scanlines of `scale` from width 1 to width 1 and from height `INT_MAX`
to height 2 all write to the first new scanline: the second byte of the new
buffer stays as it was. -/
theorem scaleLines_erry_overflow (d : List Byte) (L O : Nat) (l : List Nat) (s : ScaleState)
    (h1 : s.nscanline = 0) (h2 : s.erry % 2 = 0) :
    ((l.foldl (fun (s : ScaleState) (_ : Nat) => scaleLine d 1 2147483647 1 1 2 L O s) s).tdata.length
        = s.tdata.length)
    ∧ rd (l.foldl (fun (s : ScaleState) (_ : Nat) => scaleLine d 1 2147483647 1 1 2 L O s) s).tdata 1
        = rd s.tdata 1 := by
  have key := foldl_keeps (fun a : ScaleState => a.nscanline = 0 ∧ a.erry % 2 = 0
      ∧ a.tdata.length = s.tdata.length ∧ rd a.tdata 1 = rd s.tdata 1)
    (fun (s : ScaleState) (_ : Nat) => scaleLine d 1 2147483647 1 1 2 L O s)
    (fun a _ ha => by
      obtain ⟨a1, a2, a3, a4⟩ := ha
      beta_reduce
      rw [scaleLine_erry_overflow d L O a a2]
      refine ⟨a1, ?_, ?_, ?_⟩
      · show wrapInt (a.erry + 2) % 2 = 0
        unfold wrapInt
        omega
      · show (storeBytes a.tdata (a.nscanline + 0).toNat
            (cells d (a.oscanline + 0).toNat 1)).length = s.tdata.length
        rw [length_storeBytes, a3]
      · show rd (storeBytes a.tdata (a.nscanline + 0).toNat
            (cells d (a.oscanline + 0).toNat 1)) 1 = rd s.tdata 1
        have e : (a.nscanline + 0).toNat = 0 := by rw [a1]; rfl
        rw [e, rd_one_storeBytes _ _ (by unfold cells; exact List.length_take_le _ _), a4])
    l s ⟨h1, h2, rfl, rfl⟩
  exact ⟨key.2.2.1, key.2.2.2⟩

/-- On the allocated image of width 1, height `INT_MAX` and one byte per pixel,
`scale(1, 2)` never writes the second output pixel: `erry` overflows before it
reaches the height, and the new scanline is not advanced. -/
theorem scale_erry_overflow (u : Nat → Byte) :
    ∃ b, (TGAImage.mk (some (List.replicate 2147483647 0)) 1 2147483647 1).scale 1 2 u
      = some (true, ⟨some [b, u 1], 1, 2, 1⟩) := by
  have hc : ¬ ((1 : Int) ≤ 0 ∨ (2 : Int) ≤ 0) := by decide
  have hn : toULong (wrapInt (wrapInt (1 * 2) * 1)) = 2 := by decide
  have hl : toULong (wrapInt (1 * 1)) = 1 := by decide
  have hcan : canAllocate 2 = true := by decide
  unfold TGAImage.scale
  dsimp only
  rw [if_neg hc, hn, hl, if_pos hcan]
  generalize List.range (Int.toNat 2147483647) = l
  generalize List.replicate 2147483647 (0 : Byte) = d
  obtain ⟨k1, k2⟩ := scaleLines_erry_overflow d 1 1 l
    { tdata := newArray u 2, nscanline := 0, oscanline := 0, erry := 0 } rfl
    (show (0 : Int) % 2 = 0 by decide)
  generalize (l.foldl (fun (s : ScaleState) (_ : Nat) => scaleLine d 1 2147483647 1 1 2 1 1 s)
    { tdata := newArray u 2, nscanline := 0, oscanline := 0, erry := 0 }).tdata = T at k1 k2 ⊢
  match T, k1, k2 with
  | [a, b], _, k2 =>
    have e : b = u 1 := k2
    rw [e]
    exact ⟨a, rfl⟩

/-- One scanline of `scale` from height `2^30` to height 1, while `erry` stays
below the height: the new scanline is not advanced. -/
theorem scaleLine_below (d : List Byte) (L O : Nat) (s : ScaleState) (h0 : 0 ≤ s.erry)
    (hs : s.erry + 1 < 1073741824) :
    (scaleLine d 1 1073741824 1 1 1 L O s).erry = s.erry + 1
    ∧ (scaleLine d 1 1073741824 1 1 1 L O s).nscanline = s.nscanline := by
  have e : wrapInt (s.erry + 1) = s.erry + 1 := wrapInt_eq _ (by omega) (by omega)
  have hlt : ¬ wrapInt (s.erry + 1) ≥ 1073741824 := by rw [e]; omega
  unfold scaleLine
  dsimp only
  rw [scaleAdvanceLoop_done _ _ _ _ hlt]
  exact ⟨e, rfl⟩

/-- After `j < 2^30` scanlines of `scale` from height `2^30` to height 1,
`erry` is `j` and the new scanline is still the first. -/
theorem scaleLines_below (d : List Byte) (L O : Nat) (T : List Byte) (j : Nat)
    (hj : j ≤ 1073741823) :
    ((List.range j).foldl (fun (s : ScaleState) (_ : Nat) => scaleLine d 1 1073741824 1 1 1 L O s)
        { tdata := T, nscanline := 0, oscanline := 0, erry := 0 }).erry = (j : Int)
    ∧ ((List.range j).foldl (fun (s : ScaleState) (_ : Nat) => scaleLine d 1 1073741824 1 1 1 L O s)
        { tdata := T, nscanline := 0, oscanline := 0, erry := 0 }).nscanline = 0 := by
  induction j with
  | zero => exact ⟨rfl, rfl⟩
  | succ j ih =>
    obtain ⟨i1, i2⟩ := ih (by omega)
    rw [List.range_succ, List.foldl_append, List.foldl_cons, List.foldl_nil]
    obtain ⟨g1, g2⟩ := scaleLine_below d L O _ (by rw [i1]; omega) (by rw [i1]; omega)
    rw [g1, g2, i1, i2]
    exact ⟨by push_cast; rfl, rfl⟩

/-- The last scanline of `scale` from height `2^30` to height 1 copies the
first new line to the line after it: `m_height << 1` has overflowed. -/
theorem scaleLineStores_shift (d : List Byte) (O : Nat) (s : ScaleState)
    (he : s.erry = 1073741823) (hn : s.nscanline = 0) :
    ((1 : Int), 1) ∈ scaleLineStores d 1 1073741824 1 1 1 1 O s := by
  have e1 : wrapInt (1073741823 + 1) = 1073741824 := by decide
  have e2 : Int.toNat 1073741824 = 1073741823 + 1 := by decide
  have e3 : wrapInt (1073741824 * 2) = -2147483648 := by decide
  unfold scaleLineStores
  dsimp only
  rw [he, hn, e1, e2, List.mem_append]
  refine Or.inr ?_
  rw [List.mem_map]
  refine ⟨1, ?_, rfl⟩
  rw [scaleAdvanceLoopStores]
  dsimp only
  rw [if_pos (by decide), e3, if_pos (by decide), List.mem_append]
  exact Or.inl (List.mem_singleton.mpr rfl)

/-- On the allocated image of width 1, height `2^30` and one byte per pixel,
`scale(1, 1)` copies one byte to offset 1, past the one byte of the new
buffer: `m_height << 1` overflows. -/
theorem scale_shift_overflow (u : Nat → Byte) :
    ((1 : Int), 1)
      ∈ (TGAImage.mk (some (List.replicate 1073741824 0)) 1 1073741824 1).scaleStores 1 1 u := by
  have hc : ¬ ((1 : Int) ≤ 0 ∨ (1 : Int) ≤ 0) := by decide
  have hn : toULong (wrapInt (wrapInt (1 * 1) * 1)) = 1 := by decide
  have hl : toULong (wrapInt (1 * 1)) = 1 := by decide
  have hcan : canAllocate 1 = true := by decide
  have hlt : 1073741823 < Int.toNat 1073741824 := by decide
  unfold TGAImage.scaleStores
  dsimp only
  rw [if_neg hc, hn, hl, if_pos hcan]
  generalize List.replicate 1073741824 (0 : Byte) = d
  rw [List.mem_flatMap]
  refine ⟨1073741823, List.mem_range.mpr hlt, ?_⟩
  obtain ⟨k1, k2⟩ := scaleLines_below d 1 1 (newArray u 1) 1073741823 (Nat.le_refl _)
  exact scaleLineStores_shift d 1 _ k1 k2

/-- C22 as stated fails: `scale` computes its sizes and its error terms in
`int` and nothing checks them.  On the allocated 1x1 image with one byte per
pixel, `scale(46341, 46341)` does not return: `46341 * 46341 = 2147488281` is
`-2147479015` as an `int`, which cannot be allocated as an `unsigned long`, and
the allocation of the new buffer throws.  And `scale(65536, 65536)` returns
true with a new buffer of `0` bytes, `65536 * 65536` being `0` as an `int`.
On the allocated image of width `INT_MAX` and height 1 whose bytes are all 0,
`scale(2, 1)` copies no pixel, `errx` overflowing before it reaches the width:
the result is the fresh array, here of bytes 9.  On the allocated image of
width 1 and height `INT_MAX`, `scale(1, 2)` never writes the second output
pixel, `erry` overflowing before it reaches the height.  And on the allocated
image of width 1 and height `2^30`, `scale(1, 1)` copies one byte to offset 1,
past the one byte of the new buffer, `m_height << 1` being negative. -/
theorem scale_int_overflow :
    ((TGAImage.mk (some [7]) 1 1 1).Allocated
      ∧ (TGAImage.mk (some [7]) 1 1 1).scale 46341 46341 (fun _ => 0) = none
      ∧ (TGAImage.mk (some [7]) 1 1 1).scale 65536 65536 (fun _ => 0)
          = some (true, ⟨some [], 65536, 65536, 1⟩))
    ∧ ((TGAImage.mk (some (List.replicate 2147483647 0)) 2147483647 1 1).Allocated
      ∧ (TGAImage.mk (some (List.replicate 2147483647 0)) 2147483647 1 1).scale 2 1
          (fun _ => 9) = some (true, ⟨some [9, 9], 2, 1, 1⟩))
    ∧ ((TGAImage.mk (some (List.replicate 2147483647 0)) 1 2147483647 1).Allocated
      ∧ ∃ b, (TGAImage.mk (some (List.replicate 2147483647 0)) 1 2147483647 1).scale 1 2
          (fun _ => 9) = some (true, ⟨some [b, 9], 1, 2, 1⟩))
    ∧ ((TGAImage.mk (some (List.replicate 1073741824 0)) 1 1073741824 1).Allocated
      ∧ ((1 : Int), 1)
          ∈ (TGAImage.mk (some (List.replicate 1073741824 0)) 1 1073741824 1).scaleStores 1 1
              (fun _ => 0)) := by
  refine ⟨⟨⟨_, rfl, by decide⟩, by decide, ?_⟩,
    ⟨⟨_, rfl, by rw [List.length_replicate]; decide⟩, scale_errx_overflow (fun _ => 9)⟩,
    ⟨⟨_, rfl, by rw [List.length_replicate]; decide⟩, scale_erry_overflow (fun _ => 9)⟩,
    ⟨⟨_, rfl, by rw [List.length_replicate]; decide⟩, scale_shift_overflow (fun _ => 0)⟩⟩
  obtain ⟨T, hs, hl⟩ := scale_length [7] 1 1 1 65536 65536 (fun _ => 0) (by decide) (by decide)
    (by decide)
  have hT : T = [] := List.eq_nil_of_length_eq_zero (hl.trans (by decide))
  rw [hs, hT]

/-- C22, amended: for every allocated image of width `W ≥ 1`, height `H ≥ 1`
and `bpp ≥ 1` bytes per pixel (in particular 1, 3 or 4) and all `w, h ≥ 1` for
which no `int` computation of `scale` overflows, that is, the buffer sizes
`w * h * bpp` and `W * H * bpp` are at most `INT_MAX`, `2 * H` is at most
`INT_MAX`, and the error terms `(i * w mod W) + w` for `i < W` and
`(j * h mod H) + h` for `j < H` are at most `INT_MAX`: `scale(w, h)` returns
true with width `w`, height `h` and the same bytes per pixel, and for all
`k < w`, `n < h` the pixel at `(k, n)` of the result, as a block of the buffer
and as read by `get`, is the old pixel at
`(ceil((k + 1) * W / w) - 1, ceil((n + 1) * H / h) - 1)`, where `c - 1` with
`c = ceil(a / w)` is `sourceIndex`: `(c - 1) * w < a ≤ c * w`.  Every output
byte is written: the result is the same whatever the fresh array held.  Every
copy into the new buffer lies inside its `w * h * bpp` bytes.  And
`scale(W, H)` leaves the buffer as it was. -/
theorem scale_nearest_neighbour (d : List Byte) (W H bpp w h : Nat) (uninit : Nat → Byte)
    (hW : 1 ≤ W) (hH : 1 ≤ H) (hw : 1 ≤ w) (hh : 1 ≤ h) (hlen : d.length = W * H * bpp)
    (hb : 1 ≤ bpp) (hB : w * h * bpp ≤ 2147483647) (hD : W * H * bpp ≤ 2147483647)
    (hH2 : 2 * H ≤ 2147483647) (hWw : ∀ i, i < W → i * w % W + w ≤ 2147483647)
    (hHh : ∀ j, j < H → j * h % H + h ≤ 2147483647) :
    ∃ d', (TGAImage.mk (some d) W H bpp).scale w h uninit = some (true, ⟨some d', w, h, bpp⟩)
      ∧ d'.length = w * h * bpp
      ∧ (∀ k n, k < w → n < h →
          sourceIndex k W w < W ∧ sourceIndex n H h < H
          ∧ sourceIndex k W w * w < (k + 1) * W ∧ (k + 1) * W ≤ (sourceIndex k W w + 1) * w
          ∧ sourceIndex n H h * h < (n + 1) * H ∧ (n + 1) * H ≤ (sourceIndex n H h + 1) * h
          ∧ cells d' ((k + n * w) * bpp) bpp
              = cells d ((sourceIndex k W w + sourceIndex n H h * W) * bpp) bpp
          ∧ (TGAImage.mk (some d') w h bpp).get (k : Int) (n : Int)
              = (TGAImage.mk (some d) W H bpp).get ((sourceIndex k W w : Nat) : Int)
                  ((sourceIndex n H h : Nat) : Int))
      ∧ (∀ u, (TGAImage.mk (some d) W H bpp).scale w h u = some (true, ⟨some d', w, h, bpp⟩))
      ∧ (∀ st ∈ (TGAImage.mk (some d) W H bpp).scaleStores w h uninit,
          0 ≤ st.1 ∧ st.1 + (st.2 : Int) ≤ ((w * h * bpp : Nat) : Int))
      ∧ (TGAImage.mk (some d) W H bpp).scale W H uninit = some (true, ⟨some d, W, H, bpp⟩) := by
  obtain ⟨T, hs, hl, hp⟩ := scale_closed_form d W H bpp w h uninit hW hH hw hh hlen hb hWw hHh
    hH2 hB hD
  refine ⟨T, hs, hl, fun k n hk hn => ?_, fun u => ?_,
    scaleStores_bound d W H bpp w h uninit hW hH hw hh hlen hb hWw hHh hH2 hB hD, ?_⟩
  · obtain ⟨a1, -, -⟩ := sourceIndex_range k W w hW hk
    obtain ⟨b1, -, -⟩ := sourceIndex_range n H h hH hn
    obtain ⟨a2, a3⟩ := sourceIndex_spec k W w hW hw
    obtain ⟨b2, b3⟩ := sourceIndex_spec n H h hH hh
    refine ⟨a1, b1, a2, a3, b2, b3, hp k n hk hn, ?_⟩
    rw [get_eq T w h bpp k n hk hn, get_eq d W H bpp _ _ a1 b1, hp k n hk hn]
  · obtain ⟨T', hs', hl', hp'⟩ := scale_closed_form d W H bpp w h u hW hH hw hh hlen hb hWw hHh
      hH2 hB hD
    have : T' = T := eq_of_pixels T' T w h bpp hl' hl (fun k n hk hn => by
      rw [hp' k n hk hn, hp k n hk hn])
    rw [hs', this]
  · have hWmax : W ≤ 2147483647 := by
      have h1 : W * 1 ≤ W * (H * bpp) := Nat.mul_le_mul_left W (Nat.mul_pos hH hb)
      have e : W * (H * bpp) = W * H * bpp := by ring
      omega
    obtain ⟨T', hs', hl', hp'⟩ := scale_closed_form d W H bpp W H uninit hW hH hW hH hlen hb
      (fun i _ => by rw [Nat.mul_mod_left]; omega)
      (fun j _ => by rw [Nat.mul_mod_left]; omega) hH2 hD hD
    have : T' = d := eq_of_pixels T' d W H bpp hl' hlen (fun k n hk hn => by
      rw [hp' k n hk hn, sourceIndex_same k W hW, sourceIndex_same n H hH])
    rw [hs', this]

/-- The amended C22 at a 3x2 image with one byte per pixel scaled to 2x5. -/
theorem scale_nearest_neighbour_witness :
    ∃ d', (TGAImage.mk (some [1, 2, 3, 4, 5, 6]) (3 : Nat) (2 : Nat) (1 : Nat)).scale (2 : Nat)
          (5 : Nat) (fun _ => 0)
        = some (true, ⟨some d', (2 : Nat), (5 : Nat), (1 : Nat)⟩)
      ∧ d'.length = 2 * 5 * 1
      ∧ (∀ k n, k < 2 → n < 5 →
          sourceIndex k 3 2 < 3 ∧ sourceIndex n 2 5 < 2
          ∧ sourceIndex k 3 2 * 2 < (k + 1) * 3 ∧ (k + 1) * 3 ≤ (sourceIndex k 3 2 + 1) * 2
          ∧ sourceIndex n 2 5 * 5 < (n + 1) * 2 ∧ (n + 1) * 2 ≤ (sourceIndex n 2 5 + 1) * 5
          ∧ cells d' ((k + n * 2) * 1) 1
              = cells [1, 2, 3, 4, 5, 6] ((sourceIndex k 3 2 + sourceIndex n 2 5 * 3) * 1) 1
          ∧ (TGAImage.mk (some d') (2 : Nat) (5 : Nat) (1 : Nat)).get (k : Int) (n : Int)
              = (TGAImage.mk (some [1, 2, 3, 4, 5, 6]) (3 : Nat) (2 : Nat) (1 : Nat)).get
                  ((sourceIndex k 3 2 : Nat) : Int) ((sourceIndex n 2 5 : Nat) : Int))
      ∧ (∀ u, (TGAImage.mk (some [1, 2, 3, 4, 5, 6]) (3 : Nat) (2 : Nat) (1 : Nat)).scale
            (2 : Nat) (5 : Nat) u
          = some (true, ⟨some d', (2 : Nat), (5 : Nat), (1 : Nat)⟩))
      ∧ (∀ st ∈ (TGAImage.mk (some [1, 2, 3, 4, 5, 6]) (3 : Nat) (2 : Nat) (1 : Nat)).scaleStores
            (2 : Nat) (5 : Nat) (fun _ => 0),
          0 ≤ st.1 ∧ st.1 + (st.2 : Int) ≤ ((2 * 5 * 1 : Nat) : Int))
      ∧ (TGAImage.mk (some [1, 2, 3, 4, 5, 6]) (3 : Nat) (2 : Nat) (1 : Nat)).scale (3 : Nat)
            (2 : Nat) (fun _ => 0)
          = some (true, ⟨some [1, 2, 3, 4, 5, 6], (3 : Nat), (2 : Nat), (1 : Nat)⟩) :=
  scale_nearest_neighbour [1, 2, 3, 4, 5, 6] 3 2 1 2 5 (fun _ => 0) (by decide) (by decide)
    (by decide) (by decide) (by decide) (by decide) (by decide) (by decide) (by decide)
    (by decide) (by decide)

/-! ## The stores of the decoder -/

/-- The stores of one pixel go to the `px.length` cells from `currentbyte` on. -/
theorem mem_storeOffsets (s : RleState) (px : List Byte) (o : Nat)
    (ho : o ∈ s.storeOffsets px) : s.currentbyte ≤ o ∧ o < s.currentbyte + px.length := by
  unfold RleState.storeOffsets at ho
  rw [List.mem_map] at ho
  obtain ⟨t, ht, rfl⟩ := ho
  rw [List.mem_range] at ht
  omega

theorem length_readBytes (n : Nat) (inp px rest : List Byte)
    (h : readBytes n inp = some (px, rest)) : px.length = n := by
  unfold readBytes at h
  by_cases hn : n ≤ inp.length
  · rw [if_pos hn] at h
    simp only [Option.some.injEq, Prod.mk.injEq] at h
    rw [← h.1, List.length_take]
    omega
  · rw [if_neg hn] at h
    cases h

/-- The stores of a raw packet that starts inside the image reach at most one
pixel past the image, and stay inside it when the packet is accepted. -/
theorem loadRawPacketStores_bound (bpp pixelcount n : Nat) (s : RleState)
    (hcb : s.currentbyte = s.currentpixel * bpp) (hcp : s.currentpixel ≤ pixelcount) :
    (∀ o ∈ loadRawPacketStores bpp pixelcount n s, o < (pixelcount + 1) * bpp)
    ∧ ((loadRawPacket bpp pixelcount n s).1 = true →
        (∀ o ∈ loadRawPacketStores bpp pixelcount n s, o < pixelcount * bpp)
        ∧ (loadRawPacket bpp pixelcount n s).2.currentbyte
            = (loadRawPacket bpp pixelcount n s).2.currentpixel * bpp
        ∧ (loadRawPacket bpp pixelcount n s).2.currentpixel ≤ pixelcount) := by
  induction n generalizing s with
  | zero =>
    simp only [loadRawPacketStores, loadRawPacket, List.not_mem_nil, false_imp_iff,
      implies_true, true_and]
    exact fun _ => ⟨hcb, hcp⟩
  | succ n ih =>
    rw [loadRawPacketStores, loadRawPacket]
    cases hr : readBytes bpp s.inp with
    | none => simp
    | some pr =>
      obtain ⟨px, rest⟩ := pr
      have hpx := length_readBytes bpp s.inp px rest hr
      have hm1 : (pixelcount + 1) * bpp = pixelcount * bpp + bpp := Nat.succ_mul _ _
      have hm2 : (s.currentpixel + 1) * bpp = s.currentpixel * bpp + bpp := Nat.succ_mul _ _
      have hle : s.currentpixel * bpp ≤ pixelcount * bpp := Nat.mul_le_mul_right bpp hcp
      have hoff : ∀ o ∈ s.storeOffsets px, o < s.currentpixel * bpp + bpp := fun o ho => by
        have := mem_storeOffsets s px o ho
        omega
      simp only
      by_cases hover : ({ s with inp := rest }.storePixel px).currentpixel > pixelcount
      · rw [if_pos hover, if_pos hover, List.append_nil]
        refine ⟨fun o ho => ?_, fun hf => ?_⟩
        · have := hoff o ho
          omega
        · cases hf
      · rw [if_neg hover, if_neg hover]
        have hcp1 : s.currentpixel + 1 ≤ pixelcount := by
          simp only [RleState.storePixel] at hover
          omega
        have hle1 : (s.currentpixel + 1) * bpp ≤ pixelcount * bpp :=
          Nat.mul_le_mul_right bpp hcp1
        obtain ⟨i1, i2⟩ := ih ({ s with inp := rest }.storePixel px)
          (by simp only [RleState.storePixel]; rw [hcb, hpx, hm2])
          (by simp only [RleState.storePixel]; exact hcp1)
        refine ⟨fun o ho => ?_, fun hf => ?_⟩
        · rw [List.mem_append] at ho
          rcases ho with ho | ho
          · have := hoff o ho
            omega
          · exact i1 o ho
        · obtain ⟨j1, j2, j3⟩ := i2 hf
          refine ⟨fun o ho => ?_, j2, j3⟩
          rw [List.mem_append] at ho
          rcases ho with ho | ho
          · have := hoff o ho
            omega
          · exact j1 o ho

/-- The stores of a run-length packet that starts inside the image reach at
most one pixel past the image, and stay inside it when the packet is
accepted. -/
theorem loadRunPacketStores_bound (bpp pixelcount n : Nat) (px : List Byte) (s : RleState)
    (hpx : px.length = bpp)
    (hcb : s.currentbyte = s.currentpixel * bpp) (hcp : s.currentpixel ≤ pixelcount) :
    (∀ o ∈ loadRunPacketStores pixelcount px n s, o < (pixelcount + 1) * bpp)
    ∧ ((loadRunPacket pixelcount px n s).1 = true →
        (∀ o ∈ loadRunPacketStores pixelcount px n s, o < pixelcount * bpp)
        ∧ (loadRunPacket pixelcount px n s).2.currentbyte
            = (loadRunPacket pixelcount px n s).2.currentpixel * bpp
        ∧ (loadRunPacket pixelcount px n s).2.currentpixel ≤ pixelcount) := by
  induction n generalizing s with
  | zero =>
    simp only [loadRunPacketStores, loadRunPacket, List.not_mem_nil, false_imp_iff,
      implies_true, true_and]
    exact fun _ => ⟨hcb, hcp⟩
  | succ n ih =>
    rw [loadRunPacketStores, loadRunPacket]
    have hm1 : (pixelcount + 1) * bpp = pixelcount * bpp + bpp := Nat.succ_mul _ _
    have hm2 : (s.currentpixel + 1) * bpp = s.currentpixel * bpp + bpp := Nat.succ_mul _ _
    have hle : s.currentpixel * bpp ≤ pixelcount * bpp := Nat.mul_le_mul_right bpp hcp
    have hoff : ∀ o ∈ s.storeOffsets px, o < s.currentpixel * bpp + bpp := fun o ho => by
      have := mem_storeOffsets s px o ho
      omega
    by_cases hover : (s.storePixel px).currentpixel > pixelcount
    · rw [if_pos hover, if_pos hover, List.append_nil]
      refine ⟨fun o ho => ?_, fun hf => ?_⟩
      · have := hoff o ho
        omega
      · cases hf
    · rw [if_neg hover, if_neg hover]
      have hcp1 : s.currentpixel + 1 ≤ pixelcount := by
        simp only [RleState.storePixel] at hover
        omega
      have hle1 : (s.currentpixel + 1) * bpp ≤ pixelcount * bpp :=
        Nat.mul_le_mul_right bpp hcp1
      obtain ⟨i1, i2⟩ := ih (s.storePixel px)
        (by simp only [RleState.storePixel]; rw [hcb, hpx, hm2])
        (by simp only [RleState.storePixel]; exact hcp1)
      refine ⟨fun o ho => ?_, fun hf => ?_⟩
      · rw [List.mem_append] at ho
        rcases ho with ho | ho
        · have := hoff o ho
          omega
        · exact i1 o ho
      · obtain ⟨j1, j2, j3⟩ := i2 hf
        refine ⟨fun o ho => ?_, j2, j3⟩
        rw [List.mem_append] at ho
        rcases ho with ho | ho
        · have := hoff o ho
          omega
        · exact j1 o ho

/-- The stores of one pass of the decoder loop that starts inside the image
reach at most one pixel past the image, and stay inside it when the pass
succeeds. -/
theorem loadPacketStores_bound (bpp pixelcount : Nat) (s : RleState)
    (hcb : s.currentbyte = s.currentpixel * bpp) (hcp : s.currentpixel ≤ pixelcount) :
    (∀ o ∈ loadPacketStores bpp pixelcount s, o < (pixelcount + 1) * bpp)
    ∧ ((loadPacket bpp pixelcount s).1 = true →
        (∀ o ∈ loadPacketStores bpp pixelcount s, o < pixelcount * bpp)
        ∧ (loadPacket bpp pixelcount s).2.currentbyte
            = (loadPacket bpp pixelcount s).2.currentpixel * bpp
        ∧ (loadPacket bpp pixelcount s).2.currentpixel ≤ pixelcount) := by
  unfold loadPacketStores loadPacket
  cases hs : s.inp with
  | nil => simp
  | cons hd rest =>
    simp only
    by_cases hraw : hd.val < 128
    · rw [if_pos hraw, if_pos hraw]
      exact loadRawPacketStores_bound bpp pixelcount _ { s with inp := rest } hcb hcp
    · rw [if_neg hraw, if_neg hraw]
      cases hr : readBytes bpp rest with
      | none => simp
      | some pr =>
        obtain ⟨px, rest1⟩ := pr
        simp only
        exact loadRunPacketStores_bound bpp pixelcount _ px { s with inp := rest1 }
          (length_readBytes bpp rest px rest1 hr) hcb hcp

/-- The stores of the decoder loop reach at most one pixel past the image, and
stay inside it when the loop returns true. -/
theorem loadRleLoopStores_bound (bpp pixelcount fuel : Nat) (s : RleState)
    (hcb : s.currentbyte = s.currentpixel * bpp) (hcp : s.currentpixel ≤ pixelcount) :
    (∀ o ∈ loadRleLoopStores bpp pixelcount fuel s, o < (pixelcount + 1) * bpp)
    ∧ ((loadRleLoop bpp pixelcount fuel s).1 = true →
        ∀ o ∈ loadRleLoopStores bpp pixelcount fuel s, o < pixelcount * bpp) := by
  induction fuel generalizing s with
  | zero => simp [loadRleLoopStores, loadRleLoop]
  | succ fuel ih =>
    rw [loadRleLoopStores, loadRleLoop]
    obtain ⟨p1, p2⟩ := loadPacketStores_bound bpp pixelcount s hcb hcp
    by_cases hok : (loadPacket bpp pixelcount s).1 = false
    · rw [if_pos hok, if_pos hok, List.append_nil]
      refine ⟨p1, fun hf => ?_⟩
      rw [hok] at hf
      cases hf
    · rw [if_neg hok, if_neg hok]
      obtain ⟨q1, q2, q3⟩ := p2 (by simpa using hok)
      by_cases hmore : (loadPacket bpp pixelcount s).2.currentpixel < pixelcount
      · rw [if_pos hmore, if_pos hmore]
        obtain ⟨i1, i2⟩ := ih _ q2 q3
        refine ⟨fun o ho => ?_, fun hf o ho => ?_⟩
        · rw [List.mem_append] at ho
          rcases ho with ho | ho
          · exact p1 o ho
          · exact i1 o ho
        · rw [List.mem_append] at ho
          rcases ho with ho | ho
          · exact q1 o ho
          · exact i2 hf o ho
      · rw [if_neg hmore, if_neg hmore, List.append_nil]
        exact ⟨p1, fun _ => q1⟩

/-- The stores of `load_rle_data` reach at most one pixel past the
`width * height` pixels of the image, and stay inside them when
`load_rle_data` returns true. -/
theorem load_rle_data_stores_bound (img : TGAImage) (inp : List Byte) :
    (∀ o ∈ img.load_rle_data_stores inp,
      o < ((img.m_width * img.m_height).toNat + 1) * img.m_bytespp.toNat)
    ∧ ((img.load_rle_data inp).1 = true →
        ∀ o ∈ img.load_rle_data_stores inp,
          o < (img.m_width * img.m_height).toNat * img.m_bytespp.toNat) := by
  unfold TGAImage.load_rle_data_stores TGAImage.load_rle_data
  exact loadRleLoopStores_bound _ _ _ _ (by simp) (Nat.zero_le _)

/-- C23 (the code at the failing input): the RLE grayscale file of a 1x1 image
whose pixel data are the run packet `129, 7` of two pixels.  `read_tga_file`
allocates a buffer of one byte and `load_rle_data` returns false, but only
after its second store, which goes to offset 1, past the one byte of the
buffer. -/
theorem load_rle_data_stores_past_buffer :
    (TGAImage.mk none 0 0 0).read_tga_file
        (some ([0, 0, 11, 0, 0, 0, 0, 0, 0, 0, 0, 0, 1, 0, 1, 0, 8, 32] ++ [129, 7])) (fun _ => 0)
      = some (false, ⟨some [7], 1, 1, 1⟩)
    ∧ (TGAImage.mk (some [0]) 1 1 1).load_rle_data [129, 7] = (false, ⟨some [7], 1, 1, 1⟩)
    ∧ (TGAImage.mk (some [0]) 1 1 1).load_rle_data_stores [129, 7] = [0, 1]
    ∧ ¬ (∀ o ∈ (TGAImage.mk (some [0]) 1 1 1).load_rle_data_stores [129, 7], o < 1 * 1 * 1) := by
  decide
